import Mathlib

/-!
# One time step of the chunked field simulation (`src/step.cpp`)

A shallow embedding of `fields::step`, `fields::phase_material`,
`fields::step_boundaries` and `fields_chunk::step_h_source`.

* A `double` is the rational it stands for. The arithmetic that `step.cpp` itself does on
  field values (the `+=` of `step_h_source`, the phase product of the unpack pass) rounds
  every operation to the nearest binary64 value (`round_double`); infinities and NaN are
  outside the model. The material blend (the weight `1.0 / phasein_time` and `mix_with`)
  and `time` are exact, as the specification models them.
* An `int` counter (`t`, `phasein_time`) is an integer; `x--` and `x += 1` wrap around at
  `INT_MIN` and `INT_MAX` as two's-complement hardware does.
* A `double *` into a chunk's field arrays is a `Slot` (component, real or
  imaginary part, index); the arrays `f[c][cmp][i]` are one map from slots to values.
* Pointer arrays whose length matters (`connections`, `connection_phases`) are
  lists, and an access past the end makes the operation return `none`.
* Collaborators that are not part of `step.cpp` are fields of `Externals`.
-/

namespace meep

/-! ## Machine arithmetic -/

/-- The least value of a 32-bit `int`. -/
def INT_MIN : Int := -2147483648

/-- The greatest value of a 32-bit `int`. -/
def INT_MAX : Int := 2147483647

/-- The statement `x--` on an `int`: one less, and at `INT_MIN`, where the decrement
overflows, the two's-complement result `INT_MAX`. -/
def int_decrement (x : Int) : Int := if x = INT_MIN then INT_MAX else x - 1

/-- The statement `x += 1` on an `int`: one more, and at `INT_MAX`, where the increment
overflows, the two's-complement result `INT_MIN`. -/
def int_increment (x : Int) : Int := if x = INT_MAX then INT_MIN else x + 1

/-- Round to the nearest integer, a tie to the even one. -/
def round_half_even (x : ℚ) : Int :=
  if x - ⌊x⌋ < 1 / 2 then ⌊x⌋
  else if 1 / 2 < x - ⌊x⌋ then ⌊x⌋ + 1
  else if ⌊x⌋ % 2 = 0 then ⌊x⌋ else ⌊x⌋ + 1

/-- The binary exponent of the unit in the last place of the binary64 values around `q`:
52 binary places below the leading bit of `q` (a significand of 53 bits), and no less than
`-1074`, the exponent of the subnormal values. -/
def ulp_exponent (q : ℚ) : Int := max (Int.log 2 |q|) (-1022) - 52

/-- The result a binary64 operation returns for the exact result `q`: the nearest multiple
of the unit in the last place, a tie to the one with even significand (round to nearest,
ties to even). A result beyond the largest finite `double` is outside the model. -/
def round_double (q : ℚ) : ℚ :=
  if q = 0 then 0
  else (round_half_even (q / 2 ^ ulp_exponent q) : ℚ) * 2 ^ ulp_exponent q

/-- The operation `a + b` on `double`. -/
def double_add (a b : ℚ) : ℚ := round_double (a + b)

/-- The operation `a - b` on `double`. -/
def double_sub (a b : ℚ) : ℚ := round_double (a - b)

/-- The operation `a * b` on `double`. -/
def double_mul (a b : ℚ) : ℚ := round_double (a * b)

/-! ## Data model -/

/-- The four field categories, the argument of `step_boundaries`. -/
inductive field_type where
  | H_stuff | D_stuff | E_stuff | P_stuff
  deriving DecidableEq, Repr

/-- Direction of a connection. -/
inductive in_or_out where
  | Incoming | Outgoing
  deriving DecidableEq, Repr

/-- Modelled from the spec: `enum connect_phase` of `meep.h` (not among the sources),
numbered phase-rotate = 0, negate = 1, copy = 2; the pack loop runs over `ip = 0, 1, 2`. -/
def CONNECT_PHASE : Nat := 0

/-- Modelled from the spec: the negate kind, numbered 1. -/
def CONNECT_NEGATE : Nat := 1

/-- Modelled from the spec: the copy kind, numbered 2. -/
def CONNECT_COPY : Nat := 2

/-- The target of a `double *` into the arrays `f[c][cmp][i]` of one chunk. -/
structure Slot where
  c : Nat
  cmp : Nat
  i : Nat
  deriving DecidableEq, Repr

/-- A material grid (`structure_chunk`): one value per grid point. -/
abbrev structure_chunk := Nat → ℚ

/-- Modelled from the spec: `structure_chunk::mix_with(n, w)` is not among the sources;
it is the linear blend `s := s + w * (n - s)` at every grid point. -/
def mix_with (s n : structure_chunk) (w : ℚ) : structure_chunk :=
  fun p => s p + w * (n p - s p)

/-- A source volume (`src_vol`): the component it drives, `npts` points with their
storage indices `index[j]`, and the complex current `current(j)` as (real, imaginary). -/
structure src_vol where
  c : Nat
  npts : Nat
  index : Nat → Nat
  current : Nat → ℚ × ℚ

/-- A time envelope (`src_time`); its content belongs to the source collaborator. -/
structure src_time where
  data : List ℚ

/-- The part of `fields_chunk` that `step.cpp` touches. -/
structure fields_chunk where
  is_mine : Bool
  n_proc : Nat
  is_real : Bool
  /-- Whether `f[c][0]` is allocated (non-null). -/
  f_alloc : Nat → Bool
  /-- Whether `f[c][1]` is allocated (non-null). -/
  f_imag_alloc : Nat → Bool
  f : Slot → ℚ
  connections : field_type → Nat → in_or_out → List Slot
  connection_phases : field_type → List (ℚ × ℚ)
  s : structure_chunk
  new_s : Option structure_chunk
  h_sources : List src_vol

/-- The part of `fields` that `step.cpp` touches. -/
structure fields where
  num_chunks : Nat
  chunks : Nat → fields_chunk
  comm_sizes : field_type → Nat → Nat → Nat
  comm_blocks : field_type → Nat → Nat → ℚ
  t : Int
  dt : ℚ
  phasein_time : Int
  fluxes : Bool
  sources : List src_time
  quiet : Bool
  last_step_output_wall_time : ℚ
  last_step_output_t : Int

/-- Collaborators called from `step.cpp` whose code lives elsewhere. The chunk-level
kernels return the new field storage of the chunk. -/
structure Externals where
  connect_chunks : fields → fields
  zero_metal : field_type → fields_chunk → (Slot → ℚ)
  chunk_update_e_from_d : fields_chunk → (Slot → ℚ)
  is_magnetic : Nat → Bool
  step_h : fields → fields
  step_d : fields → fields
  update_e_from_d : fields → fields
  update_from_e : fields → fields
  update_half : fields → fields
  update : fields → fields
  update_dfts : fields → fields
  src_time_update : ℚ → ℚ → src_time → src_time
  /-- What a posted receive for buffer `pair` delivers. -/
  received : field_type → Nat → Nat → ℚ
  /-- The successive readings of `wall_time()`. -/
  wall_time : Nat → ℚ

/-- Replace chunk `i`. -/
def fields.set_chunk (st : fields) (i : Nat) (ch : fields_chunk) : fields :=
  { st with chunks := fun i2 => if i2 = i then ch else st.chunks i2 }

/-- A loop whose body threads a cursor state and emits the statements it executes:
the statements of all iterations in order, and the final cursor. -/
def for_loop {σ ι ω : Type} (body : ι → σ → List ω × σ) : List ι → σ → List ω × σ
  | [], s => ([], s)
  | i :: is, s =>
    let r := body i s
    let r2 := for_loop body is r.2
    (r.1 ++ r2.1, r2.2)

/-! ## Material phase-in (`step.cpp` 98-110) -/

/-- The method `fields_chunk::phase_material(int phasein_time)`. -/
def fields_chunk.phase_material (E : Externals) (ch : fields_chunk) (phasein_time : Int) :
    fields_chunk :=
  match ch.new_s with
  | some new_s =>
    if phasein_time > 0 then
      let ch1 := { ch with s := mix_with ch.s new_s (1 / (phasein_time : ℚ)) }
      { ch1 with f := E.chunk_update_e_from_d ch1 }
    else ch
  | none => ch

/-- The method `fields::phase_material()`. -/
def fields.phase_material (E : Externals) (st : fields) : fields :=
  let st1 := (List.range st.num_chunks).foldl
    (fun acc i =>
      if (acc.chunks i).is_mine then
        acc.set_chunk i ((acc.chunks i).phase_material E acc.phasein_time)
      else acc) st
  { st1 with phasein_time := int_decrement st1.phasein_time }

/-! ## Sources (`step.cpp` 217-246) -/

/-- The loop body of `fields_chunk::step_h_source` for point `j` of volume `sv`, with
`imag_alloc` telling whether `f[c][1]` is allocated; `none` if the statement
`f[c][1][i] += imag(A)` goes through a null `f[c][1]`. -/
def deposit_point (is_real imag_alloc : Bool) (sv : src_vol) (f : Slot → ℚ) (j : Nat) :
    Option (Slot → ℚ) :=
  let A := sv.current j
  let i := sv.index j
  let f1 := Function.update f ⟨sv.c, 0, i⟩ (double_add (f ⟨sv.c, 0, i⟩) A.1)
  if !is_real then
    if imag_alloc then
      some (Function.update f1 ⟨sv.c, 1, i⟩ (double_add (f1 ⟨sv.c, 1, i⟩) A.2))
    else none
  else some f1

/-- The loop `for (int j=0; j<sv->npts; j++)` of `fields_chunk::step_h_source`. -/
def deposit_points (is_real imag_alloc : Bool) (sv : src_vol) (f : Slot → ℚ) :
    Option (Slot → ℚ) :=
  (List.range sv.npts).foldlM (deposit_point is_real imag_alloc sv) f

/-- The method `fields_chunk::step_h_source(src_vol *sv, double time)`: the recursion
along `sv->next` is the recursion over the list of source volumes. -/
def fields_chunk.step_h_source (E : Externals) (ch : fields_chunk) :
    List src_vol → ℚ → Option fields_chunk
  | [], _ => some ch
  | sv :: next, time =>
    if ch.f_alloc sv.c && E.is_magnetic sv.c then
      match deposit_points ch.is_real (ch.f_imag_alloc sv.c) sv ch.f with
      | some f2 => fields_chunk.step_h_source E { ch with f := f2 } next time
      | none => none
    else fields_chunk.step_h_source E ch next time

/-- Modelled from the spec: `fields::time()` of `meep.h`, the step counter times the
step size. -/
def fields.time (st : fields) : ℚ := (st.t : ℚ) * st.dt

/-- The method `fields::step_h_source()`. -/
def fields.step_h_source (E : Externals) (st : fields) : Option fields :=
  let tim := st.time
  (List.range st.num_chunks).foldlM
    (fun acc i =>
      if (acc.chunks i).is_mine then
        ((acc.chunks i).step_h_source E (acc.chunks i).h_sources tim).map (acc.set_chunk i)
      else some acc) st

/-- The method `fields_chunk::calc_sources(double time)`: it does nothing. -/
def fields_chunk.calc_sources (ch : fields_chunk) (_time : ℚ) : fields_chunk := ch

/-- The method `fields::calc_sources(double tim)`. -/
def fields.calc_sources (E : Externals) (tim : ℚ) (st : fields) : fields :=
  let st1 := { st with sources := st.sources.map (E.src_time_update tim st.dt) }
  (List.range st1.num_chunks).foldl
    (fun acc i =>
      if (acc.chunks i).is_mine then acc.set_chunk i ((acc.chunks i).calc_sources tim)
      else acc) st1

/-! ## Boundary exchange (`step.cpp` 112-215)

The bounds and cursors of the pack, exchange and unpack loops depend on `num_chunks`,
`is_mine` and `comm_sizes` only, never on field values. Each loop nest is therefore
written as the list of statements it executes, with the cursors `wh[ip]` and `n0`
threaded as in the source, and the statements are then run in that order. -/

/-- Modelled from the spec: `comm_size_tot(ft, pair)` of `meep.h`, the sum of the three
kinds' sizes. -/
def fields.comm_size_tot (st : fields) (ft : field_type) (pair : Nat) : Nat :=
  st.comm_sizes ft CONNECT_PHASE pair + st.comm_sizes ft CONNECT_NEGATE pair
    + st.comm_sizes ft CONNECT_COPY pair

/-- The zero-metal pass (`step.cpp` 117-118). -/
def fields.zero_metal_pass (E : Externals) (ft : field_type) (st : fields) : fields :=
  (List.range st.num_chunks).foldl
    (fun acc i =>
      if (acc.chunks i).is_mine then
        acc.set_chunk i { acc.chunks i with f := E.zero_metal ft (acc.chunks i) }
      else acc) st

/-- One execution of the pack statement
`comm_blocks[ft][pair][off] = *(chunks[j]->connections[ft][ip][Outgoing][wh])`,
with `off = n0 + n` and `wh` the value of `wh[ip]` before its increment. -/
structure PackOp where
  j : Nat
  pair : Nat
  ip : Nat
  off : Nat
  wh : Nat
  deriving DecidableEq, Repr

/-- The loop `for (n = 0; n < comm_sizes[ft][ip][pair]; n++)` of the pack pass. -/
def pack_n_loop (j pair ip n0 size : Nat) (wh : Nat → Nat) : List PackOp × (Nat → Nat) :=
  for_loop (fun n wh => ([PackOp.mk j pair ip (n0 + n) (wh ip)],
    Function.update wh ip (wh ip + 1))) (List.range size) wh

/-- The loop `for (ip = 0; ip < 3; ip++)` of the pack pass; the cursor is `(n0, wh)`. -/
def pack_ip_loop (st : fields) (ft : field_type) (j pair : Nat) (wh : Nat → Nat) :
    List PackOp × (Nat × (Nat → Nat)) :=
  for_loop (fun ip (c : Nat × (Nat → Nat)) =>
    let r := pack_n_loop j pair ip c.1 (st.comm_sizes ft ip pair) c.2
    (r.1, (c.1 + st.comm_sizes ft ip pair, r.2))) (List.range 3) (0, wh)

/-- The loop `for (i = 0; i < num_chunks; i++)` of the pack pass for source chunk `j`,
starting from `wh = {0,0,0}`. -/
def pack_i_loop (st : fields) (ft : field_type) (j : Nat) : List PackOp × (Nat → Nat) :=
  for_loop (fun i wh =>
    let r := pack_ip_loop st ft j (j + i * st.num_chunks) wh
    (r.1, r.2.2)) (List.range st.num_chunks) (fun _ => 0)

/-- The statements of the whole pack pass (`step.cpp` 127-140), in execution order. -/
def pack_ops (st : fields) (ft : field_type) : List PackOp :=
  (for_loop (fun j (_ : Unit) =>
    (if (st.chunks j).is_mine then (pack_i_loop st ft j).1 else [], ()))
    (List.range st.num_chunks) ()).1

/-- Write `v` at offset `off` of the buffer `comm_blocks[ft][pair]`. -/
def fields.set_block (st : fields) (ft : field_type) (pair off : Nat) (v : ℚ) : fields :=
  { st with
    comm_blocks := fun ft2 pair2 off2 =>
      if ft2 = ft ∧ pair2 = pair ∧ off2 = off then v else st.comm_blocks ft2 pair2 off2 }

/-- Run one pack statement; `none` if the connection array is read past its end. -/
def pack_apply (ft : field_type) (st : fields) (op : PackOp) : Option fields :=
  match ((st.chunks op.j).connections ft op.ip in_or_out.Outgoing)[op.wh]? with
  | some p => some (st.set_block ft op.pair op.off ((st.chunks op.j).f p))
  | none => none

/-- The pack pass. -/
def fields.pack (ft : field_type) (st : fields) : Option fields :=
  (pack_ops st ft).foldlM (pack_apply ft) st

/-- A posted `MPI_Isend` (`is_send`) or `MPI_Irecv`: buffer `pair`, `count` doubles,
partner process `peer`, message tag `tag`. -/
structure Request where
  is_send : Bool
  pair : Nat
  count : Nat
  peer : Nat
  tag : Nat
  deriving DecidableEq, Repr

/-- The body of the exchange loop (`step.cpp` 163-177) for loop indices `noti`, `j`;
the cursor is the array `tagto`. -/
def exchange_body (st : fields) (ft : field_type) (noti j : Nat) (tagto : Nat → Nat) :
    List Request × (Nat → Nat) :=
  let i := (noti + j) % st.num_chunks
  let pair := j + i * st.num_chunks
  let comm_size := st.comm_size_tot ft pair
  if comm_size > 0 then
    let r1 : List Request × (Nat → Nat) :=
      if (st.chunks j).is_mine && !(st.chunks i).is_mine then
        ([Request.mk true pair comm_size (st.chunks i).n_proc (tagto (st.chunks i).n_proc)],
          Function.update tagto (st.chunks i).n_proc (tagto (st.chunks i).n_proc + 1))
      else ([], tagto)
    let r2 : List Request × (Nat → Nat) :=
      if (st.chunks i).is_mine && !(st.chunks j).is_mine then
        ([Request.mk false pair comm_size (st.chunks j).n_proc (r1.2 (st.chunks j).n_proc)],
          Function.update r1.2 (st.chunks j).n_proc (r1.2 (st.chunks j).n_proc + 1))
      else ([], r1.2)
    (r1.1 ++ r2.1, r2.2)
  else ([], tagto)

/-- The requests posted by the exchange loops (`step.cpp` 160-178), in posting order,
starting from `tagto[i] = 0`. -/
def exchange_requests (st : fields) (ft : field_type) : List Request :=
  (for_loop (fun noti tagto =>
    for_loop (fun j tagto => exchange_body st ft noti j tagto)
      (List.range st.num_chunks) tagto)
    (List.range st.num_chunks) (fun _ => 0)).1

/-- Completion of one request (`MPI_Waitall`): a receive fills the first `count`
entries of its buffer with what the sender delivered; a send leaves it as it is. -/
def complete_request (E : Externals) (ft : field_type) (st : fields) (r : Request) : fields :=
  if r.is_send then st
  else { st with
    comm_blocks := fun ft2 pair2 off2 =>
      if ft2 = ft ∧ pair2 = r.pair ∧ off2 < r.count then E.received ft r.pair off2
      else st.comm_blocks ft2 pair2 off2 }

/-- The exchange phase (`step.cpp` 154-184); `none` is the abort "Too many requests". -/
def fields.exchange (E : Externals) (ft : field_type) (st : fields) : Option fields :=
  let reqs := exchange_requests st ft
  if reqs.length > st.num_chunks * st.num_chunks then none
  else some (reqs.foldl (complete_request E ft) st)

/-- One execution of an unpack statement for kind `ip`: the buffer offset `off`
(`n` for phase-rotate, `n0 + n` otherwise) of buffer `pair` and the value `wh` of
`wh[ip]` at that point. A phase-rotate statement is one iteration of its loop: it reads
offsets `off`, `off + 1` and writes the connections `wh`, `wh + 1`. -/
structure UnpackOp where
  i : Nat
  pair : Nat
  ip : Nat
  off : Nat
  wh : Nat
  deriving DecidableEq, Repr

/-- The phase-rotate loop `for (n = 0; n < size; n += 2, wh[ip] += 2)`: `n` runs over
the even numbers below `size`. -/
def unpack_phase_loop (i pair size : Nat) (wh : Nat → Nat) : List UnpackOp × (Nat → Nat) :=
  for_loop (fun n wh => ([UnpackOp.mk i pair CONNECT_PHASE n (wh CONNECT_PHASE)],
    Function.update wh CONNECT_PHASE (wh CONNECT_PHASE + 2)))
    ((List.range size).filter (fun n => n % 2 = 0)) wh

/-- The negate and copy loops `for (n = 0; n < size; ++n)` with `wh[ip]++`. -/
def unpack_n_loop (i pair ip n0 size : Nat) (wh : Nat → Nat) : List UnpackOp × (Nat → Nat) :=
  for_loop (fun n wh => ([UnpackOp.mk i pair ip (n0 + n) (wh ip)],
    Function.update wh ip (wh ip + 1))) (List.range size) wh

/-- The body of the loop over `j` of the unpack pass (`step.cpp` 191-210). -/
def unpack_pair (st : fields) (ft : field_type) (i j : Nat) (wh : Nat → Nat) :
    List UnpackOp × (Nat → Nat) :=
  let pair := j + i * st.num_chunks
  let r1 := unpack_phase_loop i pair (st.comm_sizes ft CONNECT_PHASE pair) wh
  let n0 := st.comm_sizes ft CONNECT_PHASE pair
  let r2 := unpack_n_loop i pair CONNECT_NEGATE n0 (st.comm_sizes ft CONNECT_NEGATE pair) r1.2
  let n0 := n0 + st.comm_sizes ft CONNECT_NEGATE pair
  let r3 := unpack_n_loop i pair CONNECT_COPY n0 (st.comm_sizes ft CONNECT_COPY pair) r2.2
  (r1.1 ++ r2.1 ++ r3.1, r3.2)

/-- The loop `for (j = 0; j < num_chunks; j++)` of the unpack pass for destination
chunk `i`, starting from `wh = {0,0,0}`. -/
def unpack_j_loop (st : fields) (ft : field_type) (i : Nat) : List UnpackOp × (Nat → Nat) :=
  for_loop (fun j wh => unpack_pair st ft i j wh) (List.range st.num_chunks) (fun _ => 0)

/-- The statements of the whole unpack pass (`step.cpp` 187-212), in execution order. -/
def unpack_ops (st : fields) (ft : field_type) : List UnpackOp :=
  (for_loop (fun i (_ : Unit) =>
    (if (st.chunks i).is_mine then (unpack_j_loop st ft i).1 else [], ()))
    (List.range st.num_chunks) ()).1

/-- Store `v` through the pointer `p` into chunk `i`. -/
def fields.store (st : fields) (i : Nat) (p : Slot) (v : ℚ) : fields :=
  { st with
    chunks := fun i2 =>
      if i2 = i then { st.chunks i with f := fun p2 => if p2 = p then v else (st.chunks i).f p2 }
      else st.chunks i2 }

/-- The stores of one unpack statement, in order, as (pointer, value); `none` if
`connections` or `connection_phases` is read past its end, or if the phase-rotate
statement reads `comm_blocks[ft][pair][n+1]` past the `comm_size_tot` values of the
buffer. -/
def unpack_writes (ft : field_type) (st : fields) (op : UnpackOp) : Option (List (Slot × ℚ)) :=
  let ch := st.chunks op.i
  let buf := st.comm_blocks ft op.pair
  let conn := ch.connections ft op.ip in_or_out.Incoming
  if op.ip = CONNECT_PHASE then
    match (ch.connection_phases ft)[op.wh / 2]?, conn[op.wh]?, conn[op.wh + 1]? with
    | some ph, some p0, some p1 =>
      if op.off + 1 < st.comm_size_tot ft op.pair then
        some [(p0, double_sub (double_mul ph.1 (buf op.off)) (double_mul ph.2 (buf (op.off + 1)))),
              (p1, double_add (double_mul ph.1 (buf (op.off + 1))) (double_mul ph.2 (buf op.off)))]
      else none
    | _, _, _ => none
  else if op.ip = CONNECT_NEGATE then
    match conn[op.wh]? with
    | some p => some [(p, -buf op.off)]
    | none => none
  else
    match conn[op.wh]? with
    | some p => some [(p, buf op.off)]
    | none => none

/-- Run one unpack statement. -/
def unpack_apply (ft : field_type) (st : fields) (op : UnpackOp) : Option fields :=
  (unpack_writes ft st op).map
    (fun ws => ws.foldl (fun acc w => acc.store op.i w.1 w.2) st)

/-- The unpack pass. -/
def fields.unpack (ft : field_type) (st : fields) : Option fields :=
  (unpack_ops st ft).foldlM (unpack_apply ft) st

/-- The method `fields::step_boundaries(field_type ft)`: validate, zero metal, pack,
exchange, unpack. -/
def fields.step_boundaries (E : Externals) (ft : field_type) (st : fields) : Option fields :=
  (((E.connect_chunks st).zero_metal_pass E ft).pack ft).bind
    (fun st3 => (st3.exchange E ft).bind (fields.unpack ft))

/-! ## The time step (`step.cpp` 36-81) -/

/-- The constant `MIN_OUTPUT_TIME` (`step.cpp` 32): progress is reported no more often than
this many seconds. -/
def MIN_OUTPUT_TIME : ℚ := 4

/-- The progress report at the head of `step()` (`step.cpp` 39-49); the four calls of
`wall_time()` are the readings 0 to 3. Printing leaves the state as it is. -/
def fields.progress_output (E : Externals) (st : fields) : fields :=
  let st1 :=
    if st.t = 0 then
      { st with last_step_output_wall_time := E.wall_time 0, last_step_output_t := st.t }
    else st
  if !st1.quiet && decide (E.wall_time 1 > st1.last_step_output_wall_time + MIN_OUTPUT_TIME) then
    { st1 with last_step_output_wall_time := E.wall_time 3, last_step_output_t := st1.t }
  else st1

/-- The statements of `fields::step()`. `timing` stands for `am_now_working_on` and
`finished_working`; `calc_sources true` is the call with `time() - 0.5 * dt` and
`calc_sources false` the one with `time()`; `update_half` and `update` are the
statements `if (fluxes) fluxes->update_half()` and `if (fluxes) fluxes->update()`. -/
inductive Call where
  | timing
  | progress_output
  | phase_material
  | calc_sources (half : Bool)
  | step_h
  | step_h_source
  | step_boundaries (ft : field_type)
  | update_half
  | step_d
  | update_e_from_d
  | update_from_e
  | update
  | increment_t
  | update_dfts
  deriving DecidableEq, Repr

/-- The body of `fields::step()`, statement by statement (`step.cpp` 37-80). -/
def step_calls : List Call :=
  [ Call.timing, Call.progress_output,
    Call.phase_material,
    Call.calc_sources true,
    Call.step_h, Call.step_h_source, Call.step_boundaries field_type.H_stuff,
    Call.timing,
    Call.update_half,
    Call.calc_sources false,
    Call.step_d, Call.step_boundaries field_type.D_stuff,
    Call.update_e_from_d, Call.step_boundaries field_type.E_stuff,
    Call.timing,
    Call.update_from_e, Call.step_boundaries field_type.P_stuff,
    Call.update, Call.increment_t, Call.update_dfts, Call.timing ]

/-- Run one statement of `step()`. -/
def Call.exec (E : Externals) (st : fields) : Call → Option fields
  | Call.timing => some st
  | Call.progress_output => some (st.progress_output E)
  | Call.phase_material => some (st.phase_material E)
  | Call.calc_sources true => some (st.calc_sources E (st.time - (1 / 2) * st.dt))
  | Call.calc_sources false => some (st.calc_sources E st.time)
  | Call.step_h => some (E.step_h st)
  | Call.step_h_source => st.step_h_source E
  | Call.step_boundaries ft => st.step_boundaries E ft
  | Call.update_half => some (if st.fluxes then E.update_half st else st)
  | Call.step_d => some (E.step_d st)
  | Call.update_e_from_d => some (E.update_e_from_d st)
  | Call.update_from_e => some (E.update_from_e st)
  | Call.update => some (if st.fluxes then E.update st else st)
  | Call.increment_t => some { st with t := int_increment st.t }
  | Call.update_dfts => some (E.update_dfts st)

/-- Run a sequence of statements of `step()` in order. -/
def run_calls (E : Externals) (calls : List Call) (st : fields) : Option fields :=
  calls.foldlM (fun acc c => c.exec E acc) st

/-- The method `fields::step()`. -/
def fields.step (E : Externals) (st : fields) : Option fields :=
  run_calls E step_calls st

/-! ## Sample configurations and specification-side definitions -/

/-- Collaborators that leave everything as it is. -/
def idle_externals : Externals where
  connect_chunks := id
  zero_metal := fun _ ch => ch.f
  chunk_update_e_from_d := fun ch => ch.f
  is_magnetic := fun c => decide (5 ≤ c ∧ c < 10)
  step_h := id
  step_d := id
  update_e_from_d := id
  update_from_e := id
  update_half := id
  update := id
  update_dfts := id
  src_time_update := fun _ _ s => s
  received := fun _ _ _ => 0
  wall_time := fun _ => 0

/-- A local chunk without connections or sources, material 0 everywhere, and a pending
material that is 1 everywhere. -/
def plain_chunk : fields_chunk where
  is_mine := true
  n_proc := 0
  is_real := true
  f_alloc := fun _ => true
  f_imag_alloc := fun _ => true
  f := fun _ => 0
  connections := fun _ _ _ => []
  connection_phases := fun _ => []
  s := fun _ => 0
  new_s := some (fun _ => 1)
  h_sources := []

/-- One local chunk, no connections, phase-in counter `k`. -/
def phasing_fields (k : Int) : fields where
  num_chunks := 1
  chunks := fun _ => plain_chunk
  comm_sizes := fun _ _ _ => 0
  comm_blocks := fun _ _ _ => 0
  t := 0
  dt := 1 / 2
  phasein_time := k
  fluxes := false
  sources := []
  quiet := true
  last_step_output_wall_time := 0
  last_step_output_t := 0

/-- The collaborators do not write the step counter `t`. -/
def Externals.keeps_t (E : Externals) : Prop :=
  ∀ st : fields, (E.connect_chunks st).t = st.t ∧ (E.step_h st).t = st.t ∧
    (E.step_d st).t = st.t ∧ (E.update_e_from_d st).t = st.t ∧
    (E.update_from_e st).t = st.t ∧ (E.update_half st).t = st.t ∧
    (E.update st).t = st.t ∧ (E.update_dfts st).t = st.t

/-- The statements of a call sequence that can change fields, sources or counters:
everything but the timing marks and the progress report. -/
def field_calls (l : List Call) : List Call :=
  l.filter (fun c => decide (c ≠ Call.timing ∧ c ≠ Call.progress_output))

/-- The order of one step as the specification lists it: the magnetic source injection,
envelope update and deposition `step_h_source` together, comes before the kernel `step_h`. -/
def specified_order : List Call :=
  [ Call.phase_material,
    Call.calc_sources true, Call.step_h_source,
    Call.step_h, Call.step_boundaries field_type.H_stuff,
    Call.update_half,
    Call.calc_sources false,
    Call.step_d, Call.step_boundaries field_type.D_stuff,
    Call.update_e_from_d, Call.step_boundaries field_type.E_stuff,
    Call.update_from_e, Call.step_boundaries field_type.P_stuff,
    Call.update, Call.increment_t, Call.update_dfts ]

/-- The sum `f 0 + ... + f (n - 1)`. -/
def sum_below (f : Nat → Nat) : Nat → Nat
  | 0 => 0
  | n + 1 => sum_below f n + f n

/-- Where the region of kind `ip` starts in the buffer of `pair`: the sizes of the kinds
before it. -/
def region_offset (st : fields) (ft : field_type) (pair ip : Nat) : Nat :=
  sum_below (fun k => st.comm_sizes ft k pair) ip

/-- Where the connections of source chunk `j` to destination `i` start in the chunk's
Outgoing list of kind `ip`: the sizes for the destinations before `i`. -/
def pack_base (st : fields) (ft : field_type) (j ip i : Nat) : Nat :=
  sum_below (fun i2 => st.comm_sizes ft ip (j + i2 * st.num_chunks)) i

/-- The pack statements for the pair (source `j`, destination `i`), in order. -/
def pack_pair_ops (st : fields) (ft : field_type) (j i : Nat) : List PackOp :=
  (List.range 3).flatMap (fun ip =>
    (List.range (st.comm_sizes ft ip (j + i * st.num_chunks))).map
      (fun n => PackOp.mk j (j + i * st.num_chunks) ip
        (region_offset st ft (j + i * st.num_chunks) ip + n) (pack_base st ft j ip i + n)))

/-- The number of Incoming phase-rotate connections the unpack loop steps over for a
region of `size` values: two per iteration. -/
def phase_consumed (size : Nat) : Nat := 2 * ((size + 1) / 2)

/-- Where the unpack loop for destination `i` stands in the Incoming list of kind `ip`
when it reaches source chunk `j`. -/
def unpack_base (st : fields) (ft : field_type) (i ip j : Nat) : Nat :=
  sum_below (fun j2 =>
    if ip = CONNECT_PHASE then phase_consumed (st.comm_sizes ft ip (j2 + i * st.num_chunks))
    else st.comm_sizes ft ip (j2 + i * st.num_chunks)) j

/-- The unpack statements for the pair (source `j`, destination `i`), in order. -/
def unpack_pair_ops (st : fields) (ft : field_type) (i j : Nat) : List UnpackOp :=
  (List.range ((st.comm_sizes ft CONNECT_PHASE (j + i * st.num_chunks) + 1) / 2)).map
    (fun m => UnpackOp.mk i (j + i * st.num_chunks) CONNECT_PHASE (2 * m)
      (unpack_base st ft i CONNECT_PHASE j + 2 * m))
  ++ (List.range (st.comm_sizes ft CONNECT_NEGATE (j + i * st.num_chunks))).map
    (fun n => UnpackOp.mk i (j + i * st.num_chunks) CONNECT_NEGATE
      (region_offset st ft (j + i * st.num_chunks) CONNECT_NEGATE + n)
      (unpack_base st ft i CONNECT_NEGATE j + n))
  ++ (List.range (st.comm_sizes ft CONNECT_COPY (j + i * st.num_chunks))).map
    (fun n => UnpackOp.mk i (j + i * st.num_chunks) CONNECT_COPY
      (region_offset st ft (j + i * st.num_chunks) CONNECT_COPY + n)
      (unpack_base st ft i CONNECT_COPY j + n))

/-- The buffer offsets an unpack statement reads. -/
def UnpackOp.reads (op : UnpackOp) : List Nat :=
  if op.ip = CONNECT_PHASE then [op.off, op.off + 1] else [op.off]

/-- The index pairs `(noti, j)` of the exchange loops, in loop order. -/
def exchange_order (N : Nat) : List (Nat × Nat) :=
  (List.range N).flatMap (fun noti => (List.range N).map (fun j => (noti, j)))

/-- The buffer index `pair = j + i * num_chunks` the exchange loop handles at `(noti, j)`. -/
def exchange_pair (N : Nat) (x : Nat × Nat) : Nat := x.2 + (x.1 + x.2) % N * N

/-- The pointer a pack statement reads through, if the connection array holds one. -/
def pack_source (ft : field_type) (st : fields) (op : PackOp) : Option Slot :=
  ((st.chunks op.j).connections ft op.ip in_or_out.Outgoing)[op.wh]?

/-- Two states with the same buffers, sizes and connection tables: they may differ in
field values only. -/
def same_tables (st st2 : fields) : Prop :=
  st2.comm_blocks = st.comm_blocks ∧ st2.num_chunks = st.num_chunks ∧
  st2.comm_sizes = st.comm_sizes ∧
  ∀ i, (st2.chunks i).connections = (st.chunks i).connections ∧
    (st2.chunks i).connection_phases = (st.chunks i).connection_phases ∧
    (st2.chunks i).is_mine = (st.chunks i).is_mine

/-- The state in which the pack pass of `step_boundaries(ft)` starts: after
`connect_chunks` and the zero-metal pass. -/
def fields.at_pack_time (st : fields) (E : Externals) (ft : field_type) : fields :=
  (E.connect_chunks st).zero_metal_pass E ft

/-- The connection tables of a single-process run as the round-trip claim describes them:
every chunk is local; for each kind the Outgoing list of chunk `j` holds, destination after
destination, as many connections as `comm_sizes` says, and the Incoming list of chunk `i`
holds, source after source, as many as `comm_sizes` says; the Incoming slots of a chunk are
pairwise distinct. -/
def tables_as_stated (st : fields) (ft : field_type) : Prop :=
  (∀ i, i < st.num_chunks → (st.chunks i).is_mine = true) ∧
  (∀ j, j < st.num_chunks → ∀ k, k < 3 →
    ((st.chunks j).connections ft k in_or_out.Outgoing).length =
      sum_below (fun i => st.comm_sizes ft k (j + i * st.num_chunks)) st.num_chunks) ∧
  (∀ i, i < st.num_chunks → ∀ k, k < 3 →
    ((st.chunks i).connections ft k in_or_out.Incoming).length =
      sum_below (fun j => st.comm_sizes ft k (j + i * st.num_chunks)) st.num_chunks) ∧
  (∀ i, i < st.num_chunks →
    ((st.chunks i).connections ft 0 in_or_out.Incoming ++
      (st.chunks i).connections ft 1 in_or_out.Incoming ++
      (st.chunks i).connections ft 2 in_or_out.Incoming).Nodup)

/-- The tables of `tables_as_stated` in which, moreover, every phase-rotate size is even
and every chunk has a phase factor for each pair of its Incoming phase-rotate
connections. -/
def tables_ok (st : fields) (ft : field_type) : Prop :=
  tables_as_stated st ft ∧
  (∀ i, i < st.num_chunks → ∀ j, j < st.num_chunks →
    st.comm_sizes ft CONNECT_PHASE (j + i * st.num_chunks) % 2 = 0) ∧
  (∀ i, i < st.num_chunks →
    ((st.chunks i).connections ft CONNECT_PHASE in_or_out.Incoming).length ≤
      2 * ((st.chunks i).connection_phases ft).length)

/-- A local chunk with two phase-rotate, one negate and one copy connection in each
direction, phase factor `(0, 1)`, and the values `a b c d` in its four Outgoing slots. -/
def ring_chunk (a b c d : ℚ) : fields_chunk where
  is_mine := true
  n_proc := 0
  is_real := false
  f_alloc := fun _ => true
  f_imag_alloc := fun _ => true
  f := fun p =>
    if p = ⟨0, 0, 0⟩ then a else if p = ⟨0, 0, 1⟩ then b
    else if p = ⟨0, 0, 2⟩ then c else if p = ⟨0, 0, 3⟩ then d else 0
  connections := fun _ ip dir =>
    match ip, dir with
    | 0, in_or_out.Outgoing => [⟨0, 0, 0⟩, ⟨0, 0, 1⟩]
    | 1, in_or_out.Outgoing => [⟨0, 0, 2⟩]
    | 2, in_or_out.Outgoing => [⟨0, 0, 3⟩]
    | 0, in_or_out.Incoming => [⟨0, 0, 4⟩, ⟨0, 0, 5⟩]
    | 1, in_or_out.Incoming => [⟨0, 0, 6⟩]
    | 2, in_or_out.Incoming => [⟨0, 0, 7⟩]
    | _, _ => []
  connection_phases := fun _ => [(0, 1)]
  s := fun _ => 0
  new_s := none
  h_sources := []

/-- Two local chunks that exchange with each other: chunk 0 sends the complex value
`(1, 0)`, the value 2 through negate and 3.14 through copy. The buffer of the pair
(source 0, destination 1) already holds `(1, 0)` at offsets 0 and 1. -/
def ring_fields : fields where
  num_chunks := 2
  chunks := fun i => if i = 0 then ring_chunk 1 0 2 (157 / 50) else ring_chunk 5 7 11 13
  comm_sizes := fun _ ip pair =>
    if pair = 1 ∨ pair = 2 then (if ip = 0 then 2 else if ip = 1 ∨ ip = 2 then 1 else 0) else 0
  comm_blocks := fun _ pair off => if pair = 2 ∧ off = 0 then 1 else 0
  t := 0
  dt := 1 / 2
  phasein_time := 0
  fluxes := true
  sources := []
  quiet := true
  last_step_output_wall_time := 0
  last_step_output_t := 0

/-- One local chunk connected to itself by one copy connection and by a phase-rotate
region of odd size 1. -/
def odd_phase_fields : fields where
  num_chunks := 1
  chunks := fun _ =>
    { ring_chunk 1 0 2 3 with
      connections := fun _ ip dir =>
        match ip, dir with
        | 0, in_or_out.Outgoing => [⟨0, 0, 0⟩]
        | 2, in_or_out.Outgoing => [⟨0, 0, 3⟩]
        | 0, in_or_out.Incoming => [⟨0, 0, 4⟩]
        | 2, in_or_out.Incoming => [⟨0, 0, 7⟩]
        | _, _ => [] }
  comm_sizes := fun _ ip pair => if pair = 0 ∧ (ip = 0 ∨ ip = 2) then 1 else 0
  comm_blocks := fun _ _ _ => 0
  t := 0
  dt := 1 / 2
  phasein_time := 0
  fluxes := false
  sources := []
  quiet := true
  last_step_output_wall_time := 0
  last_step_output_t := 0

/-- The two-chunk configuration seen from process `me`: chunk 0 lives on process 0 and
chunk 1 on process 1. -/
def split_fields (me : Nat) : fields :=
  { ring_fields with
    chunks := fun i =>
      { ring_fields.chunks i with n_proc := i, is_mine := decide (i = me) } }

/-- What the exchange loop posts for the pair (source `j`, destination `i`), as the
specification lists it: with payload, a send if only the source is local, a receive if
only the destination is local, and nothing otherwise; as (is it a send, count, peer). -/
def expected_requests (st : fields) (ft : field_type) (j i : Nat) : List (Bool × Nat × Nat) :=
  if 0 < st.comm_size_tot ft (j + i * st.num_chunks) then
    if (st.chunks j).is_mine = true ∧ (st.chunks i).is_mine = false then
      [(true, st.comm_size_tot ft (j + i * st.num_chunks), (st.chunks i).n_proc)]
    else if (st.chunks i).is_mine = true ∧ (st.chunks j).is_mine = false then
      [(false, st.comm_size_tot ft (j + i * st.num_chunks), (st.chunks j).n_proc)]
    else []
  else []

/-- The divisors of the divisions `1.0 / phasein_time` that one call of
`fields_chunk::phase_material(phasein_time)` evaluates: the division stands inside the
guard `new_s && phasein_time > 0`. -/
def fields_chunk.phase_material_divisors (ch : fields_chunk) (phasein_time : Int) : List Int :=
  match ch.new_s with
  | some _ => if phasein_time > 0 then [phasein_time] else []
  | none => []

/-- A point in space (`vec`); its content belongs to the geometry collaborator. -/
abbrev vec := List ℚ

/-- A grid location (`ivec`). -/
abbrev ivec := List Int

/-- The chunk's `volume v` as `peek_field` uses it (`vec.h` is not among the sources):
`interpolate(c, where, ilocs, w)` as the locations `ilocs[k]` it returns, `contains` and
`index`. -/
structure volume where
  interpolate : Nat → vec → Nat → ivec
  contains : ivec → Bool
  index : Nat → ivec → Nat

/-- Modelled from the spec: `broadcast(from, data, 1)` of the transport collaborator, not
among the sources, with `root` for `from`. Process `root` keeps its datum; every other
process gets the datum `delivered` of process `root`. -/
def broadcast (my_rank root : Nat) (delivered data : ℚ) : ℚ :=
  if root = my_rank then data else delivered

/-- The method `fields_chunk::peek_field(component c, const vec &where)` on the process
`my_rank`, with `v` the chunk's volume. -/
def fields_chunk.peek_field (v : volume) (my_rank : Nat) (delivered : ℚ) (ch : fields_chunk)
    (c : Nat) (pt : vec) : ℚ :=
  let ilocs := v.interpolate c pt
  if v.contains (ilocs 0) && ch.f_alloc c then
    let hello : ℚ := if ch.is_mine then ch.f ⟨c, 0, v.index c (ilocs 0)⟩ else 0
    broadcast my_rank ch.n_proc delivered hello
  else 0

/-- A volume of four grid points on a line: location `[k]` is inside for `0 ≤ k < 4` and
has index `k`; a point is interpolated from the location at its integer part. -/
def line_volume : volume where
  interpolate := fun _ pt _ => [(pt.headD 0).floor]
  contains := fun l => decide (0 ≤ l.headD 0 ∧ l.headD 0 < 4)
  index := fun _ l => (l.headD 0).toNat

/-- The positions of the Incoming list that an unpack statement stores through. -/
def UnpackOp.positions (op : UnpackOp) : List Nat :=
  if op.ip = CONNECT_PHASE then [op.wh, op.wh + 1] else [op.wh]

/-- How many Incoming connections of kind `k` the unpack loop steps over for a region
of `size` values. -/
def unpack_consumed (k size : Nat) : Nat :=
  if k = CONNECT_PHASE then phase_consumed size else size

/-- The Incoming position that the specification gives for the `n`-th value from source
`j`, the mirror image of the pack rule: the sizes of kind `k` for the sources before `j`,
plus `n`. -/
def mirrored_position (st : fields) (ft : field_type) (i k j n : Nat) : Nat :=
  sum_below (fun j2 => st.comm_sizes ft k (j2 + i * st.num_chunks)) j + n

/-- Two local chunks; towards destination 0 the phase-rotate regions have the sizes 1
(from source 0, odd) and 2 (from source 1), and the negate region from source 0 has size 1.
Every chunk has four Incoming phase-rotate connections and two phase factors, enough for
the unpack pass to run to its end. -/
def lopsided_fields : fields :=
  { ring_fields with
    chunks := fun i =>
      { ring_fields.chunks i with
        connections := fun ft ip dir =>
          match ip, dir with
          | 0, in_or_out.Incoming => [⟨0, 0, 4⟩, ⟨0, 0, 5⟩, ⟨0, 0, 8⟩, ⟨0, 0, 9⟩]
          | _, _ => (ring_fields.chunks i).connections ft ip dir
        connection_phases := fun _ => [(0, 1), (0, 1)] }
    comm_sizes := fun _ ip pair =>
      if ip = 0 then (if pair = 0 then 1 else if pair = 1 then 2 else 0)
      else if ip = 1 ∧ pair = 0 then 1 else 0 }

/-- The buffer offsets the three unpack loops read for the pair (source `j`,
destination `i`), in the order they read them. -/
def unpack_pair_reads (st : fields) (ft : field_type) (i j : Nat) : List Nat :=
  (unpack_pair_ops st ft i j).flatMap (fun op => op.reads)

/-- The two-chunk sample at the last step an `int` counter can count. -/
def last_step_fields : fields := { ring_fields with t := INT_MAX }

theorem foldl_local_chunks (g : fields_chunk → fields_chunk) (B : fields → Nat → fields_chunk)
    (st : fields) (hB : ∀ c i, B { st with chunks := c } i = g (c i)) (n : Nat) :
    (List.range n).foldl
      (fun acc i => if (acc.chunks i).is_mine then acc.set_chunk i (B acc i) else acc) st
    = { st with chunks := fun i =>
          if i < n ∧ (st.chunks i).is_mine = true then g (st.chunks i) else st.chunks i } := by
  induction n with
  | zero => simp
  | succ n ih =>
    rw [List.range_succ, List.foldl_append, ih]
    simp only [List.foldl_cons, List.foldl_nil, fields.set_chunk, hB]
    simp only [lt_self_iff_false, false_and, if_false]
    by_cases hm : (st.chunks n).is_mine = true
    · simp only [hm, if_true]
      congr 1
      funext i
      by_cases hi : i = n
      · subst hi; simp [hm]
      · have : i < n + 1 ↔ i < n := by omega
        simp [hi, this]
    · rw [if_neg (by simpa using hm)]
      congr 1
      funext i
      by_cases hi : i = n
      · subst hi; simp [hm]
      · have : i < n + 1 ↔ i < n := by omega
        simp [this]

theorem phase_material_eq (E : Externals) (st : fields) :
    st.phase_material E = { st with
      chunks := fun i =>
        if i < st.num_chunks ∧ (st.chunks i).is_mine = true
        then (st.chunks i).phase_material E st.phasein_time else st.chunks i
      phasein_time := int_decrement st.phasein_time } := by
  unfold fields.phase_material
  have := foldl_local_chunks (fun ch => ch.phase_material E st.phasein_time)
    (fun acc i => (acc.chunks i).phase_material E acc.phasein_time) st (fun c i => rfl) st.num_chunks
  simp only [this]

theorem chunk_phase_material_keeps (E : Externals) (ch : fields_chunk) (c : Int) :
    (ch.phase_material E c).is_mine = ch.is_mine ∧ (ch.phase_material E c).new_s = ch.new_s := by
  unfold fields_chunk.phase_material
  cases h : ch.new_s with
  | none => simp [h]
  | some n =>
    by_cases hc : c > 0
    · simp [hc, h]
    · simp [hc, h]

theorem chunk_phase_material_s (E : Externals) (ch : fields_chunk) (c : Int) :
    (ch.phase_material E c).s =
      match ch.new_s with
      | some n => if c > 0 then mix_with ch.s n (1 / (c : ℚ)) else ch.s
      | none => ch.s := by
  unfold fields_chunk.phase_material
  cases h : ch.new_s with
  | none => simp
  | some n =>
    by_cases hc : c > 0
    · simp [hc]
    · simp [hc]

theorem int_decrement_eq (x : Int) (h : x ≠ INT_MIN) : int_decrement x = x - 1 := by
  unfold int_decrement
  rw [if_neg h]

theorem int_increment_eq (x : Int) (h : x ≠ INT_MAX) : int_increment x = x + 1 := by
  unfold int_increment
  rw [if_neg h]

/-- As long as the counter stays above `INT_MIN`, `m` calls lower it by `m`. -/
theorem phase_material_iterate (E : Externals) (st : fields) (m : Nat) :
    ((fields.phase_material E)^[m] st).num_chunks = st.num_chunks ∧
    (INT_MIN + m ≤ st.phasein_time →
      ((fields.phase_material E)^[m] st).phasein_time = st.phasein_time - m) ∧
    ∀ i, (((fields.phase_material E)^[m] st).chunks i).is_mine = (st.chunks i).is_mine ∧
      (((fields.phase_material E)^[m] st).chunks i).new_s = (st.chunks i).new_s := by
  induction m with
  | zero => simp
  | succ m ih =>
    obtain ⟨h1, h2, h3⟩ := ih
    rw [Function.iterate_succ_apply', phase_material_eq]
    refine ⟨h1, ?_, ?_⟩
    · intro hm
      push_cast at hm
      simp only [h2 (by omega)]
      rw [int_decrement_eq _ (by omega)]
      push_cast; ring
    · intro i
      simp only
      split
      · rw [(chunk_phase_material_keeps E _ _).1, (chunk_phase_material_keeps E _ _).2]
        exact h3 i
      · exact h3 i

/-- Claim C5 (phase-in convergence). With `mix_with` the linear blend, for every `K ≥ 1`,
every initial material and every pending target: `K` calls of `fields::phase_material`
starting from `phasein_time = K` leave the material of every local chunk that has the
pending target exactly equal to that target. -/
theorem phase_in_converges (E : Externals) (st : fields) (K : Nat) (hK : 1 ≤ K)
    (hp : st.phasein_time = (K : Int)) (i : Nat) (hi : i < st.num_chunks)
    (hm : (st.chunks i).is_mine = true) (target : structure_chunk)
    (ht : (st.chunks i).new_s = some target) :
    (((fields.phase_material E)^[K] st).chunks i).s = target := by
  obtain ⟨m, rfl⟩ : ∃ m, K = m + 1 := ⟨K - 1, by omega⟩
  obtain ⟨h1, h2, h3⟩ := phase_material_iterate E st m
  rw [Function.iterate_succ_apply', phase_material_eq]
  simp only
  rw [if_pos ⟨by rw [h1]; exact hi, by rw [(h3 i).1]; exact hm⟩, chunk_phase_material_s,
    (h3 i).2, ht]
  have hone : ((fields.phase_material E)^[m] st).phasein_time = 1 := by
    rw [h2 (by rw [hp]; unfold INT_MIN; push_cast; omega), hp]; push_cast; ring
  simp only [hone]
  funext p
  simp [mix_with]

/-- Claim C5 at the sample with one local chunk, `K = 3` and pending material 1. -/
theorem phase_in_converges_witness :
    1 ≤ 3 ∧ (phasing_fields 3).phasein_time = ((3 : Nat) : Int) ∧ 0 < (phasing_fields 3).num_chunks ∧
    ((phasing_fields 3).chunks 0).is_mine = true ∧
    ((phasing_fields 3).chunks 0).new_s = some (fun _ => 1) ∧
    (((fields.phase_material idle_externals)^[3] (phasing_fields 3)).chunks 0).s = fun _ => 1 :=
  ⟨by decide, rfl, by decide, rfl, rfl,
    phase_in_converges idle_externals (phasing_fields 3) 3 (by decide) rfl 0 (by decide) rfl
      (fun _ => 1) rfl⟩

/-- Claim C6, counterexample. From `phasein_time = 0`, which is not negative, one call of
`fields::phase_material` leaves `phasein_time = -1`. -/
theorem phasein_counter_goes_negative :
    0 ≤ (phasing_fields 0).phasein_time ∧
    ((phasing_fields 0).phase_material idle_externals).phasein_time < 0 := by
  decide

/-- Claim C6, amended. Every call of `fields::phase_material` lowers the counter by one
whatever its sign, as long as the `int` does not overflow: when the initial value minus
`n` is not below `INT_MIN`, the counter after `n` calls is the initial value minus `n`, so
it is still non-negative exactly when `n` does not exceed the initial value. One call
turns every counter other than `INT_MIN` into the counter minus one, and `INT_MIN` into
`INT_MAX`. -/
theorem phasein_counter_after_calls (E : Externals) (st : fields) (n : Nat)
    (h : INT_MIN + n ≤ st.phasein_time) :
    ((fields.phase_material E)^[n] st).phasein_time = st.phasein_time - n ∧
    (0 ≤ ((fields.phase_material E)^[n] st).phasein_time ↔ (n : Int) ≤ st.phasein_time) ∧
    (∀ st0 : fields, (st0.phase_material E).phasein_time =
      if st0.phasein_time = INT_MIN then INT_MAX else st0.phasein_time - 1) := by
  have h2 := (phase_material_iterate E st n).2.1 h
  rw [h2]
  refine ⟨rfl, by omega, ?_⟩
  intro st0
  rw [phase_material_eq]
  rfl

/-- Claim C6 (amended) at the sample with counter 2: after three calls the counter
is -1. -/
theorem phasein_counter_after_calls_witness :
    INT_MIN + ((3 : Nat) : Int) ≤ (phasing_fields 2).phasein_time ∧
    ((fields.phase_material idle_externals)^[3] (phasing_fields 2)).phasein_time = -1 :=
  ⟨by decide,
    (phasein_counter_after_calls idle_externals (phasing_fields 2) 3 (by decide)).1.trans
      (by decide)⟩

/-- Claim C7, counterexample. With `phasein_time = -2` a local chunk with a pending
material is not blended: its material stays 0, whereas the blend with weight `1 / (-2)`
towards the pending material 1 is `-1/2`. -/
theorem local_chunk_not_blended :
    ((phasing_fields (-2)).chunks 0).is_mine = true ∧
    (((phasing_fields (-2)).phase_material idle_externals).chunks 0).s 0 ≠
      mix_with ((phasing_fields (-2)).chunks 0).s (fun _ => 1)
        (1 / (((phasing_fields (-2)).phasein_time : Int) : ℚ)) 0 := by
  refine ⟨rfl, ?_⟩
  rw [phase_material_eq]
  norm_num [phasing_fields, plain_chunk, mix_with, chunk_phase_material_s]

/-- Claim C7, amended. One call of `fields::phase_material` lowers the counter by exactly
one, whatever the number of chunks and whichever are local, unless the counter is
`INT_MIN`, where the `int` decrement overflows and leaves `INT_MAX`; every local chunk
below `num_chunks` is passed the same counter value, the one before the decrement, and
every other chunk is left alone; a chunk with a pending material is blended with weight
`1 / counter` when that counter is positive and keeps its material otherwise, as does a
chunk without pending material. -/
theorem phase_material_one_call (E : Externals) (st : fields) :
    (st.phase_material E).phasein_time =
      (if st.phasein_time = INT_MIN then INT_MAX else st.phasein_time - 1) ∧
    (∀ i, (st.phase_material E).chunks i =
      if i < st.num_chunks ∧ (st.chunks i).is_mine = true
      then (st.chunks i).phase_material E st.phasein_time else st.chunks i) ∧
    (∀ (ch : fields_chunk) (c : Int), (ch.phase_material E c).s =
      match ch.new_s with
      | some target => if c > 0 then mix_with ch.s target (1 / (c : ℚ)) else ch.s
      | none => ch.s) := by
  rw [phase_material_eq]
  exact ⟨rfl, fun _ => rfl, fun ch c => chunk_phase_material_s E ch c⟩

/-- What a fold in `Option` keeps at every step, it keeps overall. -/
theorem foldlM_keeps {α β γ : Type} (f : β → α → Option β) (g : β → γ)
    (h : ∀ b a b2, f b a = some b2 → g b2 = g b) :
    ∀ (l : List α) (b b2 : β), l.foldlM f b = some b2 → g b2 = g b := by
  intro l
  induction l with
  | nil => intro b b2 hb; simp at hb; rw [hb]
  | cons a l ih =>
    intro b b2 hb
    rw [List.foldlM_cons] at hb
    cases hf : f b a with
    | none => rw [hf] at hb; simp at hb
    | some b1 =>
      rw [hf] at hb
      exact (ih b1 b2 hb).trans (h b a b1 hf)

theorem foldl_keeps {α β γ : Type} (f : β → α → β) (g : β → γ)
    (h : ∀ b a, g (f b a) = g b) : ∀ (l : List α) (b : β), g (l.foldl f b) = g b := by
  intro l
  induction l with
  | nil => intro b; rfl
  | cons a l ih => intro b; rw [List.foldl_cons, ih, h]

theorem step_h_source_t (E : Externals) (st st2 : fields)
    (h : st.step_h_source E = some st2) : st2.t = st.t := by
  unfold fields.step_h_source at h
  refine foldlM_keeps _ (fun s => s.t) ?_ _ _ _ h
  intro b a b2 hb
  simp only at hb
  split at hb
  · cases hc : (b.chunks a).step_h_source E (b.chunks a).h_sources st.time with
    | none => rw [hc] at hb; simp at hb
    | some ch2 =>
      rw [hc] at hb
      simp only [Option.map_some', Option.some.injEq] at hb
      rw [← hb]; rfl
  · simp only [Option.some.injEq] at hb
    rw [← hb]

theorem calc_sources_eq (E : Externals) (tim : ℚ) (st : fields) :
    st.calc_sources E tim =
      { st with sources := st.sources.map (E.src_time_update tim st.dt) } := by
  unfold fields.calc_sources
  simp only
  rw [foldl_local_chunks (fun ch => ch) (fun acc i => (acc.chunks i).calc_sources tim) _
    (fun c i => rfl)]
  simp

theorem zero_metal_pass_eq (E : Externals) (ft : field_type) (st : fields) :
    st.zero_metal_pass E ft = { st with
      chunks := fun i =>
        if i < st.num_chunks ∧ (st.chunks i).is_mine = true
        then { st.chunks i with f := E.zero_metal ft (st.chunks i) } else st.chunks i } := by
  unfold fields.zero_metal_pass
  exact foldl_local_chunks (fun ch => { ch with f := E.zero_metal ft ch })
    (fun acc i => { acc.chunks i with f := E.zero_metal ft (acc.chunks i) }) st
    (fun c i => rfl) st.num_chunks

theorem pack_apply_t (ft : field_type) (st : fields) (op : PackOp) (st2 : fields)
    (h : pack_apply ft st op = some st2) : st2.t = st.t := by
  unfold pack_apply at h
  split at h
  · simp at h; rw [← h]; rfl
  · simp at h

theorem store_t (st : fields) (i : Nat) (p : Slot) (v : ℚ) : (st.store i p v).t = st.t := rfl

theorem unpack_apply_t (ft : field_type) (st : fields) (op : UnpackOp) (st2 : fields)
    (h : unpack_apply ft st op = some st2) : st2.t = st.t := by
  unfold unpack_apply at h
  cases hw : unpack_writes ft st op with
  | none => rw [hw] at h; simp at h
  | some ws =>
    rw [hw] at h
    simp only [Option.map_some', Option.some.injEq] at h
    rw [← h]
    exact foldl_keeps (fun (acc : fields) (w : Slot × ℚ) => acc.store op.i w.1 w.2)
      (fun s => s.t) (fun b a => rfl) ws st

theorem exchange_t (E : Externals) (ft : field_type) (st st2 : fields)
    (h : st.exchange E ft = some st2) : st2.t = st.t := by
  unfold fields.exchange at h
  simp only at h
  split at h
  · simp at h
  · simp only [Option.some.injEq] at h
    rw [← h]
    refine foldl_keeps (complete_request E ft) (fun s => s.t) ?_ _ st
    intro b a
    unfold complete_request
    split <;> rfl

theorem step_boundaries_t (E : Externals) (hE : E.keeps_t) (ft : field_type) (st st2 : fields)
    (h : st.step_boundaries E ft = some st2) : st2.t = st.t := by
  unfold fields.step_boundaries at h
  cases h3 : ((E.connect_chunks st).zero_metal_pass E ft).pack ft with
  | none => rw [h3] at h; simp at h
  | some st3 =>
    rw [h3] at h
    simp only [Option.some_bind] at h
    cases h4 : st3.exchange E ft with
    | none => rw [h4] at h; simp at h
    | some st4 =>
      rw [h4] at h
      simp only [Option.some_bind] at h
      have e1 : st2.t = st4.t := foldlM_keeps _ (fun s => s.t) (unpack_apply_t ft) _ _ _ h
      have e2 : st4.t = st3.t := exchange_t E ft st3 st4 h4
      have e3 : st3.t = ((E.connect_chunks st).zero_metal_pass E ft).t :=
        foldlM_keeps _ (fun s => s.t) (pack_apply_t ft) _ _ _ h3
      rw [e1, e2, e3, zero_metal_pass_eq]
      exact (hE st).1

theorem exec_t (E : Externals) (hE : E.keeps_t) (c : Call) (st st2 : fields)
    (h : c.exec E st = some st2) :
    st2.t = if c = Call.increment_t then int_increment st.t else st.t := by
  cases c with
  | step_boundaries ft =>
    simp only [Call.exec] at h
    simp [step_boundaries_t E hE ft st st2 h]
  | calc_sources half =>
    cases half <;> simp only [Call.exec, Option.some.injEq] at h <;> rw [← h, calc_sources_eq] <;>
      simp
  | phase_material =>
    simp only [Call.exec, Option.some.injEq] at h
    rw [← h, phase_material_eq]; simp
  | step_h_source =>
    simp only [Call.exec] at h
    simp [step_h_source_t E st st2 h]
  | progress_output =>
    simp only [Call.exec, Option.some.injEq] at h
    rw [← h]
    unfold fields.progress_output
    simp only
    split <;> split <;> simp
  | update_half =>
    simp only [Call.exec, Option.some.injEq] at h
    rw [← h]; split <;> simp [(hE st).2.2.2.2.2.1]
  | update =>
    simp only [Call.exec, Option.some.injEq] at h
    rw [← h]; split <;> simp [(hE st).2.2.2.2.2.2.1]
  | timing => simp only [Call.exec, Option.some.injEq] at h; rw [← h]; simp
  | step_h => simp only [Call.exec, Option.some.injEq] at h; rw [← h]; simp [(hE st).2.1]
  | step_d => simp only [Call.exec, Option.some.injEq] at h; rw [← h]; simp [(hE st).2.2.1]
  | update_e_from_d =>
    simp only [Call.exec, Option.some.injEq] at h; rw [← h]; simp [(hE st).2.2.2.1]
  | update_from_e =>
    simp only [Call.exec, Option.some.injEq] at h; rw [← h]; simp [(hE st).2.2.2.2.1]
  | increment_t => simp only [Call.exec, Option.some.injEq] at h; rw [← h]; simp
  | update_dfts =>
    simp only [Call.exec, Option.some.injEq] at h; rw [← h]; simp [(hE st).2.2.2.2.2.2.2]

/-- A run of statements of `step()` applies the `int` increment to `t` once for every
statement `t += 1` in it. -/
theorem run_calls_t (E : Externals) (hE : E.keeps_t) :
    ∀ (l : List Call) (st st2 : fields), run_calls E l st = some st2 →
      st2.t = int_increment^[l.count Call.increment_t] st.t := by
  intro l
  induction l with
  | nil => intro st st2 h; simp [run_calls] at h; simp [h]
  | cons c l ih =>
    intro st st2 h
    unfold run_calls at h
    rw [List.foldlM_cons] at h
    cases hc : c.exec E st with
    | none => rw [hc] at h; simp at h
    | some st1 =>
      rw [hc] at h
      have h1 := exec_t E hE c st st1 hc
      have h2 := ih st1 st2 h
      rw [h2, h1, List.count_cons]
      by_cases hci : c = Call.increment_t
      · subst hci
        simp only [if_true, beq_self_eq_true]
        rw [Function.iterate_succ_apply]
      · have hb : (c == Call.increment_t) = false := by
          rw [beq_eq_false_iff_ne]
          exact hci
        rw [hb, if_neg hci]
        simp

theorem run_calls_cons (E : Externals) (c : Call) (l : List Call) (st : fields) :
    run_calls E (c :: l) st = (c.exec E st).bind (run_calls E l) := by
  unfold run_calls
  rw [List.foldlM_cons]
  rfl

theorem run_calls_nil (E : Externals) (st : fields) : run_calls E [] st = some st := rfl

theorem field_calls_step_calls :
    field_calls step_calls =
      [ Call.phase_material,
        Call.calc_sources true,
        Call.step_h, Call.step_h_source, Call.step_boundaries field_type.H_stuff,
        Call.update_half,
        Call.calc_sources false,
        Call.step_d, Call.step_boundaries field_type.D_stuff,
        Call.update_e_from_d, Call.step_boundaries field_type.E_stuff,
        Call.update_from_e, Call.step_boundaries field_type.P_stuff,
        Call.update, Call.increment_t, Call.update_dfts ] := by
  decide

theorem step_skips_timing (E : Externals) (st : fields) :
    st.step E = run_calls E (field_calls step_calls) (st.progress_output E) := by
  rw [field_calls_step_calls]
  unfold fields.step step_calls
  simp only [run_calls_cons, run_calls_nil, Call.exec, Option.some_bind]

/-- Claim C4, counterexample. The statements of `step()` are not in the order the claim
lists: the deposition `step_h_source` comes after the kernel `step_h`, between it and the
boundary exchange for H. -/
theorem deposition_follows_kernel :
    field_calls step_calls ≠ specified_order ∧
    step_calls.indexOf Call.step_h < step_calls.indexOf Call.step_h_source ∧
    step_calls.indexOf Call.step_h_source <
      step_calls.indexOf (Call.step_boundaries field_type.H_stuff) := by
  decide

/-- Claim C4, amended. Apart from timing marks and the progress report, one call of
`step()` runs, in this order: material phasing, the magnetic envelope update
`calc_sources(time - dt/2)`, the kernel `step_h`, the deposition `step_h_source`, the
boundary exchange for H, the flux half-step hook if fluxes are active, the envelope update
`calc_sources(time)`, `step_d`, the exchange for D, `update_e_from_d`, the exchange for E,
`update_from_e`, the exchange for P, the flux full-step hook if active, the increment of
`t`, and the DFT hook; the two `calc_sources` calls only update the envelopes. -/
theorem step_call_order (E : Externals) (st : fields) :
    field_calls step_calls =
      [ Call.phase_material,
        Call.calc_sources true,
        Call.step_h, Call.step_h_source, Call.step_boundaries field_type.H_stuff,
        Call.update_half,
        Call.calc_sources false,
        Call.step_d, Call.step_boundaries field_type.D_stuff,
        Call.update_e_from_d, Call.step_boundaries field_type.E_stuff,
        Call.update_from_e, Call.step_boundaries field_type.P_stuff,
        Call.update, Call.increment_t, Call.update_dfts ] ∧
    st.step E = run_calls E (field_calls step_calls) (st.progress_output E) ∧
    Call.exec E st (Call.calc_sources true) =
      some { st with sources := st.sources.map (E.src_time_update (st.time - st.dt / 2) st.dt) } ∧
    Call.exec E st (Call.calc_sources false) =
      some { st with sources := st.sources.map (E.src_time_update st.time st.dt) } ∧
    Call.exec E st Call.update_half = some (if st.fluxes then E.update_half st else st) ∧
    Call.exec E st Call.update = some (if st.fluxes then E.update st else st) ∧
    Call.exec E st Call.increment_t = some { st with t := int_increment st.t } := by
  refine ⟨field_calls_step_calls, step_skips_timing E st, ?_, ?_, rfl, rfl, rfl⟩
  · simp only [Call.exec, calc_sources_eq]
    have : (1 : ℚ) / 2 * st.dt = st.dt / 2 := by ring
    rw [this]
  · simp only [Call.exec, calc_sources_eq]

theorem for_loop_append {σ ι ω : Type} (body : ι → σ → List ω × σ) (l1 l2 : List ι) (s : σ) :
    for_loop body (l1 ++ l2) s =
      ((for_loop body l1 s).1 ++ (for_loop body l2 (for_loop body l1 s).2).1,
        (for_loop body l2 (for_loop body l1 s).2).2) := by
  induction l1 generalizing s with
  | nil => simp [for_loop]
  | cons a l1 ih => simp [for_loop, ih, List.append_assoc]

/-- A loop over `0 .. size - 1` whose cursor before iteration `n` is `cur n` and whose
iteration `n` emits `out n`. -/
theorem for_loop_range {σ ω : Type} (body : Nat → σ → List ω × σ) (out : Nat → List ω)
    (cur : Nat → σ) (size : Nat) (h : ∀ n, n < size → body n (cur n) = (out n, cur (n + 1))) :
    for_loop body (List.range size) (cur 0) = ((List.range size).flatMap out, cur size) := by
  induction size with
  | zero => simp [for_loop]
  | succ n ih =>
    have ih2 := ih (fun k hk => h k (by omega))
    rw [List.range_succ, for_loop_append, ih2]
    simp [for_loop, h n (by omega)]

theorem for_loop_map {σ ι κ ω : Type} (body : ι → σ → List ω × σ) (g : κ → ι) (l : List κ)
    (s : σ) : for_loop body (l.map g) s = for_loop (fun x => body (g x)) l s := by
  induction l generalizing s with
  | nil => rfl
  | cons a l ih => simp [for_loop, ih]

theorem pack_n_loop_eq (j pair ip n0 size : Nat) (wh : Nat → Nat) :
    pack_n_loop j pair ip n0 size wh =
      ((List.range size).map (fun n => PackOp.mk j pair ip (n0 + n) (wh ip + n)),
        Function.update wh ip (wh ip + size)) := by
  unfold pack_n_loop
  have h := for_loop_range
    (fun n (wh : Nat → Nat) => ([PackOp.mk j pair ip (n0 + n) (wh ip)],
      Function.update wh ip (wh ip + 1)))
    (fun n => [PackOp.mk j pair ip (n0 + n) (wh ip + n)])
    (fun n => Function.update wh ip (wh ip + n)) size
    (by intro n _; simp [Function.update_idem, Nat.add_assoc])
  simp only [Nat.add_zero, Function.update_eq_self] at h
  rw [h]
  congr 1
  induction (List.range size) with
  | nil => rfl
  | cons a l ih => simp [List.flatMap_cons, ih]

theorem pack_ip_loop_eq (st : fields) (ft : field_type) (j pair : Nat) (wh : Nat → Nat) :
    pack_ip_loop st ft j pair wh =
      ((List.range 3).flatMap (fun ip => (List.range (st.comm_sizes ft ip pair)).map
          (fun n => PackOp.mk j pair ip (region_offset st ft pair ip + n) (wh ip + n))),
        (region_offset st ft pair 3,
          fun k => if k < 3 then wh k + st.comm_sizes ft k pair else wh k)) := by
  unfold pack_ip_loop
  have h := for_loop_range
    (fun ip (c : Nat × (Nat → Nat)) =>
      ((pack_n_loop j pair ip c.1 (st.comm_sizes ft ip pair) c.2).1,
        (c.1 + st.comm_sizes ft ip pair,
          (pack_n_loop j pair ip c.1 (st.comm_sizes ft ip pair) c.2).2)))
    (fun ip => (List.range (st.comm_sizes ft ip pair)).map
          (fun n => PackOp.mk j pair ip (region_offset st ft pair ip + n) (wh ip + n)))
    (fun ip => (region_offset st ft pair ip,
      fun k => if k < ip then wh k + st.comm_sizes ft k pair else wh k)) 3
    (by
      intro ip _
      simp only [pack_n_loop_eq, lt_self_iff_false, if_false, region_offset, sum_below]
      congr 2
      funext k
      by_cases hk : k = ip
      · subst hk; simp
      · have : k < ip + 1 ↔ k < ip := by omega
        simp [Function.update, hk, this])
  simpa [region_offset, sum_below] using h

theorem flatMap_congr_mem {α β : Type} (l : List α) (f g : α → List β)
    (h : ∀ a, a ∈ l → f a = g a) : l.flatMap f = l.flatMap g := by
  induction l with
  | nil => rfl
  | cons a l ih =>
    simp only [List.flatMap_cons]
    rw [h a (by simp), ih (fun b hb => h b (by simp [hb]))]

theorem pack_i_loop_eq (st : fields) (ft : field_type) (j : Nat) :
    pack_i_loop st ft j =
      ((List.range st.num_chunks).flatMap (fun i => pack_pair_ops st ft j i),
        fun k => if k < 3 then pack_base st ft j k st.num_chunks else 0) := by
  unfold pack_i_loop
  have h := for_loop_range
    (fun i (wh : Nat → Nat) =>
      ((pack_ip_loop st ft j (j + i * st.num_chunks) wh).1,
        (pack_ip_loop st ft j (j + i * st.num_chunks) wh).2.2))
    (fun i => pack_pair_ops st ft j i)
    (fun i k => if k < 3 then pack_base st ft j k i else 0) st.num_chunks
    (by
      intro i _
      simp only [pack_ip_loop_eq, pack_pair_ops]
      refine Prod.ext ?_ ?_
      · dsimp only
        apply flatMap_congr_mem
        intro ip hip
        have : ip < 3 := List.mem_range.1 hip
        simp [this]
      · dsimp only
        funext k
        by_cases hk : k < 3
        · simp [hk, pack_base, sum_below]
        · simp [hk])
  simpa [pack_base, sum_below] using h

theorem pack_ops_eq (st : fields) (ft : field_type) :
    pack_ops st ft = (List.range st.num_chunks).flatMap (fun j =>
      if (st.chunks j).is_mine then
        (List.range st.num_chunks).flatMap (fun i => pack_pair_ops st ft j i)
      else []) := by
  unfold pack_ops
  have h := for_loop_range
    (fun j (_ : Unit) =>
      (if (st.chunks j).is_mine then (pack_i_loop st ft j).1 else [], ()))
    (fun j => if (st.chunks j).is_mine then
        (List.range st.num_chunks).flatMap (fun i => pack_pair_ops st ft j i) else [])
    (fun _ => ()) st.num_chunks
    (by intro j _; simp only [pack_i_loop_eq])
  rw [h]

theorem mem_pack_ops (st : fields) (ft : field_type) (op : PackOp) :
    op ∈ pack_ops st ft ↔ ∃ j i ip n, j < st.num_chunks ∧ (st.chunks j).is_mine = true ∧
      i < st.num_chunks ∧ ip < 3 ∧ n < st.comm_sizes ft ip (j + i * st.num_chunks) ∧
      op = PackOp.mk j (j + i * st.num_chunks) ip
        (region_offset st ft (j + i * st.num_chunks) ip + n) (pack_base st ft j ip i + n) := by
  rw [pack_ops_eq]
  simp only [List.mem_flatMap, List.mem_range]
  constructor
  · rintro ⟨j, hj, h⟩
    split at h
    · rename_i hm
      simp only [List.mem_flatMap, List.mem_range, pack_pair_ops, List.mem_map] at h
      obtain ⟨i, hi, ip, hip, n, hn, rfl⟩ := h
      exact ⟨j, i, ip, n, hj, hm, hi, hip, hn, rfl⟩
    · simp at h
  · rintro ⟨j, i, ip, n, hj, hm, hi, hip, hn, rfl⟩
    refine ⟨j, hj, ?_⟩
    rw [if_pos hm]
    simp only [List.mem_flatMap, List.mem_range, pack_pair_ops, List.mem_map]
    exact ⟨i, hi, ip, hip, n, hn, rfl⟩

theorem even_below (size : Nat) :
    (List.range size).filter (fun n => n % 2 = 0) =
      (List.range ((size + 1) / 2)).map (fun m => 2 * m) := by
  induction size with
  | zero => rfl
  | succ n ih =>
    rw [List.range_succ, List.filter_append, ih]
    by_cases hn : n % 2 = 0
    · have h1 : (n + 1 + 1) / 2 = (n + 1) / 2 + 1 := by omega
      have h2 : 2 * ((n + 1) / 2) = n := by omega
      rw [h1, List.range_succ, List.map_append]
      simp [hn, h2]
    · have h1 : (n + 1 + 1) / 2 = (n + 1) / 2 := by omega
      rw [h1]
      simp [hn]

theorem flatMap_singleton_map {α β : Type} (l : List α) (g : α → β) :
    l.flatMap (fun a => [g a]) = l.map g := by
  induction l with
  | nil => rfl
  | cons a l ih => simp [List.flatMap_cons, ih]

theorem unpack_phase_loop_eq (i pair size : Nat) (wh : Nat → Nat) :
    unpack_phase_loop i pair size wh =
      ((List.range ((size + 1) / 2)).map
          (fun m => UnpackOp.mk i pair CONNECT_PHASE (2 * m) (wh CONNECT_PHASE + 2 * m)),
        Function.update wh CONNECT_PHASE (wh CONNECT_PHASE + phase_consumed size)) := by
  unfold unpack_phase_loop
  rw [even_below, for_loop_map]
  have h := for_loop_range
    (fun m (wh : Nat → Nat) => ([UnpackOp.mk i pair CONNECT_PHASE (2 * m) (wh CONNECT_PHASE)],
      Function.update wh CONNECT_PHASE (wh CONNECT_PHASE + 2)))
    (fun m => [UnpackOp.mk i pair CONNECT_PHASE (2 * m) (wh CONNECT_PHASE + 2 * m)])
    (fun m => Function.update wh CONNECT_PHASE (wh CONNECT_PHASE + 2 * m)) ((size + 1) / 2)
    (by intro n _; simp [Function.update_idem, Nat.add_assoc, Nat.mul_add])
  simp only [Nat.mul_zero, Nat.add_zero, Function.update_eq_self] at h
  rw [h, flatMap_singleton_map]
  rfl

theorem unpack_n_loop_eq (i pair ip n0 size : Nat) (wh : Nat → Nat) :
    unpack_n_loop i pair ip n0 size wh =
      ((List.range size).map (fun n => UnpackOp.mk i pair ip (n0 + n) (wh ip + n)),
        Function.update wh ip (wh ip + size)) := by
  unfold unpack_n_loop
  have h := for_loop_range
    (fun n (wh : Nat → Nat) => ([UnpackOp.mk i pair ip (n0 + n) (wh ip)],
      Function.update wh ip (wh ip + 1)))
    (fun n => [UnpackOp.mk i pair ip (n0 + n) (wh ip + n)])
    (fun n => Function.update wh ip (wh ip + n)) size
    (by intro n _; simp [Function.update_idem, Nat.add_assoc])
  simp only [Nat.add_zero, Function.update_eq_self] at h
  rw [h, flatMap_singleton_map]

theorem unpack_j_loop_eq (st : fields) (ft : field_type) (i : Nat) :
    unpack_j_loop st ft i =
      ((List.range st.num_chunks).flatMap (fun j => unpack_pair_ops st ft i j),
        fun k => if k < 3 then unpack_base st ft i k st.num_chunks else 0) := by
  unfold unpack_j_loop
  have h := for_loop_range
    (fun j (wh : Nat → Nat) => unpack_pair st ft i j wh)
    (fun j => unpack_pair_ops st ft i j)
    (fun j k => if k < 3 then unpack_base st ft i k j else 0) st.num_chunks
    (by
      intro j _
      simp only [unpack_pair, unpack_phase_loop_eq, unpack_n_loop_eq, unpack_pair_ops]
      refine Prod.ext ?_ ?_
      · simp [CONNECT_PHASE, CONNECT_NEGATE, CONNECT_COPY, region_offset, sum_below,
          Function.update]
      · dsimp only
        funext k
        simp only [CONNECT_PHASE, CONNECT_NEGATE, CONNECT_COPY, Function.update,
          unpack_base, sum_below]
        by_cases h0 : k = 0
        · subst h0; simp
        · by_cases h1 : k = 1
          · subst h1; simp
          · by_cases h2 : k = 2
            · subst h2; simp
            · have : ¬ k < 3 := by omega
              simp [h0, h1, h2, this])
  simpa [unpack_base, sum_below] using h

theorem unpack_ops_eq (st : fields) (ft : field_type) :
    unpack_ops st ft = (List.range st.num_chunks).flatMap (fun i =>
      if (st.chunks i).is_mine then
        (List.range st.num_chunks).flatMap (fun j => unpack_pair_ops st ft i j)
      else []) := by
  unfold unpack_ops
  have h := for_loop_range
    (fun i (_ : Unit) =>
      (if (st.chunks i).is_mine then (unpack_j_loop st ft i).1 else [], ()))
    (fun i => if (st.chunks i).is_mine then
        (List.range st.num_chunks).flatMap (fun j => unpack_pair_ops st ft i j) else [])
    (fun _ => ()) st.num_chunks
    (by intro j _; simp only [unpack_j_loop_eq])
  rw [h]

theorem filter_map_of_const {α β : Type} (l : List α) (g : α → β) (p : β → Bool) (c : Bool)
    (h : ∀ a, p (g a) = c) : (l.map g).filter p = if c then l.map g else [] := by
  induction l with
  | nil => cases c <;> rfl
  | cons a l ih =>
    rw [List.map_cons, List.filter_cons, h a, ih]
    cases c <;> simp

theorem range_flatMap_blocks (c : Nat → Nat) (J : Nat) :
    (List.range J).flatMap (fun j => (List.range (c j)).map (fun m => sum_below c j + m)) =
      List.range (sum_below c J) := by
  induction J with
  | zero => rfl
  | succ J ih =>
    rw [List.range_succ, List.flatMap_append, ih]
    simp only [List.flatMap_cons, List.flatMap_nil, List.append_nil, sum_below]
    rw [List.range_add]

theorem region_offset_values (st : fields) (ft : field_type) (pair : Nat) :
    region_offset st ft pair CONNECT_PHASE = 0 ∧
    region_offset st ft pair CONNECT_NEGATE = st.comm_sizes ft CONNECT_PHASE pair ∧
    region_offset st ft pair CONNECT_COPY =
      st.comm_sizes ft CONNECT_PHASE pair + st.comm_sizes ft CONNECT_NEGATE pair ∧
    region_offset st ft pair 3 = st.comm_size_tot ft pair := by
  simp [region_offset, sum_below, CONNECT_PHASE, CONNECT_NEGATE, CONNECT_COPY,
    fields.comm_size_tot]

theorem pack_pair_ops_kind (st : fields) (ft : field_type) (j i k : Nat) :
    ((pack_pair_ops st ft j i).filter (fun op => op.ip = k)).map (fun op => (op.pair, op.off)) =
      if k < 3 then (List.range (st.comm_sizes ft k (j + i * st.num_chunks))).map
        (fun n => (j + i * st.num_chunks, region_offset st ft (j + i * st.num_chunks) k + n))
      else [] := by
  unfold pack_pair_ops
  have h3 : List.range 3 = [0, 1, 2] := rfl
  simp only [h3, List.flatMap_cons, List.flatMap_nil, List.append_nil, List.filter_append,
    List.filter_map, Function.comp_def, List.map_append, List.map_map]
  by_cases h0 : k = 0
  · subst h0; simp
  · by_cases h1 : k = 1
    · subst h1; simp
    · by_cases h2 : k = 2
      · subst h2; simp
      · have : ¬ k < 3 := by omega
        simp [this, Ne.symm h0, Ne.symm h1, Ne.symm h2]

theorem pairs_two_blocks (m : Nat) (P : Nat) :
    (List.range m).flatMap (fun x => [(P, 2 * x), (P, 2 * x + 1)]) =
      (List.range (2 * m)).map (fun n => (P, n)) := by
  induction m with
  | zero => rfl
  | succ m ih =>
    rw [List.range_succ, List.flatMap_append, ih]
    have : 2 * (m + 1) = 2 * m + 1 + 1 := by ring
    rw [this, List.range_succ, List.range_succ]
    simp

theorem unpack_pair_ops_kind (st : fields) (ft : field_type) (i j k : Nat) :
    ((unpack_pair_ops st ft i j).filter (fun op => op.ip = k)).flatMap
        (fun op => op.reads.map (fun o => (op.pair, o))) =
      if k = CONNECT_PHASE then
        (List.range (phase_consumed (st.comm_sizes ft k (j + i * st.num_chunks)))).map
          (fun n => (j + i * st.num_chunks, region_offset st ft (j + i * st.num_chunks) k + n))
      else if k < 3 then (List.range (st.comm_sizes ft k (j + i * st.num_chunks))).map
        (fun n => (j + i * st.num_chunks, region_offset st ft (j + i * st.num_chunks) k + n))
      else [] := by
  unfold unpack_pair_ops
  simp only [List.filter_append, List.filter_map, Function.comp_def, List.flatMap_append,
    List.flatMap_map, UnpackOp.reads, CONNECT_PHASE, CONNECT_NEGATE, CONNECT_COPY]
  by_cases h0 : k = 0
  · subst h0
    simp [pairs_two_blocks, phase_consumed, region_offset, sum_below]
  · by_cases h1 : k = 1
    · subst h1; simp [flatMap_singleton_map]
    · by_cases h2 : k = 2
      · subst h2; simp [flatMap_singleton_map]
      · have : ¬ k < 3 := by omega
        simp [this, Ne.symm h0, Ne.symm h1, Ne.symm h2, h0]

theorem unpack_writes_reads (ft : field_type) (st st2 : fields) (op : UnpackOp)
    (hc : st2.chunks = st.chunks) (hs : st2.comm_sizes = st.comm_sizes)
    (hb : ∀ o, o ∈ op.reads → st2.comm_blocks ft op.pair o = st.comm_blocks ft op.pair o) :
    unpack_writes ft st2 op = unpack_writes ft st op := by
  unfold unpack_writes fields.comm_size_tot
  simp only [hc, hs]
  by_cases h0 : op.ip = CONNECT_PHASE
  · have e1 := hb op.off (by simp [UnpackOp.reads, h0])
    have e2 := hb (op.off + 1) (by simp [UnpackOp.reads, h0])
    simp only [h0, if_true, e1, e2]
  · have e1 := hb op.off (by simp [UnpackOp.reads, h0])
    simp only [h0, if_false, e1]

theorem store_f_same (st : fields) (i : Nat) (p : Slot) (v : ℚ) :
    ((st.store i p v).chunks i).f p = v := by
  simp [fields.store]

theorem store_f_other (st : fields) (i i2 : Nat) (p p2 : Slot) (v : ℚ)
    (h : ¬ (i2 = i ∧ p2 = p)) : ((st.store i p v).chunks i2).f p2 = (st.chunks i2).f p2 := by
  unfold fields.store
  by_cases hi : i2 = i
  · subst hi
    have hp : ¬ p2 = p := fun e => h ⟨rfl, e⟩
    simp [hp]
  · simp [hi]

theorem for_loop_nested {σ α β ω : Type} (body : α → β → σ → List ω × σ) (l1 : List α)
    (l2 : List β) (s : σ) :
    for_loop (fun a s => for_loop (fun b s => body a b s) l2 s) l1 s =
      for_loop (fun (x : α × β) s => body x.1 x.2 s)
        (l1.flatMap (fun a => l2.map (fun b => (a, b)))) s := by
  induction l1 generalizing s with
  | nil => rfl
  | cons a l1 ih =>
    rw [List.flatMap_cons, for_loop_append, for_loop_map]
    simp only [for_loop, ih]

theorem exchange_requests_eq (st : fields) (ft : field_type) :
    exchange_requests st ft =
      (for_loop (fun (x : Nat × Nat) tagto => exchange_body st ft x.1 x.2 tagto)
        (exchange_order st.num_chunks) (fun _ => 0)).1 := by
  unfold exchange_requests exchange_order
  rw [for_loop_nested (fun noti j tagto => exchange_body st ft noti j tagto)]

/-- The requests of one iteration, spelled out. -/
theorem exchange_body_cases (st : fields) (ft : field_type) (noti j : Nat) (tagto : Nat → Nat) :
    exchange_body st ft noti j tagto =
      if 0 < st.comm_size_tot ft (j + (noti + j) % st.num_chunks * st.num_chunks) then
        if (st.chunks j).is_mine = true ∧ (st.chunks ((noti + j) % st.num_chunks)).is_mine = false
        then
          ([Request.mk true (j + (noti + j) % st.num_chunks * st.num_chunks)
              (st.comm_size_tot ft (j + (noti + j) % st.num_chunks * st.num_chunks))
              (st.chunks ((noti + j) % st.num_chunks)).n_proc
              (tagto (st.chunks ((noti + j) % st.num_chunks)).n_proc)],
            Function.update tagto (st.chunks ((noti + j) % st.num_chunks)).n_proc
              (tagto (st.chunks ((noti + j) % st.num_chunks)).n_proc + 1))
        else if (st.chunks ((noti + j) % st.num_chunks)).is_mine = true ∧
            (st.chunks j).is_mine = false then
          ([Request.mk false (j + (noti + j) % st.num_chunks * st.num_chunks)
              (st.comm_size_tot ft (j + (noti + j) % st.num_chunks * st.num_chunks))
              (st.chunks j).n_proc (tagto (st.chunks j).n_proc)],
            Function.update tagto (st.chunks j).n_proc (tagto (st.chunks j).n_proc + 1))
        else ([], tagto)
      else ([], tagto) := by
  unfold exchange_body
  simp only [gt_iff_lt]
  by_cases hs : 0 < st.comm_size_tot ft (j + (noti + j) % st.num_chunks * st.num_chunks)
  · simp only [hs, if_true]
    cases hj : (st.chunks j).is_mine <;> cases hi : (st.chunks ((noti + j) % st.num_chunks)).is_mine <;>
      simp
  · simp only [hs, if_false]

/-- The exchange loop body as a function of what it reads: the payload size, whether
source and destination are local, and their processes. -/
theorem exchange_body_cases2 (st : fields) (ft : field_type) (noti j : Nat) (tagto : Nat → Nat)
    (pair size pj pi : Nat) (mj mi : Bool)
    (hpair : j + (noti + j) % st.num_chunks * st.num_chunks = pair)
    (hsize : st.comm_size_tot ft pair = size)
    (hpj : (st.chunks j).n_proc = pj) (hpi : (st.chunks ((noti + j) % st.num_chunks)).n_proc = pi)
    (hmj : (st.chunks j).is_mine = mj)
    (hmi : (st.chunks ((noti + j) % st.num_chunks)).is_mine = mi) :
    exchange_body st ft noti j tagto =
      if 0 < size then
        if mj = true ∧ mi = false then
          ([Request.mk true pair size pi (tagto pi)], Function.update tagto pi (tagto pi + 1))
        else if mi = true ∧ mj = false then
          ([Request.mk false pair size pj (tagto pj)], Function.update tagto pj (tagto pj + 1))
        else ([], tagto)
      else ([], tagto) := by
  rw [exchange_body_cases, hpair, hsize, hpj, hpi, hmj, hmi]

theorem exchange_body_agree (stA stB : fields) (ft : field_type) (A B : Nat) (hAB : A ≠ B)
    (hN : stA.num_chunks = stB.num_chunks) (hsz : stA.comm_sizes = stB.comm_sizes)
    (hproc : ∀ j, j < stA.num_chunks → (stA.chunks j).n_proc = (stB.chunks j).n_proc)
    (hA : ∀ j, j < stA.num_chunks →
      (stA.chunks j).is_mine = decide ((stA.chunks j).n_proc = A))
    (hB : ∀ j, j < stA.num_chunks →
      (stB.chunks j).is_mine = decide ((stB.chunks j).n_proc = B))
    (noti j : Nat) (hj : j < stA.num_chunks) (tA tB : Nat → Nat) (ht : tA B = tB A) :
    (((exchange_body stA ft noti j tA).1.filter (fun r => r.is_send && r.peer == B)).map
        (fun r => (r.pair, r.count, r.tag)) =
      ((exchange_body stB ft noti j tB).1.filter (fun r => !r.is_send && r.peer == A)).map
        (fun r => (r.pair, r.count, r.tag))) ∧
    (exchange_body stA ft noti j tA).2 B = (exchange_body stB ft noti j tB).2 A := by
  have hi : (noti + j) % stA.num_chunks < stA.num_chunks := Nat.mod_lt _ (by omega)
  have hsize : stB.comm_size_tot ft (j + (noti + j) % stA.num_chunks * stA.num_chunks) =
      stA.comm_size_tot ft (j + (noti + j) % stA.num_chunks * stA.num_chunks) := by
    unfold fields.comm_size_tot; rw [hsz]
  rw [exchange_body_cases2 stA ft noti j tA _ _ _ _ _ _ rfl rfl rfl rfl (hA j hj) (hA _ hi),
    exchange_body_cases2 stB ft noti j tB
      (j + (noti + j) % stA.num_chunks * stA.num_chunks)
      (stA.comm_size_tot ft (j + (noti + j) % stA.num_chunks * stA.num_chunks))
      (stA.chunks j).n_proc (stA.chunks ((noti + j) % stA.num_chunks)).n_proc
      (decide ((stA.chunks j).n_proc = B))
      (decide ((stA.chunks ((noti + j) % stA.num_chunks)).n_proc = B))
      (by rw [← hN]) hsize
      (hproc j hj).symm (by rw [← hN]; exact (hproc _ hi).symm)
      (by rw [hB j hj, hproc j hj])
      (by rw [← hN, hB _ hi, hproc _ hi])]
  generalize (stA.chunks j).n_proc = pj
  generalize (stA.chunks ((noti + j) % stA.num_chunks)).n_proc = pi
  generalize stA.comm_size_tot ft (j + (noti + j) % stA.num_chunks * stA.num_chunks) = size
  generalize j + (noti + j) % stA.num_chunks * stA.num_chunks = pair
  clear hi hsize hA hB hproc hsz hN hj
  by_cases hs : 0 < size
  · simp only [hs, if_true, decide_eq_true_eq, decide_eq_false_iff_not]
    by_cases h1 : pj = A <;> by_cases h2 : pi = A <;> by_cases h3 : pj = B <;>
      by_cases h4 : pi = B <;>
      simp_all [Function.update, Ne.symm hAB] <;> (try intro h) <;> (try split_ifs) <;> omega
  · simp only [hs, if_false, List.filter_nil, List.map_nil, true_and]
    exact ht

theorem for_loop_cons {σ ι ω : Type} (body : ι → σ → List ω × σ) (x : ι) (l : List ι) (s : σ) :
    for_loop body (x :: l) s =
      ((body x s).1 ++ (for_loop body l (body x s).2).1, (for_loop body l (body x s).2).2) := rfl

theorem exchange_order_bound (N : Nat) (x : Nat × Nat) (hx : x ∈ exchange_order N) :
    x.1 < N ∧ x.2 < N := by
  unfold exchange_order at hx
  simp only [List.mem_flatMap, List.mem_range, List.mem_map] at hx
  obtain ⟨a, ha, b, hb, rfl⟩ := hx
  exact ⟨ha, hb⟩

theorem exchange_loop_agree (stA stB : fields) (ft : field_type) (A B : Nat) (hAB : A ≠ B)
    (hN : stA.num_chunks = stB.num_chunks) (hsz : stA.comm_sizes = stB.comm_sizes)
    (hproc : ∀ j, j < stA.num_chunks → (stA.chunks j).n_proc = (stB.chunks j).n_proc)
    (hA : ∀ j, j < stA.num_chunks →
      (stA.chunks j).is_mine = decide ((stA.chunks j).n_proc = A))
    (hB : ∀ j, j < stA.num_chunks →
      (stB.chunks j).is_mine = decide ((stB.chunks j).n_proc = B)) :
    ∀ (L : List (Nat × Nat)), (∀ x, x ∈ L → x.2 < stA.num_chunks) →
    ∀ (tA tB : Nat → Nat), tA B = tB A →
    (((for_loop (fun (x : Nat × Nat) t => exchange_body stA ft x.1 x.2 t) L tA).1.filter
        (fun r => r.is_send && r.peer == B)).map (fun r => (r.pair, r.count, r.tag)) =
      ((for_loop (fun (x : Nat × Nat) t => exchange_body stB ft x.1 x.2 t) L tB).1.filter
        (fun r => !r.is_send && r.peer == A)).map (fun r => (r.pair, r.count, r.tag))) ∧
    (for_loop (fun (x : Nat × Nat) t => exchange_body stA ft x.1 x.2 t) L tA).2 B =
      (for_loop (fun (x : Nat × Nat) t => exchange_body stB ft x.1 x.2 t) L tB).2 A := by
  intro L
  induction L with
  | nil => intro _ tA tB ht; exact ⟨rfl, ht⟩
  | cons x L ih =>
    intro hL tA tB ht
    obtain ⟨h1, h2⟩ := exchange_body_agree stA stB ft A B hAB hN hsz hproc hA hB x.1 x.2
      (hL x (by simp)) tA tB ht
    obtain ⟨h3, h4⟩ := ih (fun y hy => hL y (by simp [hy])) _ _ h2
    rw [for_loop_cons, for_loop_cons]
    simp only [List.filter_append, List.map_append]
    exact ⟨by rw [h1, h3], h4⟩

/-- One iteration posts at most one send to process `q`; its tag is the current
`tagto[q]`, which the iteration then raises. -/
theorem exchange_body_send_tag (st : fields) (ft : field_type) (noti j q : Nat)
    (t : Nat → Nat) :
    t q ≤ (exchange_body st ft noti j t).2 q ∧
    ((((exchange_body st ft noti j t).1.filter (fun r => r.is_send && r.peer == q)).map
        (fun r => r.tag) = []) ∨
      ((((exchange_body st ft noti j t).1.filter (fun r => r.is_send && r.peer == q)).map
        (fun r => r.tag) = [t q]) ∧ t q < (exchange_body st ft noti j t).2 q)) := by
  rw [exchange_body_cases]
  by_cases hs : 0 < st.comm_size_tot ft (j + (noti + j) % st.num_chunks * st.num_chunks)
  · simp only [hs, if_true]
    by_cases h1 : (st.chunks j).is_mine = true ∧
        (st.chunks ((noti + j) % st.num_chunks)).is_mine = false
    · simp only [h1, and_self, if_true]
      by_cases hq : (st.chunks ((noti + j) % st.num_chunks)).n_proc = q
      · subst hq; simp
      · simp [Function.update, hq, Ne.symm hq]
    · simp only [h1, if_false]
      by_cases h2 : (st.chunks ((noti + j) % st.num_chunks)).is_mine = true ∧
          (st.chunks j).is_mine = false
      · simp only [h2, and_self, if_true]
        by_cases hq : (st.chunks j).n_proc = q
        · subst hq; simp
        · simp [Function.update, hq, Ne.symm hq]
      · simp [h2]
  · simp [hs]

theorem exchange_loop_send_tags (st : fields) (ft : field_type) (q : Nat) :
    ∀ (L : List (Nat × Nat)) (t : Nat → Nat),
    t q ≤ (for_loop (fun (x : Nat × Nat) t => exchange_body st ft x.1 x.2 t) L t).2 q ∧
    (∀ a, a ∈ ((for_loop (fun (x : Nat × Nat) t => exchange_body st ft x.1 x.2 t) L t).1.filter
        (fun r => r.is_send && r.peer == q)).map (fun r => r.tag) → t q ≤ a) ∧
    (((for_loop (fun (x : Nat × Nat) t => exchange_body st ft x.1 x.2 t) L t).1.filter
        (fun r => r.is_send && r.peer == q)).map (fun r => r.tag)).Pairwise (fun a b => a < b) := by
  intro L
  induction L with
  | nil => intro t; simp [for_loop]
  | cons x L ih =>
    intro t
    obtain ⟨h1, h2⟩ := exchange_body_send_tag st ft x.1 x.2 q t
    obtain ⟨h3, h4, h5⟩ := ih (exchange_body st ft x.1 x.2 t).2
    rw [for_loop_cons]
    simp only [List.filter_append, List.map_append]
    refine ⟨le_trans h1 h3, ?_, ?_⟩
    · intro a ha
      rw [List.mem_append] at ha
      rcases ha with ha | ha
      · rcases h2 with h2 | ⟨h2, _⟩
        · rw [h2] at ha; simp at ha
        · rw [h2] at ha; simp at ha; omega
      · exact le_trans h1 (h4 a ha)
    · rw [List.pairwise_append]
      refine ⟨?_, h5, ?_⟩
      · rcases h2 with h2 | ⟨h2, _⟩ <;> rw [h2] <;> simp
      · intro a ha b hb
        rcases h2 with h2 | ⟨h2, h6⟩
        · rw [h2] at ha; simp at ha
        · rw [h2] at ha
          simp at ha
          have := h4 b hb
          omega

theorem for_loop_mem {σ ι ω : Type} (body : ι → σ → List ω × σ) (P : ω → Prop) (x : ι)
    (hP : ∀ s, ∃ r, r ∈ (body x s).1 ∧ P r) :
    ∀ (L : List ι), x ∈ L → ∀ s, ∃ r, r ∈ (for_loop body L s).1 ∧ P r := by
  intro L
  induction L with
  | nil => intro hx; simp at hx
  | cons y L ih =>
    intro hx s
    rw [for_loop_cons]
    rcases List.mem_cons.1 hx with rfl | hx
    · obtain ⟨r, hr, hp⟩ := hP s
      exact ⟨r, List.mem_append_left _ hr, hp⟩
    · obtain ⟨r, hr, hp⟩ := ih hx (body y s).2
      exact ⟨r, List.mem_append_right _ hr, hp⟩

theorem exchange_pair_injective (N : Nat) (x y : Nat × Nat) (hx1 : x.1 < N) (hx2 : x.2 < N)
    (hy1 : y.1 < N) (hy2 : y.2 < N) (h : exchange_pair N x = exchange_pair N y) : x = y := by
  unfold exchange_pair at h
  have hN : 0 < N := by omega
  have hm := congrArg (fun v => v % N) h
  simp only [Nat.add_mul_mod_self_right, Nat.mod_eq_of_lt hx2, Nat.mod_eq_of_lt hy2] at hm
  have hd := congrArg (fun v => v / N) h
  simp only [Nat.add_mul_div_right _ _ hN, Nat.div_eq_of_lt hx2, Nat.div_eq_of_lt hy2,
    Nat.zero_add] at hd
  rw [hm] at hd
  have hc : x.1 ≡ y.1 [MOD N] := Nat.ModEq.add_right_cancel' y.2 hd
  have h1 : x.1 = y.1 := Nat.ModEq.eq_of_lt_of_lt hc hx1 hy1
  exact Prod.ext h1 hm

theorem exchange_order_nodup (N : Nat) : ((exchange_order N).map (exchange_pair N)).Nodup := by
  have hnd : (exchange_order N).Nodup := by
    have : exchange_order N = List.product (List.range N) (List.range N) := rfl
    rw [this]
    exact List.Nodup.product (List.nodup_range N) (List.nodup_range N)
  refine List.Nodup.map_on ?_ hnd
  intro x hx y hy h
  obtain ⟨a1, a2⟩ := exchange_order_bound N x hx
  obtain ⟨b1, b2⟩ := exchange_order_bound N y hy
  exact exchange_pair_injective N x y a1 a2 b1 b2 h

theorem exchange_order_mem (N j i : Nat) (hj : j < N) (hi : i < N) :
    ((i + N - j) % N, j) ∈ exchange_order N ∧
      exchange_pair N ((i + N - j) % N, j) = j + i * N := by
  constructor
  · unfold exchange_order
    simp only [List.mem_flatMap, List.mem_range, List.mem_map]
    exact ⟨(i + N - j) % N, Nat.mod_lt _ (by omega), j, hj, rfl⟩
  · unfold exchange_pair
    simp only
    have : ((i + N - j) % N + j) % N = i := by
      rw [Nat.add_mod, Nat.mod_mod, ← Nat.add_mod]
      have e : i + N - j + j = i + N := by omega
      rw [e, Nat.add_mod_right, Nat.mod_eq_of_lt hi]
    rw [this]

theorem exchange_body_pairs (st : fields) (ft : field_type) (noti j : Nat) (t : Nat → Nat) :
    ((exchange_body st ft noti j t).1.map (fun r => r.pair)).Sublist
      [exchange_pair st.num_chunks (noti, j)] := by
  rw [exchange_body_cases]
  unfold exchange_pair
  split
  · split
    · simp
    · split <;> simp
  · simp

theorem exchange_loop_pairs (st : fields) (ft : field_type) :
    ∀ (L : List (Nat × Nat)) (t : Nat → Nat),
    ((for_loop (fun (x : Nat × Nat) t => exchange_body st ft x.1 x.2 t) L t).1.map
      (fun r => r.pair)).Sublist (L.map (exchange_pair st.num_chunks)) := by
  intro L
  induction L with
  | nil => intro t; simp [for_loop]
  | cons x L ih =>
    intro t
    rw [for_loop_cons, List.map_append, List.map_cons]
    exact List.Sublist.append (exchange_body_pairs st ft x.1 x.2 t) (ih _)

/-- No buffer gets two requests. -/
theorem exchange_requests_pairs_nodup (st : fields) (ft : field_type) :
    ((exchange_requests st ft).map (fun r => r.pair)).Nodup := by
  rw [exchange_requests_eq]
  exact List.Nodup.sublist (exchange_loop_pairs st ft _ _) (exchange_order_nodup st.num_chunks)

/-- A pair with payload whose source is local and whose destination is not gets a send. -/
theorem exchange_requests_send (st : fields) (ft : field_type) (j i : Nat)
    (hj : j < st.num_chunks) (hi : i < st.num_chunks)
    (hs : 0 < st.comm_size_tot ft (j + i * st.num_chunks))
    (hmj : (st.chunks j).is_mine = true) (hmi : (st.chunks i).is_mine = false) :
    ∃ r, r ∈ exchange_requests st ft ∧ r.is_send = true ∧ r.pair = j + i * st.num_chunks ∧
      r.count = st.comm_size_tot ft (j + i * st.num_chunks) ∧ r.peer = (st.chunks i).n_proc := by
  rw [exchange_requests_eq]
  obtain ⟨hmem, hpair⟩ := exchange_order_mem st.num_chunks j i hj hi
  refine for_loop_mem _ _ ((i + st.num_chunks - j) % st.num_chunks, j) ?_ _ hmem _
  intro t
  unfold exchange_pair at hpair
  simp only at hpair
  have hi2 : ((i + st.num_chunks - j) % st.num_chunks + j) % st.num_chunks = i := by
    have h1 := Nat.add_mul_div_right j ((((i + st.num_chunks - j) % st.num_chunks + j) % st.num_chunks)) (show 0 < st.num_chunks by omega)
    have h2 := Nat.add_mul_div_right j i (show 0 < st.num_chunks by omega)
    rw [hpair, h2] at h1
    omega
  rw [exchange_body_cases]
  simp only [hi2, hs, if_true, hmj, hmi, and_self]
  exact ⟨_, List.mem_singleton.2 rfl, rfl, rfl, rfl, rfl⟩

/-- Claim C8 (tag agreement). Let two distinct processes `A` and `B` run the exchange loop
over the same chunk-to-process map and the same sizes. The sends of `A` to `B` and the
receives of `B` from `A` are the same sequence of (buffer, count, tag). For every pair
with payload whose source chunk is on `A` and whose destination chunk is on `B` there is
one tag such that `A` posts the send for that buffer with it and `B` the receive, and
neither process posts another request for that buffer. The tags of the successive sends
of a process to one destination process are strictly increasing. -/
theorem exchange_tags_agree (stA stB : fields) (ft : field_type) (A B : Nat) (hAB : A ≠ B)
    (hN : stA.num_chunks = stB.num_chunks) (hsz : stA.comm_sizes = stB.comm_sizes)
    (hproc : ∀ j, j < stA.num_chunks → (stA.chunks j).n_proc = (stB.chunks j).n_proc)
    (hA : ∀ j, j < stA.num_chunks →
      (stA.chunks j).is_mine = decide ((stA.chunks j).n_proc = A))
    (hB : ∀ j, j < stA.num_chunks →
      (stB.chunks j).is_mine = decide ((stB.chunks j).n_proc = B)) :
    (((exchange_requests stA ft).filter (fun r => r.is_send && r.peer == B)).map
        (fun r => (r.pair, r.count, r.tag)) =
      ((exchange_requests stB ft).filter (fun r => !r.is_send && r.peer == A)).map
        (fun r => (r.pair, r.count, r.tag))) ∧
    (∀ j i, j < stA.num_chunks → i < stA.num_chunks →
      0 < stA.comm_size_tot ft (j + i * stA.num_chunks) →
      (stA.chunks j).n_proc = A → (stA.chunks i).n_proc = B →
      ∃ tag,
        Request.mk true (j + i * stA.num_chunks)
          (stA.comm_size_tot ft (j + i * stA.num_chunks)) B tag ∈ exchange_requests stA ft ∧
        Request.mk false (j + i * stA.num_chunks)
          (stA.comm_size_tot ft (j + i * stA.num_chunks)) A tag ∈ exchange_requests stB ft ∧
        (∀ r, r ∈ exchange_requests stA ft → r.pair = j + i * stA.num_chunks →
          r.is_send = true ∧ r.peer = B ∧ r.tag = tag) ∧
        (∀ r, r ∈ exchange_requests stB ft → r.pair = j + i * stA.num_chunks →
          r.is_send = false ∧ r.peer = A ∧ r.tag = tag)) ∧
    (∀ q, (((exchange_requests stA ft).filter (fun r => r.is_send && r.peer == q)).map
        (fun r => r.tag)).Pairwise (fun a b => a < b)) := by
  have hlist : (((exchange_requests stA ft).filter (fun r => r.is_send && r.peer == B)).map
        (fun r => (r.pair, r.count, r.tag)) =
      ((exchange_requests stB ft).filter (fun r => !r.is_send && r.peer == A)).map
        (fun r => (r.pair, r.count, r.tag))) := by
    rw [exchange_requests_eq, exchange_requests_eq, ← hN]
    exact (exchange_loop_agree stA stB ft A B hAB hN hsz hproc hA hB _
      (fun x hx => (exchange_order_bound _ x hx).2) _ _ rfl).1
  refine ⟨hlist, ?_, ?_⟩
  · intro j i hj hi hs hpj hpi
    have hmj : (stA.chunks j).is_mine = true := by rw [hA j hj, hpj]; simp
    have hmi : (stA.chunks i).is_mine = false := by
      rw [hA i hi, hpi]; simp [Ne.symm hAB]
    obtain ⟨r, hr, h1, h2, h3, h4⟩ := exchange_requests_send stA ft j i hj hi hs hmj hmi
    rw [hpi] at h4
    have hrA : r = Request.mk true (j + i * stA.num_chunks)
        (stA.comm_size_tot ft (j + i * stA.num_chunks)) B r.tag := by
      obtain ⟨s1, s2, s3, s4, s5⟩ := r
      dsimp only at h1 h2 h3 h4 ⊢
      rw [h1, h2, h3, h4]
    have hin : (r.pair, r.count, r.tag) ∈
        ((exchange_requests stA ft).filter (fun r => r.is_send && r.peer == B)).map
          (fun r => (r.pair, r.count, r.tag)) := by
      refine List.mem_map.2 ⟨r, List.mem_filter.2 ⟨hr, ?_⟩, rfl⟩
      simp [h1, h4]
    rw [hlist] at hin
    obtain ⟨r2, hr2, hk⟩ := List.mem_map.1 hin
    obtain ⟨hr2m, hr2f⟩ := List.mem_filter.1 hr2
    simp only [Bool.and_eq_true, Bool.not_eq_true', beq_iff_eq] at hr2f
    simp only [Prod.mk.injEq] at hk
    have hrB : r2 = Request.mk false (j + i * stA.num_chunks)
        (stA.comm_size_tot ft (j + i * stA.num_chunks)) A r.tag := by
      obtain ⟨s1, s2, s3, s4, s5⟩ := r2
      dsimp only at hr2f hk ⊢
      rw [hr2f.1, hr2f.2, hk.1, hk.2.1, hk.2.2, h2, h3]
    refine ⟨r.tag, hrA ▸ hr, hrB ▸ hr2m, ?_, ?_⟩
    · intro r3 hr3 hp
      have := List.inj_on_of_nodup_map (exchange_requests_pairs_nodup stA ft) hr3 hr
        (by rw [hp, h2])
      rw [this]
      exact ⟨h1, h4, rfl⟩
    · intro r3 hr3 hp
      have := List.inj_on_of_nodup_map (exchange_requests_pairs_nodup stB ft) hr3 hr2m
        (by rw [hp, hk.1, h2])
      rw [this]
      exact ⟨hr2f.1, hr2f.2, hk.2.2⟩
  · intro q
    rw [exchange_requests_eq]
    exact (exchange_loop_send_tags stA ft q _ _).2.2

theorem pack_apply_eq (ft : field_type) (st : fields) (op : PackOp) :
    pack_apply ft st op =
      (pack_source ft st op).map
        (fun p => st.set_block ft op.pair op.off ((st.chunks op.j).f p)) := by
  unfold pack_apply pack_source
  cases ((st.chunks op.j).connections ft op.ip in_or_out.Outgoing)[op.wh]? <;> rfl

theorem pack_apply_chunks (ft : field_type) (st st2 : fields) (op : PackOp)
    (h : pack_apply ft st op = some st2) :
    st2.chunks = st.chunks ∧ st2.num_chunks = st.num_chunks ∧ st2.comm_sizes = st.comm_sizes := by
  rw [pack_apply_eq] at h
  cases hp : pack_source ft st op with
  | none => rw [hp] at h; simp at h
  | some p =>
    rw [hp] at h
    simp only [Option.map_some', Option.some.injEq] at h
    rw [← h]
    exact ⟨rfl, rfl, rfl⟩

theorem pack_fold_chunks (ft : field_type) (ops : List PackOp) (st st2 : fields)
    (h : ops.foldlM (pack_apply ft) st = some st2) :
    st2.chunks = st.chunks ∧ st2.num_chunks = st.num_chunks ∧ st2.comm_sizes = st.comm_sizes :=
  ⟨foldlM_keeps _ (fun s => s.chunks) (fun b a b2 hb => (pack_apply_chunks ft b b2 a hb).1) _ _ _ h,
   foldlM_keeps _ (fun s => s.num_chunks)
    (fun b a b2 hb => (pack_apply_chunks ft b b2 a hb).2.1) _ _ _ h,
   foldlM_keeps _ (fun s => s.comm_sizes)
    (fun b a b2 hb => (pack_apply_chunks ft b b2 a hb).2.2) _ _ _ h⟩

theorem pack_source_congr (ft : field_type) (st st2 : fields) (op : PackOp)
    (h : st2.chunks = st.chunks) : pack_source ft st2 op = pack_source ft st op := by
  unfold pack_source; rw [h]

/-- The pack pass runs to its end when every statement finds its connection. -/
theorem pack_fold_some (ft : field_type) :
    ∀ (ops : List PackOp) (st : fields),
      (∀ op, op ∈ ops → (pack_source ft st op).isSome = true) →
      ∃ st2, ops.foldlM (pack_apply ft) st = some st2 := by
  intro ops
  induction ops with
  | nil => intro st _; exact ⟨st, rfl⟩
  | cons a ops ih =>
    intro st h
    obtain ⟨p, hp⟩ := Option.isSome_iff_exists.1 (h a (by simp))
    have ha : pack_apply ft st a = some (st.set_block ft a.pair a.off ((st.chunks a.j).f p)) := by
      rw [pack_apply_eq, hp]; rfl
    rw [List.foldlM_cons, ha]
    apply ih
    intro op hop
    exact h op (by simp [hop])

/-- A buffer entry that holds `v` keeps it when every later statement for this entry
writes `v` again. -/
theorem pack_fold_stable (ft : field_type) (pair off : Nat) (v : ℚ) :
    ∀ (ops : List PackOp) (st st2 : fields), ops.foldlM (pack_apply ft) st = some st2 →
      st.comm_blocks ft pair off = v →
      (∀ op, op ∈ ops → op.pair = pair → op.off = off →
        ∀ p, pack_source ft st op = some p → (st.chunks op.j).f p = v) →
      st2.comm_blocks ft pair off = v := by
  intro ops
  induction ops with
  | nil =>
    intro st st2 h hv _
    simp at h; rw [← h]; exact hv
  | cons a ops ih =>
    intro st st2 h hv hc
    rw [List.foldlM_cons] at h
    cases hp : pack_source ft st a with
    | none => rw [pack_apply_eq, hp] at h; simp at h
    | some p =>
      rw [pack_apply_eq, hp] at h
      simp only [Option.map_some', Option.some_bind] at h
      refine ih (st.set_block ft a.pair a.off ((st.chunks a.j).f p)) st2 h ?_ ?_
      · show (if ft = ft ∧ pair = a.pair ∧ off = a.off then (st.chunks a.j).f p
          else st.comm_blocks ft pair off) = v
        by_cases hk : a.pair = pair ∧ a.off = off
        · rw [if_pos ⟨rfl, hk.1.symm, hk.2.symm⟩]
          exact hc a (by simp) hk.1 hk.2 p hp
        · rw [if_neg (fun h3 => hk ⟨h3.2.1.symm, h3.2.2.symm⟩)]
          exact hv
      · intro op hop h1 h2 q hq
        exact hc op (by simp [hop]) h1 h2 q hq

/-- After the pack pass a buffer entry holds what its statement read, provided all
statements for that entry read the same value. -/
theorem pack_fold_value (ft : field_type) :
    ∀ (ops : List PackOp) (st st2 : fields) (op : PackOp) (p : Slot),
      ops.foldlM (pack_apply ft) st = some st2 → op ∈ ops → pack_source ft st op = some p →
      (∀ op2, op2 ∈ ops → op2.pair = op.pair → op2.off = op.off →
        ∀ p2, pack_source ft st op2 = some p2 → (st.chunks op2.j).f p2 = (st.chunks op.j).f p) →
      st2.comm_blocks ft op.pair op.off = (st.chunks op.j).f p := by
  intro ops
  induction ops with
  | nil => intro st st2 op p _ hop; simp at hop
  | cons a ops ih =>
    intro st st2 op p h hop hp hc
    rw [List.foldlM_cons] at h
    cases hpa : pack_source ft st a with
    | none => rw [pack_apply_eq, hpa] at h; simp at h
    | some pa =>
      rw [pack_apply_eq, hpa] at h
      simp only [Option.map_some', Option.some_bind] at h
      rcases List.mem_cons.1 hop with rfl | hop2
      · refine pack_fold_stable ft _ _ _ ops
          (st.set_block ft op.pair op.off ((st.chunks op.j).f pa)) st2 h ?_ ?_
        · rw [hp] at hpa
          simp only [Option.some.injEq] at hpa
          show (if ft = ft ∧ op.pair = op.pair ∧ op.off = op.off then (st.chunks op.j).f pa
            else st.comm_blocks ft op.pair op.off) = (st.chunks op.j).f p
          rw [if_pos ⟨rfl, rfl, rfl⟩, hpa]
        · intro op2 hop2 h1 h2 q hq
          exact hc op2 (by simp [hop2]) h1 h2 q hq
      · exact ih (st.set_block ft a.pair a.off ((st.chunks a.j).f pa)) st2 op p h hop2 hp
          (fun op2 hop3 h1 h2 q hq => hc op2 (by simp [hop3]) h1 h2 q hq)

theorem same_tables_refl (st : fields) : same_tables st st :=
  ⟨rfl, rfl, rfl, fun _ => ⟨rfl, rfl, rfl⟩⟩

theorem same_tables_trans (a b c : fields) (h1 : same_tables a b) (h2 : same_tables b c) :
    same_tables a c :=
  ⟨h2.1.trans h1.1, h2.2.1.trans h1.2.1, h2.2.2.1.trans h1.2.2.1, fun i =>
    ⟨(h2.2.2.2 i).1.trans (h1.2.2.2 i).1, (h2.2.2.2 i).2.1.trans (h1.2.2.2 i).2.1,
      (h2.2.2.2 i).2.2.trans (h1.2.2.2 i).2.2⟩⟩

theorem same_tables_store (st : fields) (i : Nat) (p : Slot) (v : ℚ) :
    same_tables st (st.store i p v) := by
  refine ⟨rfl, rfl, rfl, fun i2 => ?_⟩
  unfold fields.store
  by_cases h : i2 = i
  · subst h; simp
  · simp [h]

theorem same_tables_stores (i : Nat) :
    ∀ (ws : List (Slot × ℚ)) (st : fields),
      same_tables st (ws.foldl (fun acc w => acc.store i w.1 w.2) st) := by
  intro ws
  induction ws with
  | nil => intro st; exact same_tables_refl st
  | cons w ws ih =>
    intro st
    exact same_tables_trans _ _ _ (same_tables_store st i w.1 w.2) (ih _)

theorem unpack_writes_tables (ft : field_type) (st st2 : fields) (op : UnpackOp)
    (h : same_tables st st2) : unpack_writes ft st2 op = unpack_writes ft st op := by
  unfold unpack_writes fields.comm_size_tot
  simp only [h.1, h.2.2.1, (h.2.2.2 op.i).1, (h.2.2.2 op.i).2.1]

theorem unpack_apply_tables (ft : field_type) (st st2 : fields) (op : UnpackOp)
    (h : unpack_apply ft st op = some st2) : same_tables st st2 := by
  unfold unpack_apply at h
  cases hw : unpack_writes ft st op with
  | none => rw [hw] at h; simp at h
  | some ws =>
    rw [hw] at h
    simp only [Option.map_some', Option.some.injEq] at h
    rw [← h]
    exact same_tables_stores op.i ws st

theorem unpack_fold_tables (ft : field_type) :
    ∀ (ops : List UnpackOp) (st st2 : fields), ops.foldlM (unpack_apply ft) st = some st2 →
      same_tables st st2 := by
  intro ops
  induction ops with
  | nil => intro st st2 h; simp at h; rw [← h]; exact same_tables_refl st
  | cons a ops ih =>
    intro st st2 h
    rw [List.foldlM_cons] at h
    cases ha : unpack_apply ft st a with
    | none => rw [ha] at h; simp at h
    | some st1 =>
      rw [ha] at h
      exact same_tables_trans _ _ _ (unpack_apply_tables ft st st1 a ha) (ih st1 st2 h)

/-- The unpack pass runs to its end when every statement finds its connections and its
phase factor. -/
theorem unpack_fold_some (ft : field_type) :
    ∀ (ops : List UnpackOp) (st : fields),
      (∀ op, op ∈ ops → (unpack_writes ft st op).isSome = true) →
      ∃ st2, ops.foldlM (unpack_apply ft) st = some st2 := by
  intro ops
  induction ops with
  | nil => intro st _; exact ⟨st, rfl⟩
  | cons a ops ih =>
    intro st h
    obtain ⟨ws, hws⟩ := Option.isSome_iff_exists.1 (h a (by simp))
    have ha : unpack_apply ft st a =
        some (ws.foldl (fun acc w => acc.store a.i w.1 w.2) st) := by
      unfold unpack_apply; rw [hws]; rfl
    rw [List.foldlM_cons, ha]
    apply ih
    intro op hop
    rw [unpack_writes_tables ft st _ op (same_tables_stores a.i ws st)]
    exact h op (by simp [hop])

theorem store_f (st : fields) (i i2 : Nat) (p p2 : Slot) (v : ℚ) :
    ((st.store i p v).chunks i2).f p2 = if i2 = i ∧ p2 = p then v else (st.chunks i2).f p2 := by
  unfold fields.store
  by_cases hi : i2 = i
  · subst hi
    by_cases hp : p2 = p
    · simp [hp]
    · simp [hp]
  · simp [hi]

theorem stores_stable (i i2 : Nat) (q : Slot) (v : ℚ) :
    ∀ (ws : List (Slot × ℚ)) (st : fields), (st.chunks i2).f q = v →
      (∀ w, w ∈ ws → i = i2 → w.1 = q → w.2 = v) →
      ((ws.foldl (fun acc w => acc.store i w.1 w.2) st).chunks i2).f q = v := by
  intro ws
  induction ws with
  | nil => intro st h _; exact h
  | cons w ws ih =>
    intro st h hc
    rw [List.foldl_cons]
    refine ih _ ?_ (fun w2 hw2 => hc w2 (by simp [hw2]))
    rw [store_f]
    by_cases hk : i2 = i ∧ q = w.1
    · rw [if_pos hk]; exact hc w (by simp) hk.1.symm hk.2.symm
    · rw [if_neg hk]; exact h

theorem stores_value (i : Nat) :
    ∀ (ws : List (Slot × ℚ)) (st : fields) (w : Slot × ℚ), w ∈ ws →
      (∀ w2, w2 ∈ ws → w2.1 = w.1 → w2.2 = w.2) →
      ((ws.foldl (fun acc w => acc.store i w.1 w.2) st).chunks i).f w.1 = w.2 := by
  intro ws
  induction ws with
  | nil => intro st w hw; simp at hw
  | cons a ws ih =>
    intro st w hw hc
    rw [List.foldl_cons]
    rcases List.mem_cons.1 hw with rfl | hw2
    · refine stores_stable i i w.1 w.2 ws _ ?_ (fun w2 hw2 _ => hc w2 (by simp [hw2]))
      rw [store_f, if_pos ⟨rfl, rfl⟩]
    · exact ih _ w hw2 (fun w2 hw3 => hc w2 (by simp [hw3]))

/-- A slot that holds `v` keeps it when every later store into it stores `v` again. -/
theorem unpack_fold_stable (ft : field_type) (i : Nat) (q : Slot) (v : ℚ) :
    ∀ (ops : List UnpackOp) (st st2 : fields), ops.foldlM (unpack_apply ft) st = some st2 →
      (st.chunks i).f q = v →
      (∀ op, op ∈ ops → op.i = i → ∀ ws, unpack_writes ft st op = some ws →
        ∀ w, w ∈ ws → w.1 = q → w.2 = v) →
      (st2.chunks i).f q = v := by
  intro ops
  induction ops with
  | nil => intro st st2 h hv _; simp at h; rw [← h]; exact hv
  | cons a ops ih =>
    intro st st2 h hv hc
    rw [List.foldlM_cons] at h
    cases hw : unpack_writes ft st a with
    | none => unfold unpack_apply at h; rw [hw] at h; simp at h
    | some ws =>
      have ha : unpack_apply ft st a =
          some (ws.foldl (fun acc w => acc.store a.i w.1 w.2) st) := by
        unfold unpack_apply; rw [hw]; rfl
      rw [ha] at h
      refine ih (ws.foldl (fun (acc : fields) (w : Slot × ℚ) => acc.store a.i w.1 w.2) st) st2 h ?_ ?_
      · exact stores_stable a.i i q v ws st hv
          (fun w hw2 hi hq => hc a (by simp) hi ws hw w hw2 hq)
      · intro op hop hi ws2 hws2 w hw2 hq
        rw [unpack_writes_tables ft st _ op (same_tables_stores a.i ws st)] at hws2
        exact hc op (by simp [hop]) hi ws2 hws2 w hw2 hq

/-- After the unpack pass a slot holds what a statement stored into it, provided all
stores into that slot store the same value. -/
theorem unpack_fold_value (ft : field_type) :
    ∀ (ops : List UnpackOp) (st st2 : fields) (op : UnpackOp) (ws : List (Slot × ℚ))
      (w : Slot × ℚ),
      ops.foldlM (unpack_apply ft) st = some st2 → op ∈ ops →
      unpack_writes ft st op = some ws → w ∈ ws →
      (∀ op2, op2 ∈ ops → op2.i = op.i → ∀ ws2, unpack_writes ft st op2 = some ws2 →
        ∀ w2, w2 ∈ ws2 → w2.1 = w.1 → w2.2 = w.2) →
      (st2.chunks op.i).f w.1 = w.2 := by
  intro ops
  induction ops with
  | nil => intro st st2 op ws w _ hop; simp at hop
  | cons a ops ih =>
    intro st st2 op ws w h hop hws hw hc
    rw [List.foldlM_cons] at h
    cases hwa : unpack_writes ft st a with
    | none => unfold unpack_apply at h; rw [hwa] at h; simp at h
    | some wsa =>
      have ha : unpack_apply ft st a =
          some (wsa.foldl (fun acc w => acc.store a.i w.1 w.2) st) := by
        unfold unpack_apply; rw [hwa]; rfl
      rw [ha] at h
      have ht := same_tables_stores a.i wsa st
      rcases List.mem_cons.1 hop with rfl | hop2
      · rw [hws] at hwa
        simp only [Option.some.injEq] at hwa
        subst hwa
        refine unpack_fold_stable ft op.i w.1 w.2 ops _ st2 h ?_ ?_
        · exact stores_value op.i ws st w hw
            (fun w2 hw2 hq => hc op (by simp) rfl ws hws w2 hw2 hq)
        · intro op2 hop2 hi ws2 hws2 w2 hw2 hq
          rw [unpack_writes_tables ft st _ op2 ht] at hws2
          exact hc op2 (by simp [hop2]) hi ws2 hws2 w2 hw2 hq
      · refine ih (wsa.foldl (fun (acc : fields) (w : Slot × ℚ) => acc.store a.i w.1 w.2) st)
          st2 op ws w h hop2 ?_ hw ?_
        · rw [unpack_writes_tables ft st _ op ht]; exact hws
        · intro op2 hop3 hi ws2 hws2 w2 hw2 hq
          rw [unpack_writes_tables ft st _ op2 ht] at hws2
          exact hc op2 (by simp [hop3]) hi ws2 hws2 w2 hw2 hq

theorem sum_below_mono (f : Nat → Nat) (a b : Nat) (h : a ≤ b) :
    sum_below f a ≤ sum_below f b := by
  induction b with
  | zero => have : a = 0 := by omega
            subst this; exact le_refl _
  | succ b ih =>
    by_cases hab : a = b + 1
    · subst hab; exact le_refl _
    · have := ih (by omega)
      simp only [sum_below]; omega

theorem sum_below_block (f : Nat → Nat) (a b : Nat) (h : a < b) :
    sum_below f a + f a ≤ sum_below f b :=
  sum_below_mono f (a + 1) b h

/-- A position in a list that is cut into consecutive blocks of sizes `f 0, f 1, ...`
lies in one block only. -/
theorem sum_below_position (f : Nat → Nat) (a b n m : Nat) (hn : n < f a) (hm : m < f b)
    (h : sum_below f a + n = sum_below f b + m) : a = b ∧ n = m := by
  rcases Nat.lt_trichotomy a b with hab | hab | hab
  · have := sum_below_block f a b hab; omega
  · subst hab; exact ⟨rfl, by omega⟩
  · have := sum_below_block f b a hab; omega

theorem pair_decode (N j i j2 i2 : Nat) (hj : j < N) (hj2 : j2 < N)
    (h : j + i * N = j2 + i2 * N) : j = j2 ∧ i = i2 := by
  have hN : 0 < N := by omega
  have hm := congrArg (fun v => v % N) h
  simp only [Nat.add_mul_mod_self_right, Nat.mod_eq_of_lt hj, Nat.mod_eq_of_lt hj2] at hm
  have hd := congrArg (fun v => v / N) h
  simp only [Nat.add_mul_div_right _ _ hN, Nat.div_eq_of_lt hj, Nat.div_eq_of_lt hj2,
    Nat.zero_add] at hd
  exact ⟨hm, hd⟩

theorem mem_unpack_ops (st : fields) (ft : field_type) (op : UnpackOp) :
    op ∈ unpack_ops st ft ↔ ∃ i j, i < st.num_chunks ∧ (st.chunks i).is_mine = true ∧
      j < st.num_chunks ∧ op ∈ unpack_pair_ops st ft i j := by
  rw [unpack_ops_eq]
  simp only [List.mem_flatMap, List.mem_range]
  constructor
  · rintro ⟨i, hi, h⟩
    split at h
    · rename_i hm
      simp only [List.mem_flatMap, List.mem_range] at h
      obtain ⟨j, hj, h⟩ := h
      exact ⟨i, j, hi, hm, hj, h⟩
    · simp at h
  · rintro ⟨i, j, hi, hm, hj, h⟩
    refine ⟨i, hi, ?_⟩
    rw [if_pos hm]
    simp only [List.mem_flatMap, List.mem_range]
    exact ⟨j, hj, h⟩

theorem mem_unpack_pair_ops (st : fields) (ft : field_type) (i j : Nat) (op : UnpackOp) :
    op ∈ unpack_pair_ops st ft i j ↔
      (∃ m, m < (st.comm_sizes ft CONNECT_PHASE (j + i * st.num_chunks) + 1) / 2 ∧
        op = UnpackOp.mk i (j + i * st.num_chunks) CONNECT_PHASE (2 * m)
          (unpack_base st ft i CONNECT_PHASE j + 2 * m)) ∨
      (∃ n, n < st.comm_sizes ft CONNECT_NEGATE (j + i * st.num_chunks) ∧
        op = UnpackOp.mk i (j + i * st.num_chunks) CONNECT_NEGATE
          (region_offset st ft (j + i * st.num_chunks) CONNECT_NEGATE + n)
          (unpack_base st ft i CONNECT_NEGATE j + n)) ∨
      (∃ n, n < st.comm_sizes ft CONNECT_COPY (j + i * st.num_chunks) ∧
        op = UnpackOp.mk i (j + i * st.num_chunks) CONNECT_COPY
          (region_offset st ft (j + i * st.num_chunks) CONNECT_COPY + n)
          (unpack_base st ft i CONNECT_COPY j + n)) := by
  unfold unpack_pair_ops
  simp only [List.mem_append, List.mem_map, List.mem_range, or_assoc]
  constructor
  · rintro (⟨m, hm, rfl⟩ | ⟨n, hn, rfl⟩ | ⟨n, hn, rfl⟩)
    · exact Or.inl ⟨m, hm, rfl⟩
    · exact Or.inr (Or.inl ⟨n, hn, rfl⟩)
    · exact Or.inr (Or.inr ⟨n, hn, rfl⟩)
  · rintro (⟨m, hm, rfl⟩ | ⟨n, hn, rfl⟩ | ⟨n, hn, rfl⟩)
    · exact Or.inl ⟨m, hm, rfl⟩
    · exact Or.inr (Or.inl ⟨n, hn, rfl⟩)
    · exact Or.inr (Or.inr ⟨n, hn, rfl⟩)

theorem for_loop_silent {σ ι ω : Type} (body : ι → σ → List ω × σ) :
    ∀ (L : List ι), (∀ x, x ∈ L → ∀ s, (body x s).1 = []) →
      ∀ s, (for_loop body L s).1 = [] := by
  intro L
  induction L with
  | nil => intro _ s; rfl
  | cons x L ih =>
    intro h s
    rw [for_loop_cons]
    simp only
    rw [h x (by simp) s, ih (fun y hy => h y (by simp [hy]))]
    rfl

/-- With every chunk local the exchange loops post no request. -/
theorem exchange_requests_single_process (st : fields) (ft : field_type)
    (hmine : ∀ i, i < st.num_chunks → (st.chunks i).is_mine = true) :
    exchange_requests st ft = [] := by
  rw [exchange_requests_eq]
  apply for_loop_silent
  intro x hx t
  obtain ⟨_, hj⟩ := exchange_order_bound _ x hx
  have hi : (x.1 + x.2) % st.num_chunks < st.num_chunks := Nat.mod_lt _ (by omega)
  rw [exchange_body_cases]
  simp [hmine _ hj, hmine _ hi]

theorem exchange_single_process (E : Externals) (st : fields) (ft : field_type)
    (hmine : ∀ i, i < st.num_chunks → (st.chunks i).is_mine = true) :
    st.exchange E ft = some st := by
  unfold fields.exchange
  simp [exchange_requests_single_process st ft hmine]

theorem nodup_getElem?_inj {α : Type} (l : List α) (h : l.Nodup) (a b : Nat) (x : α)
    (ha : l[a]? = some x) (hb : l[b]? = some x) : a = b := by
  obtain ⟨ha1, ha2⟩ := List.getElem?_eq_some_iff.1 ha
  obtain ⟨hb1, hb2⟩ := List.getElem?_eq_some_iff.1 hb
  exact (List.Nodup.getElem_inj_iff h).1 (ha2.trans hb2.symm)

theorem mem_of_getElem?_eq {α : Type} (l : List α) (a : Nat) (x : α) (ha : l[a]? = some x) :
    x ∈ l := by
  obtain ⟨ha1, ha2⟩ := List.getElem?_eq_some_iff.1 ha
  exact ha2 ▸ List.getElem_mem ha1

theorem sum_below_congr (f g : Nat → Nat) (N : Nat) (h : ∀ j, j < N → f j = g j) :
    sum_below f N = sum_below g N := by
  induction N with
  | zero => rfl
  | succ N ih =>
    simp only [sum_below]
    rw [ih (fun j hj => h j (by omega)), h N (by omega)]

theorem unpack_base_plain (st : fields) (ft : field_type) (i ip J : Nat)
    (h : ip ≠ CONNECT_PHASE) :
    unpack_base st ft i ip J =
      sum_below (fun j => st.comm_sizes ft ip (j + i * st.num_chunks)) J := by
  unfold unpack_base
  simp only [h, if_false]

theorem unpack_base_even (st : fields) (ft : field_type) (i J : Nat)
    (h : ∀ j, j < J → st.comm_sizes ft CONNECT_PHASE (j + i * st.num_chunks) % 2 = 0) :
    unpack_base st ft i CONNECT_PHASE J =
      sum_below (fun j => st.comm_sizes ft CONNECT_PHASE (j + i * st.num_chunks)) J := by
  unfold unpack_base
  simp only [if_true]
  apply sum_below_congr
  intro j hj
  have := h j hj
  unfold phase_consumed
  omega

theorem unpack_ops_congr (st st2 : fields) (ft : field_type)
    (h1 : st2.num_chunks = st.num_chunks) (h2 : st2.comm_sizes = st.comm_sizes)
    (h3 : st2.chunks = st.chunks) : unpack_ops st2 ft = unpack_ops st ft := by
  rw [unpack_ops_eq, unpack_ops_eq]
  unfold unpack_pair_ops unpack_base region_offset
  simp only [h1, h2, h3]

theorem getElem?_of_lt {α : Type} (l : List α) (a : Nat) (h : a < l.length) :
    ∃ x, l[a]? = some x := ⟨l[a], List.getElem?_eq_getElem h⟩

/-- Three lists that together have no repeated entry share no entry. -/
theorem nodup_three {α : Type} (L : Nat → List α) (h : (L 0 ++ L 1 ++ L 2).Nodup)
    (a b : Nat) (ha : a < 3) (hb : b < 3) (x : α) (hxa : x ∈ L a) (hxb : x ∈ L b) : a = b := by
  rw [List.nodup_append, List.nodup_append] at h
  obtain ⟨⟨_, _, d01⟩, _, d2⟩ := h
  have e01 : x ∈ L 0 → x ∈ L 1 → False := fun p q => d01 p q
  have e02 : x ∈ L 0 → x ∈ L 2 → False := fun p q => d2 (List.mem_append_left _ p) q
  have e12 : x ∈ L 1 → x ∈ L 2 → False := fun p q => d2 (List.mem_append_right _ p) q
  interval_cases a <;> interval_cases b <;>
    first
    | rfl
    | exact (e01 hxa hxb).elim
    | exact (e01 hxb hxa).elim
    | exact (e02 hxa hxb).elim
    | exact (e02 hxb hxa).elim
    | exact (e12 hxa hxb).elim
    | exact (e12 hxb hxa).elim

theorem nodup_three_each {α : Type} (L : Nat → List α) (h : (L 0 ++ L 1 ++ L 2).Nodup)
    (a : Nat) (ha : a < 3) : (L a).Nodup := by
  rw [List.nodup_append, List.nodup_append] at h
  obtain ⟨⟨n0, n1, _⟩, n2, _⟩ := h
  interval_cases a
  · exact n0
  · exact n1
  · exact n2

/-- What an unpack statement stores, by kind. -/
theorem unpack_writes_mem (ft : field_type) (st : fields) (op : UnpackOp)
    (ws : List (Slot × ℚ)) (w : Slot × ℚ) (h : unpack_writes ft st op = some ws) (hw : w ∈ ws) :
    (((st.chunks op.i).connections ft op.ip in_or_out.Incoming)[op.wh]? = some w.1 ∨
      (op.ip = CONNECT_PHASE ∧
        ((st.chunks op.i).connections ft op.ip in_or_out.Incoming)[op.wh + 1]? = some w.1)) ∧
    (op.ip = CONNECT_NEGATE → w.2 = -st.comm_blocks ft op.pair op.off) ∧
    (op.ip ≠ CONNECT_PHASE → op.ip ≠ CONNECT_NEGATE → w.2 = st.comm_blocks ft op.pair op.off) := by
  unfold unpack_writes at h
  by_cases h0 : op.ip = CONNECT_PHASE
  · simp only [h0, if_true] at h
    have hne : ¬ CONNECT_PHASE = CONNECT_NEGATE := by decide
    split at h
    · rename_i ph p0 p1 _ e0 e1
      split at h
      · simp only [Option.some.injEq] at h
        subst h
        simp only [List.mem_cons, List.mem_singleton, List.not_mem_nil, or_false] at hw
        rw [h0]
        rcases hw with rfl | rfl
        · exact ⟨Or.inl e0, fun e => (hne e).elim, fun e => (e rfl).elim⟩
        · exact ⟨Or.inr ⟨rfl, e1⟩, fun e => (hne e).elim, fun e => (e rfl).elim⟩
      · simp at h
    · simp at h
  · simp only [h0, if_false] at h
    by_cases h1 : op.ip = CONNECT_NEGATE
    · simp only [h1, if_true] at h
      split at h
      · simp only [Option.some.injEq] at h
        subst h
        rename_i p e0
        simp only [List.mem_singleton] at hw
        subst hw
        rw [h1]
        exact ⟨Or.inl e0, fun _ => rfl, fun _ e => (e rfl).elim⟩
      · simp at h
    · simp only [h1, if_false] at h
      split at h
      · simp only [Option.some.injEq] at h
        subst h
        rename_i p e0
        simp only [List.mem_singleton] at hw
        subst hw
        exact ⟨Or.inl e0, fun e => (h1 e).elim, fun _ _ => rfl⟩
      · simp at h

theorem unpack_writes_plain (ft : field_type) (st : fields) (op : UnpackOp) (p : Slot)
    (h0 : op.ip ≠ CONNECT_PHASE)
    (hp : ((st.chunks op.i).connections ft op.ip in_or_out.Incoming)[op.wh]? = some p) :
    unpack_writes ft st op =
      some [(p, if op.ip = CONNECT_NEGATE then -st.comm_blocks ft op.pair op.off
        else st.comm_blocks ft op.pair op.off)] := by
  unfold unpack_writes
  simp only [h0, if_false, hp]
  split <;> rfl

theorem kind_lt_three (k : Nat) (hk : k = CONNECT_NEGATE ∨ k = CONNECT_COPY) :
    k < 3 ∧ k ≠ CONNECT_PHASE := by
  rcases hk with rfl | rfl <;> constructor <;> decide

/-- An unpack statement of kind negate or copy, as the loops emit it. -/
theorem mem_unpack_ops_plain (st : fields) (ft : field_type) (i j k n : Nat)
    (hi : i < st.num_chunks) (hm : (st.chunks i).is_mine = true) (hj : j < st.num_chunks)
    (hk : k = CONNECT_NEGATE ∨ k = CONNECT_COPY)
    (hn : n < st.comm_sizes ft k (j + i * st.num_chunks)) :
    UnpackOp.mk i (j + i * st.num_chunks) k (region_offset st ft (j + i * st.num_chunks) k + n)
      (unpack_base st ft i k j + n) ∈ unpack_ops st ft := by
  refine (mem_unpack_ops st ft _).2 ⟨i, j, hi, hm, hj, (mem_unpack_pair_ops st ft i j _).2 ?_⟩
  rcases hk with rfl | rfl
  · exact Or.inr (Or.inl ⟨n, hn, rfl⟩)
  · exact Or.inr (Or.inr ⟨n, hn, rfl⟩)

/-- Every unpack statement is a phase-rotate iteration or a negate or copy statement. -/
theorem unpack_ops_shape (st : fields) (ft : field_type) (op : UnpackOp)
    (h : op ∈ unpack_ops st ft) :
    ∃ i j, i < st.num_chunks ∧ j < st.num_chunks ∧
      ((∃ m, m < (st.comm_sizes ft CONNECT_PHASE (j + i * st.num_chunks) + 1) / 2 ∧
        op = UnpackOp.mk i (j + i * st.num_chunks) CONNECT_PHASE (2 * m)
          (unpack_base st ft i CONNECT_PHASE j + 2 * m)) ∨
      (∃ k n, (k = CONNECT_NEGATE ∨ k = CONNECT_COPY) ∧
        n < st.comm_sizes ft k (j + i * st.num_chunks) ∧
        op = UnpackOp.mk i (j + i * st.num_chunks) k
          (region_offset st ft (j + i * st.num_chunks) k + n)
          (unpack_base st ft i k j + n))) := by
  obtain ⟨i, j, hi, _, hj, hmem⟩ := (mem_unpack_ops st ft op).1 h
  refine ⟨i, j, hi, hj, ?_⟩
  rcases (mem_unpack_pair_ops st ft i j op).1 hmem with ⟨m, hm, rfl⟩ | ⟨n, hn, rfl⟩ | ⟨n, hn, rfl⟩
  · exact Or.inl ⟨m, hm, rfl⟩
  · exact Or.inr ⟨CONNECT_NEGATE, n, Or.inl rfl, hn, rfl⟩
  · exact Or.inr ⟨CONNECT_COPY, n, Or.inr rfl, hn, rfl⟩

theorem pack_sources_found (st : fields) (ft : field_type) (h : tables_ok st ft)
    (op : PackOp) (hop : op ∈ pack_ops st ft) : (pack_source ft st op).isSome = true := by
  obtain ⟨j, i, ip, n, hj, _, hi, hip, hn, rfl⟩ := (mem_pack_ops st ft op).1 hop
  have hlen := h.1.2.1 j hj ip hip
  have hb := sum_below_block (fun i2 => st.comm_sizes ft ip (j + i2 * st.num_chunks)) i
    st.num_chunks hi
  simp only at hb
  obtain ⟨p, hp⟩ := getElem?_of_lt ((st.chunks j).connections ft ip in_or_out.Outgoing)
    (pack_base st ft j ip i + n) (by unfold pack_base; omega)
  unfold pack_source
  simp only [hp, Option.isSome_some]

theorem incoming_found (st : fields) (ft : field_type) (h : tables_ok st ft) (i j k n : Nat)
    (hi : i < st.num_chunks) (hj : j < st.num_chunks) (hk : k < 3)
    (hn : n < st.comm_sizes ft k (j + i * st.num_chunks)) :
    ∃ q, ((st.chunks i).connections ft k in_or_out.Incoming)[unpack_base st ft i k j + n]?
      = some q := by
  apply getElem?_of_lt
  have hlen := h.1.2.2.1 i hi k hk
  have hb := sum_below_block (fun j2 => st.comm_sizes ft k (j2 + i * st.num_chunks)) j
    st.num_chunks hj
  simp only at hb
  have hbase : unpack_base st ft i k j =
      sum_below (fun j2 => st.comm_sizes ft k (j2 + i * st.num_chunks)) j := by
    by_cases hp : k = CONNECT_PHASE
    · subst hp
      exact unpack_base_even st ft i j (fun j2 hj2 => h.2.1 i hi j2 (by omega))
    · exact unpack_base_plain st ft i k j hp
  rw [hbase]
  omega

theorem unpack_writes_found (st st3 : fields) (ft : field_type) (h : tables_ok st ft)
    (hc : st3.chunks = st.chunks) (hs : st3.comm_sizes = st.comm_sizes) (op : UnpackOp)
    (hop : op ∈ unpack_ops st ft) :
    (unpack_writes ft st3 op).isSome = true := by
  obtain ⟨i, j, hi, hj, hcase⟩ := unpack_ops_shape st ft op hop
  rcases hcase with ⟨m, hm, rfl⟩ | ⟨k, n, hk, hn, rfl⟩
  · have hev := h.2.1 i hi j hj
    obtain ⟨p0, hp0⟩ := incoming_found st ft h i j CONNECT_PHASE (2 * m) hi hj (by decide)
      (by omega)
    obtain ⟨p1, hp1⟩ := incoming_found st ft h i j CONNECT_PHASE (2 * m + 1) hi hj (by decide)
      (by omega)
    have hlt : unpack_base st ft i CONNECT_PHASE j + 2 * m <
        ((st.chunks i).connections ft CONNECT_PHASE in_or_out.Incoming).length :=
      (List.getElem?_eq_some_iff.1 hp0).1
    obtain ⟨ph, hph⟩ := getElem?_of_lt ((st.chunks i).connection_phases ft)
      ((unpack_base st ft i CONNECT_PHASE j + 2 * m) / 2)
      (by have := h.2.2 i hi; omega)
    rw [← Nat.add_assoc] at hp1
    have hb : 2 * m + 1 < st3.comm_size_tot ft (j + i * st.num_chunks) := by
      unfold fields.comm_size_tot
      rw [hs]
      omega
    unfold unpack_writes
    simp only [hc, if_true, hph, hp0, hp1, hb, Option.isSome_some]
  · obtain ⟨hk3, hkp⟩ := kind_lt_three k hk
    obtain ⟨q, hq⟩ := incoming_found st ft h i j k n hi hj hk3 hn
    rw [unpack_writes_plain ft st3 _ q hkp (by rw [hc]; exact hq)]
    rfl

theorem pack_value (st st3 : fields) (ft : field_type)
    (hst3 : (pack_ops st ft).foldlM (pack_apply ft) st = some st3)
    (j i k n : Nat) (hj : j < st.num_chunks) (hi : i < st.num_chunks) (hk : k < 3)
    (hm : (st.chunks j).is_mine = true)
    (hn : n < st.comm_sizes ft k (j + i * st.num_chunks)) (p : Slot)
    (hp : ((st.chunks j).connections ft k in_or_out.Outgoing)[pack_base st ft j k i + n]?
      = some p) :
    st3.comm_blocks ft (j + i * st.num_chunks)
      (region_offset st ft (j + i * st.num_chunks) k + n) = (st.chunks j).f p := by
  have hmem : PackOp.mk j (j + i * st.num_chunks) k
      (region_offset st ft (j + i * st.num_chunks) k + n) (pack_base st ft j k i + n)
      ∈ pack_ops st ft :=
    (mem_pack_ops st ft _).2 ⟨j, i, k, n, hj, hm, hi, hk, hn, rfl⟩
  refine pack_fold_value ft (pack_ops st ft) st st3 _ p hst3 hmem hp ?_
  intro op2 hop2 hpair hoff p2 hp2
  obtain ⟨j2, i2, ip2, n2, hj2, _, hi2, hip2, hn2, rfl⟩ := (mem_pack_ops st ft op2).1 hop2
  simp only at hpair hoff
  obtain ⟨rfl, rfl⟩ := pair_decode st.num_chunks j2 i2 j i hj2 hj hpair
  unfold region_offset at hoff
  obtain ⟨rfl, rfl⟩ := sum_below_position
    (fun k2 => st.comm_sizes ft k2 (j2 + i2 * st.num_chunks)) ip2 k n2 n hn2 hn hoff
  unfold pack_source at hp2
  simp only at hp2 ⊢
  rw [hp] at hp2
  simp only [Option.some.injEq] at hp2
  rw [hp2]

theorem unpack_value (st st3 st2 : fields) (ft : field_type) (h : tables_ok st ft)
    (hc : st3.chunks = st.chunks)
    (hst2 : (unpack_ops st ft).foldlM (unpack_apply ft) st3 = some st2)
    (j i k n : Nat) (hj : j < st.num_chunks) (hi : i < st.num_chunks)
    (hk : k = CONNECT_NEGATE ∨ k = CONNECT_COPY)
    (hn : n < st.comm_sizes ft k (j + i * st.num_chunks)) (q : Slot)
    (hq : ((st.chunks i).connections ft k in_or_out.Incoming)[unpack_base st ft i k j + n]?
      = some q) :
    (st2.chunks i).f q =
      if k = CONNECT_NEGATE then
        -st3.comm_blocks ft (j + i * st.num_chunks)
          (region_offset st ft (j + i * st.num_chunks) k + n)
      else st3.comm_blocks ft (j + i * st.num_chunks)
          (region_offset st ft (j + i * st.num_chunks) k + n) := by
  obtain ⟨hk3, hkp⟩ := kind_lt_three k hk
  have hmem := mem_unpack_ops_plain st ft i j k n hi (h.1.1 i hi) hj hk hn
  have hw := unpack_writes_plain ft st3
    (UnpackOp.mk i (j + i * st.num_chunks) k (region_offset st ft (j + i * st.num_chunks) k + n)
      (unpack_base st ft i k j + n)) q hkp (by rw [hc]; exact hq)
  refine unpack_fold_value ft (unpack_ops st ft) st3 st2 _ _ (q, _) hst2 hmem hw
    (List.mem_singleton.2 rfl) ?_
  intro op2 hop2 hi2 ws2 hws2 w2 hw2 hq2
  obtain ⟨hslot, hneg, hcopy⟩ := unpack_writes_mem ft st3 op2 ws2 w2 hws2 hw2
  rw [hc] at hslot
  simp only at hq2 hi2
  rw [hq2] at hslot
  obtain ⟨i3, j3, hi3, hj3, hcase⟩ := unpack_ops_shape st ft op2 hop2
  have hqmem : q ∈ (st.chunks i).connections ft k in_or_out.Incoming :=
    mem_of_getElem?_eq _ _ _ hq
  rcases hcase with ⟨m, hm, rfl⟩ | ⟨k2, n2, hk2, hn2, rfl⟩
  · simp only at hi2 hslot
    subst hi2
    have hq2mem : q ∈ (st.chunks i3).connections ft CONNECT_PHASE in_or_out.Incoming := by
      rcases hslot with e | ⟨_, e⟩
      · exact mem_of_getElem?_eq _ _ _ e
      · exact mem_of_getElem?_eq _ _ _ e
    exact (hkp (nodup_three (fun a => (st.chunks i3).connections ft a in_or_out.Incoming)
      (h.1.2.2.2 i3 hi3) k CONNECT_PHASE hk3 (by decide) q hqmem hq2mem)).elim
  · obtain ⟨hk23, hk2p⟩ := kind_lt_three k2 hk2
    simp only at hi2 hslot hneg hcopy
    subst hi2
    have hslot2 : ((st.chunks i3).connections ft k2 in_or_out.Incoming)[
        unpack_base st ft i3 k2 j3 + n2]? = some q := by
      rcases hslot with e | ⟨e, _⟩
      · exact e
      · exact (hk2p e).elim
    have hkk : k2 = k :=
      nodup_three (fun a => (st.chunks i3).connections ft a in_or_out.Incoming)
        (h.1.2.2.2 i3 hi3) k2 k hk23 hk3 q (mem_of_getElem?_eq _ _ _ hslot2) hqmem
    subst hkk
    have hpos := nodup_getElem?_inj _
      (nodup_three_each (fun a => (st.chunks i3).connections ft a in_or_out.Incoming)
        (h.1.2.2.2 i3 hi3) k2 hk23) _ _ q hslot2 hq
    rw [unpack_base_plain st ft i3 k2 j3 hk2p, unpack_base_plain st ft i3 k2 j hk2p] at hpos
    obtain ⟨rfl, rfl⟩ := sum_below_position
      (fun j2 => st.comm_sizes ft k2 (j2 + i3 * st.num_chunks)) j3 j n2 n hn2 hn hpos
    change w2.2 = (if k2 = CONNECT_NEGATE then
        -st3.comm_blocks ft (j3 + i3 * st.num_chunks)
          (region_offset st ft (j3 + i3 * st.num_chunks) k2 + n2)
      else st3.comm_blocks ft (j3 + i3 * st.num_chunks)
          (region_offset st ft (j3 + i3 * st.num_chunks) k2 + n2))
    by_cases hkn : k2 = CONNECT_NEGATE
    · rw [if_pos hkn]; exact hneg hkn
    · rw [if_neg hkn]; exact hcopy hk2p hkn

/-- Claim C1, counterexample. One local chunk whose tables are as the claim describes
them, with one copy connection and a phase-rotate region of size 1: the phase-rotate loop
of the unpack pass reads `connections[ft][CONNECT_PHASE][Incoming][1]`, past the end of
the array, and `step_boundaries` has no result. -/
theorem odd_phase_region_breaks_round_trip :
    tables_as_stated (odd_phase_fields.at_pack_time idle_externals field_type.H_stuff)
      field_type.H_stuff ∧
    odd_phase_fields.step_boundaries idle_externals field_type.H_stuff = none := by
  constructor
  · unfold tables_as_stated fields.at_pack_time
    decide
  · exact Option.isNone_iff_eq_none.1 (by decide)

/-- Claim C1, amended (round trip for copy and negate connections). On a single process,
for tables as the claim describes them in which moreover every phase-rotate size is even
and every chunk has a phase factor for each pair of its Incoming phase-rotate connections,
`step_boundaries(ft)` returns, and for every pair (source `j`, destination `i`) the
Incoming slot of its `n`-th copy connection holds the value that the matching Outgoing
slot held at pack time (after connection validation and the zero-metal pass), and the
Incoming slot of its `n`-th negate connection holds the negation of that value. -/
theorem copy_negate_round_trip (E : Externals) (ft : field_type) (st : fields)
    (h : tables_ok (st.at_pack_time E ft) ft) :
    ∃ st2, st.step_boundaries E ft = some st2 ∧
      ∀ j i n, j < (st.at_pack_time E ft).num_chunks → i < (st.at_pack_time E ft).num_chunks →
        (n < (st.at_pack_time E ft).comm_sizes ft CONNECT_COPY
              (j + i * (st.at_pack_time E ft).num_chunks) →
          ∃ p q,
            (((st.at_pack_time E ft).chunks j).connections ft CONNECT_COPY
              in_or_out.Outgoing)[pack_base (st.at_pack_time E ft) ft j CONNECT_COPY i + n]?
                = some p ∧
            (((st.at_pack_time E ft).chunks i).connections ft CONNECT_COPY
              in_or_out.Incoming)[unpack_base (st.at_pack_time E ft) ft i CONNECT_COPY j + n]?
                = some q ∧
            (st2.chunks i).f q = ((st.at_pack_time E ft).chunks j).f p) ∧
        (n < (st.at_pack_time E ft).comm_sizes ft CONNECT_NEGATE
              (j + i * (st.at_pack_time E ft).num_chunks) →
          ∃ p q,
            (((st.at_pack_time E ft).chunks j).connections ft CONNECT_NEGATE
              in_or_out.Outgoing)[pack_base (st.at_pack_time E ft) ft j CONNECT_NEGATE i + n]?
                = some p ∧
            (((st.at_pack_time E ft).chunks i).connections ft CONNECT_NEGATE
              in_or_out.Incoming)[unpack_base (st.at_pack_time E ft) ft i CONNECT_NEGATE j + n]?
                = some q ∧
            (st2.chunks i).f q = -((st.at_pack_time E ft).chunks j).f p) := by
  unfold fields.at_pack_time at h ⊢
  generalize hst1 : (E.connect_chunks st).zero_metal_pass E ft = st1 at h ⊢
  obtain ⟨st3, hst3⟩ := pack_fold_some ft (pack_ops st1 ft) st1 (pack_sources_found st1 ft h)
  obtain ⟨hc3, hn3, hs3⟩ := pack_fold_chunks ft _ st1 st3 hst3
  have hex : st3.exchange E ft = some st3 :=
    exchange_single_process E st3 ft (by rw [hn3, hc3]; exact h.1.1)
  have hops : unpack_ops st3 ft = unpack_ops st1 ft := unpack_ops_congr st1 st3 ft hn3 hs3 hc3
  obtain ⟨st2, hst2⟩ := unpack_fold_some ft (unpack_ops st1 ft) st3
    (unpack_writes_found st1 st3 ft h hc3 hs3)
  have key : ∀ j i k n, j < st1.num_chunks → i < st1.num_chunks →
      (k = CONNECT_NEGATE ∨ k = CONNECT_COPY) →
      n < st1.comm_sizes ft k (j + i * st1.num_chunks) →
      ∃ p q,
        ((st1.chunks j).connections ft k in_or_out.Outgoing)[pack_base st1 ft j k i + n]?
          = some p ∧
        ((st1.chunks i).connections ft k in_or_out.Incoming)[unpack_base st1 ft i k j + n]?
          = some q ∧
        (st2.chunks i).f q =
          if k = CONNECT_NEGATE then -(st1.chunks j).f p else (st1.chunks j).f p := by
    intro j i k n hj hi hk hn
    obtain ⟨hk3, _⟩ := kind_lt_three k hk
    have hsome := pack_sources_found st1 ft h
      (PackOp.mk j (j + i * st1.num_chunks) k
        (region_offset st1 ft (j + i * st1.num_chunks) k + n) (pack_base st1 ft j k i + n))
      ((mem_pack_ops st1 ft _).2 ⟨j, i, k, n, hj, h.1.1 j hj, hi, hk3, hn, rfl⟩)
    obtain ⟨p, hp⟩ := Option.isSome_iff_exists.1 hsome
    obtain ⟨q, hq⟩ := incoming_found st1 ft h i j k n hi hj hk3 hn
    refine ⟨p, q, hp, hq, ?_⟩
    rw [unpack_value st1 st3 st2 ft h hc3 hst2 j i k n hj hi hk hn q hq,
      pack_value st1 st3 ft hst3 j i k n hj hi hk3 (h.1.1 j hj) hn p hp]
  refine ⟨st2, ?_, ?_⟩
  · unfold fields.step_boundaries
    rw [hst1]
    unfold fields.pack
    rw [hst3]
    simp only [Option.some_bind, hex]
    unfold fields.unpack
    rw [hops]
    exact hst2
  · intro j i n hj hi
    constructor
    · intro hn
      obtain ⟨p, q, hp, hq, hv⟩ := key j i CONNECT_COPY n hj hi (Or.inr rfl) hn
      exact ⟨p, q, hp, hq, by rw [hv, if_neg (by decide)]⟩
    · intro hn
      obtain ⟨p, q, hp, hq, hv⟩ := key j i CONNECT_NEGATE n hj hi (Or.inl rfl) hn
      exact ⟨p, q, hp, hq, by rw [hv, if_pos rfl]⟩

/-- Claim C1 (amended) at the two-chunk sample: 3.14 arrives as 3.14 through the copy
connection and 2 arrives as -2 through the negate connection. -/
theorem copy_negate_round_trip_witness :
    tables_ok (ring_fields.at_pack_time idle_externals field_type.H_stuff)
      field_type.H_stuff ∧
    ∃ st2, ring_fields.step_boundaries idle_externals field_type.H_stuff = some st2 ∧
      (st2.chunks 1).f ⟨0, 0, 7⟩ = 157 / 50 ∧ (st2.chunks 1).f ⟨0, 0, 6⟩ = -2 := by
  have hok : tables_ok (ring_fields.at_pack_time idle_externals field_type.H_stuff)
      field_type.H_stuff := by
    unfold tables_ok tables_as_stated fields.at_pack_time
    decide
  refine ⟨hok, ?_⟩
  obtain ⟨st2, h1, h2⟩ :=
    copy_negate_round_trip idle_externals field_type.H_stuff ring_fields hok
  refine ⟨st2, h1, ?_, ?_⟩
  · obtain ⟨p, q, hp, hq, hv⟩ := (h2 0 1 0 (by decide) (by decide)).1 (by decide)
    have ep : some p = some (Slot.mk 0 0 3) := hp.symm.trans (by decide)
    have eq : some q = some (Slot.mk 0 0 7) := hq.symm.trans (by decide)
    simp only [Option.some.injEq] at ep eq
    subst ep eq
    rw [hv]
    unfold fields.at_pack_time
    rw [zero_metal_pass_eq]
    norm_num [idle_externals, ring_fields, ring_chunk]
  · obtain ⟨p, q, hp, hq, hv⟩ := (h2 0 1 0 (by decide) (by decide)).2 (by decide)
    have ep : some p = some (Slot.mk 0 0 2) := hp.symm.trans (by decide)
    have eq : some q = some (Slot.mk 0 0 6) := hq.symm.trans (by decide)
    simp only [Option.some.injEq] at ep eq
    subst ep eq
    rw [hv]
    unfold fields.at_pack_time
    rw [zero_metal_pass_eq]
    norm_num [idle_externals, ring_fields, ring_chunk]

/-- Claim C8 at the two-chunk sample split over the processes 0 and 1: process 0 sends
buffer 2 with tag 0 and receives buffer 1 with tag 1, process 1 receives buffer 2 with tag 0
and sends buffer 1 with tag 1. -/
theorem exchange_tags_agree_witness :
    (0 : Nat) ≠ 1 ∧ (split_fields 0).num_chunks = (split_fields 1).num_chunks ∧
    (split_fields 0).comm_sizes = (split_fields 1).comm_sizes ∧
    (∀ j, j < (split_fields 0).num_chunks →
      ((split_fields 0).chunks j).n_proc = ((split_fields 1).chunks j).n_proc) ∧
    (∀ j, j < (split_fields 0).num_chunks →
      ((split_fields 0).chunks j).is_mine = decide (((split_fields 0).chunks j).n_proc = 0)) ∧
    (∀ j, j < (split_fields 0).num_chunks →
      ((split_fields 1).chunks j).is_mine = decide (((split_fields 1).chunks j).n_proc = 1)) ∧
    ((exchange_requests (split_fields 0) field_type.H_stuff).filter
        (fun r => r.is_send && r.peer == 1)).map (fun r => (r.pair, r.count, r.tag)) =
      ((exchange_requests (split_fields 1) field_type.H_stuff).filter
        (fun r => !r.is_send && r.peer == 0)).map (fun r => (r.pair, r.count, r.tag)) ∧
    exchange_requests (split_fields 0) field_type.H_stuff =
      [Request.mk true 2 4 1 0, Request.mk false 1 4 1 1] ∧
    exchange_requests (split_fields 1) field_type.H_stuff =
      [Request.mk false 2 4 0 0, Request.mk true 1 4 0 1] :=
  ⟨by decide, rfl, rfl, by decide, by decide, by decide,
    (exchange_tags_agree (split_fields 0) (split_fields 1) field_type.H_stuff 0 1 (by decide)
      rfl rfl (by decide) (by decide) (by decide)).1, by decide, by decide⟩

theorem exchange_order_length (N : Nat) : (exchange_order N).length = N * N := by
  have : exchange_order N = List.product (List.range N) (List.range N) := rfl
  rw [this]
  exact (List.length_product (List.range N) (List.range N)).trans (by rw [List.length_range])

theorem exchange_body_at_most_one (st : fields) (ft : field_type) (noti j : Nat)
    (t : Nat → Nat) : (exchange_body st ft noti j t).1.length ≤ 1 := by
  rw [exchange_body_cases]
  split
  · split
    · simp
    · split <;> simp
  · simp

theorem exchange_requests_length (st : fields) (ft : field_type) :
    (exchange_requests st ft).length ≤ st.num_chunks * st.num_chunks := by
  have h := (exchange_loop_pairs st ft (exchange_order st.num_chunks) (fun _ => 0)).length_le
  rw [List.length_map, List.length_map, exchange_order_length, ← exchange_requests_eq] at h
  exact h

/-- Claim C18. The abort "Too many requests" is unreachable. For every state (every
chunk-to-process map, every table of sizes) and every iteration `(noti, j)` of the exchange
loop: the send condition and the receive condition do not hold together, the iteration
posts at most one request, the requests of one exchange number at most
`num_chunks * num_chunks`, so every index `reqs[reqnum++]` writes lies inside the array,
and the exchange phase returns normally. -/
theorem too_many_requests_unreachable (E : Externals) (st : fields) (ft : field_type)
    (noti j : Nat) (tagto : Nat → Nat) :
    (((st.chunks j).is_mine && !(st.chunks ((noti + j) % st.num_chunks)).is_mine) &&
      ((st.chunks ((noti + j) % st.num_chunks)).is_mine && !(st.chunks j).is_mine)) = false ∧
    (exchange_body st ft noti j tagto).1.length ≤ 1 ∧
    (exchange_requests st ft).length ≤ st.num_chunks * st.num_chunks ∧
    (∀ k, k < (exchange_requests st ft).length → k < st.num_chunks * st.num_chunks) ∧
    st.exchange E ft = some ((exchange_requests st ft).foldl (complete_request E ft) st) := by
  refine ⟨?_, exchange_body_at_most_one st ft noti j tagto, exchange_requests_length st ft,
    fun k hk => lt_of_lt_of_le hk (exchange_requests_length st ft), ?_⟩
  · cases (st.chunks j).is_mine <;> cases (st.chunks ((noti + j) % st.num_chunks)).is_mine <;> rfl
  · unfold fields.exchange
    simp only
    rw [if_neg (Nat.not_lt.2 (exchange_requests_length st ft))]

/-- Claim C11. When every chunk is local, the exchange loop posts no send and no receive
(`reqnum` stays 0), the exchange phase returns the state it was given, and the unpack pass
therefore runs on exactly the state the pack pass left: pack, exchange, unpack is the same
as pack, unpack. -/
theorem single_process_exchange_is_silent (E : Externals) (st : fields) (ft : field_type)
    (hmine : ∀ i, i < st.num_chunks → (st.chunks i).is_mine = true) :
    exchange_requests st ft = [] ∧
    st.exchange E ft = some st ∧
    (st.exchange E ft).bind (fields.unpack ft) = st.unpack ft ∧
    (st.pack ft).bind (fun st3 => (st3.exchange E ft).bind (fields.unpack ft)) =
      (st.pack ft).bind (fields.unpack ft) := by
  have h1 := exchange_single_process E st ft hmine
  refine ⟨exchange_requests_single_process st ft hmine, h1, by rw [h1]; rfl, ?_⟩
  cases hp : st.pack ft with
  | none => rfl
  | some st3 =>
    obtain ⟨hc, hn, _⟩ := pack_fold_chunks ft _ st st3 hp
    simp only [Option.some_bind]
    rw [exchange_single_process E st3 ft (by rw [hn, hc]; exact hmine)]
    rfl

/-- Claim C11 at the two-chunk sample, whose chunks are both local. -/
theorem single_process_exchange_is_silent_witness :
    (∀ i, i < ring_fields.num_chunks → (ring_fields.chunks i).is_mine = true) ∧
    exchange_requests ring_fields field_type.H_stuff = [] ∧
    ring_fields.exchange idle_externals field_type.H_stuff = some ring_fields :=
  ⟨by decide,
    (single_process_exchange_is_silent idle_externals ring_fields field_type.H_stuff
      (by decide)).1,
    (single_process_exchange_is_silent idle_externals ring_fields field_type.H_stuff
      (by decide)).2.1⟩

theorem for_loop_mem_inv {σ ι ω : Type} (body : ι → σ → List ω × σ) (r : ω) :
    ∀ (L : List ι) (s : σ), r ∈ (for_loop body L s).1 →
      ∃ x, x ∈ L ∧ ∃ s2, r ∈ (body x s2).1 := by
  intro L
  induction L with
  | nil => intro s h; simp [for_loop] at h
  | cons y L ih =>
    intro s h
    rw [for_loop_cons] at h
    rcases List.mem_append.1 h with h1 | h1
    · exact ⟨y, by simp, s, h1⟩
    · obtain ⟨x, hx, s2, hr⟩ := ih _ h1
      exact ⟨x, by simp [hx], s2, hr⟩

/-- The iteration of the exchange loop that handles the pair (source `j`, destination `i`)
posts what the specification lists for it. -/
theorem exchange_body_expected (st : fields) (ft : field_type) (j i : Nat)
    (hj : j < st.num_chunks) (hi : i < st.num_chunks) (t : Nat → Nat) :
    (exchange_body st ft ((i + st.num_chunks - j) % st.num_chunks) j t).1.map
        (fun r => (r.pair, r.is_send, r.count, r.peer)) =
      (expected_requests st ft j i).map (fun e => (j + i * st.num_chunks, e)) := by
  have hi2 : ((i + st.num_chunks - j) % st.num_chunks + j) % st.num_chunks = i := by
    rw [Nat.add_mod, Nat.mod_mod, ← Nat.add_mod]
    have e : i + st.num_chunks - j + j = i + st.num_chunks := by omega
    rw [e, Nat.add_mod_right, Nat.mod_eq_of_lt hi]
  rw [exchange_body_cases, hi2]
  unfold expected_requests
  split
  · split
    · rfl
    · split <;> rfl
  · rfl

theorem filter_eq_of_nodup_map {α β : Type} [DecidableEq β] (f : α → β) :
    ∀ (l : List α), (l.map f).Nodup → ∀ b, ∀ r, r ∈ l → f r = b →
      l.filter (fun a => decide (f a = b)) = [r] := by
  intro l
  induction l with
  | nil => intro _ b r hr; simp at hr
  | cons a l ih =>
    intro hnd b r hr hb
    rw [List.map_cons, List.nodup_cons] at hnd
    rcases List.mem_cons.1 hr with rfl | hr2
    · rw [List.filter_cons, hb]
      simp only [decide_True, if_true, List.cons.injEq, true_and]
      rw [List.filter_eq_nil_iff]
      intro a ha
      simp only [decide_eq_true_eq]
      intro e
      exact hnd.1 (hb ▸ e ▸ List.mem_map_of_mem f ha)
    · have hne : ¬ f a = b := by
        intro e
        exact hnd.1 (e ▸ hb ▸ List.mem_map_of_mem f hr2)
      rw [List.filter_cons]
      simp only [hne, decide_False, Bool.false_eq_true, if_false]
      exact ih hnd.2 b r hr2 hb

theorem exchange_requests_source (st : fields) (ft : field_type) (j i : Nat)
    (hj : j < st.num_chunks) (hi : i < st.num_chunks) (r : Request)
    (hr : r ∈ exchange_requests st ft) (hp : r.pair = j + i * st.num_chunks) :
    (r.is_send, r.count, r.peer) ∈ expected_requests st ft j i := by
  rw [exchange_requests_eq] at hr
  obtain ⟨x, hx, t, hrx⟩ := for_loop_mem_inv _ r _ _ hr
  obtain ⟨hx1, hx2⟩ := exchange_order_bound _ x hx
  have hpx : r.pair = exchange_pair st.num_chunks (x.1, x.2) := by
    have hsub := exchange_body_pairs st ft x.1 x.2 t
    have hm : r.pair ∈ (exchange_body st ft x.1 x.2 t).1.map (fun r => r.pair) :=
      List.mem_map_of_mem _ hrx
    exact List.mem_singleton.1 (hsub.subset hm)
  obtain ⟨_, hp0⟩ := exchange_order_mem st.num_chunks j i hj hi
  have hxe : x = ((i + st.num_chunks - j) % st.num_chunks, j) :=
    exchange_pair_injective st.num_chunks x _ hx1 hx2 (Nat.mod_lt _ (by omega)) hj
      (by rw [hp0, ← hp, hpx])
  rw [hxe] at hrx
  have hm : (r.pair, r.is_send, r.count, r.peer) ∈
      (exchange_body st ft ((i + st.num_chunks - j) % st.num_chunks) j t).1.map
        (fun r => (r.pair, r.is_send, r.count, r.peer)) := List.mem_map_of_mem _ hrx
  rw [exchange_body_expected st ft j i hj hi t] at hm
  obtain ⟨e, he, hee⟩ := List.mem_map.1 hm
  simp only [Prod.mk.injEq] at hee
  rw [← hee.2]
  exact he

theorem exchange_requests_target (st : fields) (ft : field_type) (j i : Nat)
    (hj : j < st.num_chunks) (hi : i < st.num_chunks) (e : Bool × Nat × Nat)
    (he : e ∈ expected_requests st ft j i) :
    ∃ r, r ∈ exchange_requests st ft ∧
      (r.pair, r.is_send, r.count, r.peer) = (j + i * st.num_chunks, e) := by
  rw [exchange_requests_eq]
  obtain ⟨hmem, _⟩ := exchange_order_mem st.num_chunks j i hj hi
  refine for_loop_mem _ _ ((i + st.num_chunks - j) % st.num_chunks, j) ?_ _ hmem _
  intro t
  have hb := exchange_body_expected st ft j i hj hi t
  have hm : (j + i * st.num_chunks, e) ∈
      (expected_requests st ft j i).map (fun e => (j + i * st.num_chunks, e)) :=
    List.mem_map_of_mem _ he
  rw [← hb] at hm
  obtain ⟨r, hr, hre⟩ := List.mem_map.1 hm
  exact ⟨r, hr, hre⟩

theorem expected_requests_length (st : fields) (ft : field_type) (j i : Nat) :
    (expected_requests st ft j i).length ≤ 1 := by
  unfold expected_requests
  split
  · split
    · simp
    · split <;> simp
  · simp

theorem exchange_requests_of_pair (st : fields) (ft : field_type) (j i : Nat)
    (hj : j < st.num_chunks) (hi : i < st.num_chunks) :
    ((exchange_requests st ft).filter (fun r => decide (r.pair = j + i * st.num_chunks))).map
        (fun r => (r.is_send, r.count, r.peer)) = expected_requests st ft j i := by
  have hlen := expected_requests_length st ft j i
  cases hexp : expected_requests st ft j i with
  | nil =>
    rw [List.map_eq_nil_iff, List.filter_eq_nil_iff]
    intro r hr
    simp only [decide_eq_true_eq]
    intro hp
    have := exchange_requests_source st ft j i hj hi r hr hp
    rw [hexp] at this
    simp at this
  | cons e rest =>
    have hrest : rest = [] := by
      rw [hexp] at hlen
      cases rest with
      | nil => rfl
      | cons _ _ => simp at hlen
    subst hrest
    obtain ⟨r, hr, hre⟩ := exchange_requests_target st ft j i hj hi e (by rw [hexp]; simp)
    simp only [Prod.mk.injEq] at hre
    rw [filter_eq_of_nodup_map (fun r : Request => r.pair) _
      (exchange_requests_pairs_nodup st ft) _ r hr hre.1]
    simp only [List.map_cons, List.map_nil, List.cons.injEq, and_true]
    rw [← hre.2]

/-- Claim C14. The exchange loop handles every ordered chunk pair once. The pairs
`(j, (noti + j) mod N)` met in loop order are pairwise distinct, there are `N * N` of them,
each has both components below `N`, and every pair `(j, i)` with `j, i < N` is among them.
The requests posted for the buffer of `(j, i)` are exactly those listed for it: with
payload, one send if only the source is local, one receive if only the destination is
local, none otherwise; and no buffer gets two requests. -/
theorem exchange_handles_each_pair_once (st : fields) (ft : field_type) (j i : Nat)
    (hj : j < st.num_chunks) (hi : i < st.num_chunks) :
    ((exchange_order st.num_chunks).map
      (fun x => (x.2, (x.1 + x.2) % st.num_chunks))).Nodup ∧
    ((exchange_order st.num_chunks).map
      (fun x => (x.2, (x.1 + x.2) % st.num_chunks))).length = st.num_chunks * st.num_chunks ∧
    (∀ p, p ∈ (exchange_order st.num_chunks).map
      (fun x => (x.2, (x.1 + x.2) % st.num_chunks)) →
        p.1 < st.num_chunks ∧ p.2 < st.num_chunks) ∧
    (j, i) ∈ (exchange_order st.num_chunks).map
      (fun x => (x.2, (x.1 + x.2) % st.num_chunks)) ∧
    ((exchange_requests st ft).filter (fun r => decide (r.pair = j + i * st.num_chunks))).map
        (fun r => (r.is_send, r.count, r.peer)) = expected_requests st ft j i ∧
    ((exchange_requests st ft).map (fun r => r.pair)).Nodup := by
  refine ⟨?_, ?_, ?_, ?_, exchange_requests_of_pair st ft j i hj hi,
    exchange_requests_pairs_nodup st ft⟩
  · have h := exchange_order_nodup st.num_chunks
    have e : (exchange_order st.num_chunks).map (exchange_pair st.num_chunks) =
        ((exchange_order st.num_chunks).map
          (fun x => (x.2, (x.1 + x.2) % st.num_chunks))).map
          (fun p => p.1 + p.2 * st.num_chunks) := by
      rw [List.map_map]; rfl
    rw [e] at h
    exact List.Nodup.of_map _ h
  · rw [List.length_map, exchange_order_length]
  · intro p hp
    obtain ⟨x, hx, rfl⟩ := List.mem_map.1 hp
    exact ⟨(exchange_order_bound _ x hx).2, Nat.mod_lt _ (by omega)⟩
  · refine List.mem_map.2 ⟨((i + st.num_chunks - j) % st.num_chunks, j),
      (exchange_order_mem st.num_chunks j i hj hi).1, ?_⟩
    have hi2 : ((i + st.num_chunks - j) % st.num_chunks + j) % st.num_chunks = i := by
      rw [Nat.add_mod, Nat.mod_mod, ← Nat.add_mod]
      have e : i + st.num_chunks - j + j = i + st.num_chunks := by omega
      rw [e, Nat.add_mod_right, Nat.mod_eq_of_lt hi]
    simp only [hi2]

/-- Claim C14 at the two-chunk sample split over two processes, seen from process 0: one
send for the pair (0, 1) and one receive for the pair (1, 0). -/
theorem exchange_handles_each_pair_once_witness :
    0 < (split_fields 0).num_chunks ∧ 1 < (split_fields 0).num_chunks ∧
    ((exchange_requests (split_fields 0) field_type.H_stuff).filter
      (fun r => decide (r.pair = 0 + 1 * (split_fields 0).num_chunks))).map
        (fun r => (r.is_send, r.count, r.peer)) = [(true, 4, 1)] ∧
    ((exchange_requests (split_fields 0) field_type.H_stuff).filter
      (fun r => decide (r.pair = 1 + 0 * (split_fields 0).num_chunks))).map
        (fun r => (r.is_send, r.count, r.peer)) = [(false, 4, 1)] :=
  ⟨by decide, by decide,
    (exchange_handles_each_pair_once (split_fields 0) field_type.H_stuff 0 1
      (by decide) (by decide)).2.2.2.2.1.trans (by decide),
    (exchange_handles_each_pair_once (split_fields 0) field_type.H_stuff 1 0
      (by decide) (by decide)).2.2.2.2.1.trans (by decide)⟩

/-- Claim C17. When the counter passed in is at most 0 or no material is pending,
`fields_chunk::phase_material` returns the chunk as it was (material and fields) and
evaluates no quotient `1.0 / phasein_time`; for every counter value, no quotient it
evaluates has the divisor 0. -/
theorem phase_material_guarded (E : Externals) (ch : fields_chunk) (c : Int)
    (h : c ≤ 0 ∨ ch.new_s = none) :
    ch.phase_material E c = ch ∧
    ch.phase_material_divisors c = [] ∧
    (∀ c2 : Int, 0 ∉ ch.phase_material_divisors c2) := by
  refine ⟨?_, ?_, ?_⟩
  · unfold fields_chunk.phase_material
    cases hn : ch.new_s with
    | none => rfl
    | some n =>
      rcases h with h | h
      · simp only [if_neg (not_lt.2 h)]
      · rw [hn] at h; simp at h
  · unfold fields_chunk.phase_material_divisors
    cases hn : ch.new_s with
    | none => rfl
    | some n =>
      rcases h with h | h
      · simp only [if_neg (not_lt.2 h)]
      · rw [hn] at h; simp at h
  · intro c2
    unfold fields_chunk.phase_material_divisors
    cases ch.new_s with
    | none => simp
    | some n =>
      by_cases hc : c2 > 0
      · simp only [hc, if_true, List.mem_singleton]
        omega
      · simp [hc]

/-- Claim C17 at a chunk with a pending material and the counter 0. -/
theorem phase_material_guarded_witness :
    ((0 : Int) ≤ 0 ∨ plain_chunk.new_s = none) ∧
    plain_chunk.phase_material idle_externals 0 = plain_chunk ∧
    plain_chunk.phase_material_divisors 0 = [] :=
  ⟨Or.inl (le_refl 0), (phase_material_guarded idle_externals plain_chunk 0 (Or.inl (le_refl 0))).1,
    (phase_material_guarded idle_externals plain_chunk 0 (Or.inl (le_refl 0))).2.1⟩

/-- Claim C12. The method `fields_chunk::peek_field` returns 0 when the first interpolation
location lies outside the chunk's volume, and when `f[c][0]` is not allocated. When the
location is inside and the storage exists, the process that owns the chunk gets the stored
value `f[c][0][index(c, ilocs[0])]`, and every other process gets the value the broadcast
delivers. The function is total, so it returns in every case. -/
theorem peek_field_sentinel (v : volume) (my_rank : Nat) (delivered : ℚ) (ch : fields_chunk)
    (c : Nat) (pt : vec) :
    (v.contains (v.interpolate c pt 0) = false → ch.peek_field v my_rank delivered c pt = 0) ∧
    (ch.f_alloc c = false → ch.peek_field v my_rank delivered c pt = 0) ∧
    (v.contains (v.interpolate c pt 0) = true → ch.f_alloc c = true →
      ch.is_mine = true → ch.n_proc = my_rank →
      ch.peek_field v my_rank delivered c pt =
        ch.f ⟨c, 0, v.index c (v.interpolate c pt 0)⟩) ∧
    (v.contains (v.interpolate c pt 0) = true → ch.f_alloc c = true →
      ch.n_proc ≠ my_rank → ch.peek_field v my_rank delivered c pt = delivered) := by
  unfold fields_chunk.peek_field broadcast
  refine ⟨?_, ?_, ?_, ?_⟩
  · intro h; simp [h]
  · intro h; simp [h]
  · intro h1 h2 h3 h4; simp [h1, h2, h3, h4]
  · intro h1 h2 h4; simp [h1, h2, h4]

/-- Claim C12 on a line of four cells: the owner reads cell 2, and a point outside the
volume gives 0. -/
theorem peek_field_sentinel_example :
    line_volume.contains (line_volume.interpolate 5 [2] 0) = true ∧
    line_volume.contains (line_volume.interpolate 5 [7] 0) = false ∧
    plain_chunk.peek_field line_volume 0 9 5 [2] = plain_chunk.f ⟨5, 0, 2⟩ ∧
    plain_chunk.peek_field line_volume 0 9 5 [7] = 0 := by
  have h1 : line_volume.contains (line_volume.interpolate 5 [2] 0) = true := by decide
  have h2 : line_volume.contains (line_volume.interpolate 5 [7] 0) = false := by decide
  have hi : line_volume.index 5 (line_volume.interpolate 5 [2] 0) = 2 := by decide
  refine ⟨h1, h2, ?_, (peek_field_sentinel line_volume 0 9 plain_chunk 5 [7]).1 h2⟩
  rw [(peek_field_sentinel line_volume 0 9 plain_chunk 5 [2]).2.2.1 h1 rfl rfl rfl, hi]

theorem pack_pair_ops_wh (st : fields) (ft : field_type) (j i k : Nat) :
    ((pack_pair_ops st ft j i).filter (fun op => op.ip = k)).map (fun op => op.wh) =
      if k < 3 then (List.range (st.comm_sizes ft k (j + i * st.num_chunks))).map
        (fun n => pack_base st ft j k i + n)
      else [] := by
  unfold pack_pair_ops
  have h3 : List.range 3 = [0, 1, 2] := rfl
  simp only [h3, List.flatMap_cons, List.flatMap_nil, List.append_nil, List.filter_append,
    List.filter_map, Function.comp_def, List.map_append, List.map_map]
  by_cases h0 : k = 0
  · subst h0; simp
  · by_cases h1 : k = 1
    · subst h1; simp
    · by_cases h2 : k = 2
      · subst h2; simp
      · have : ¬ k < 3 := by omega
        simp [this, Ne.symm h0, Ne.symm h1, Ne.symm h2]

theorem pack_chunk_wh (st : fields) (ft : field_type) (j k : Nat) :
    ((pack_i_loop st ft j).1.filter (fun op => op.ip = k)).map (fun op => op.wh) =
      if k < 3 then List.range (pack_base st ft j k st.num_chunks) else [] := by
  rw [pack_i_loop_eq]
  simp only [List.filter_flatMap, List.map_flatMap, pack_pair_ops_wh]
  by_cases hk : k < 3
  · simp only [hk, if_true]
    exact range_flatMap_blocks (fun i => st.comm_sizes ft k (j + i * st.num_chunks))
      st.num_chunks
  · simp only [hk, if_false]
    induction (List.range st.num_chunks) with
    | nil => rfl
    | cons a l ih => simp [List.flatMap_cons, ih]

theorem unpack_pair_ops_positions (st : fields) (ft : field_type) (i j k : Nat) :
    ((unpack_pair_ops st ft i j).filter (fun op => op.ip = k)).flatMap (fun op => op.positions) =
      if k < 3 then
        (List.range (unpack_consumed k (st.comm_sizes ft k (j + i * st.num_chunks)))).map
          (fun n => unpack_base st ft i k j + n)
      else [] := by
  unfold unpack_pair_ops
  simp only [List.filter_append, List.filter_map, Function.comp_def, List.flatMap_append,
    List.flatMap_map, UnpackOp.positions, unpack_consumed, CONNECT_PHASE, CONNECT_NEGATE,
    CONNECT_COPY]
  by_cases h0 : k = 0
  · subst h0
    simp only [decide_True, List.filter_true, if_true, Nat.reduceEqDiff, decide_False,
      List.filter_false, List.flatMap_nil, List.append_nil, Nat.ofNat_pos, zero_ne_one,
      OfNat.zero_ne_ofNat]
    unfold phase_consumed
    generalize (st.comm_sizes ft 0 (j + i * st.num_chunks) + 1) / 2 = m
    generalize unpack_base st ft i 0 j = b
    induction m with
    | zero => rfl
    | succ m ih =>
      rw [List.range_succ, List.flatMap_append, ih]
      have : 2 * (m + 1) = 2 * m + 1 + 1 := by ring
      rw [this, List.range_succ, List.range_succ]
      simp [Nat.add_assoc]
  · by_cases h1 : k = 1
    · subst h1; simp [flatMap_singleton_map]
    · by_cases h2 : k = 2
      · subst h2; simp [flatMap_singleton_map]
      · have : ¬ k < 3 := by omega
        simp [this, Ne.symm h0, Ne.symm h1, Ne.symm h2, h0]

theorem unpack_base_eq (st : fields) (ft : field_type) (i k J : Nat) :
    unpack_base st ft i k J =
      sum_below (fun j => unpack_consumed k (st.comm_sizes ft k (j + i * st.num_chunks))) J :=
  rfl

theorem unpack_chunk_positions (st : fields) (ft : field_type) (i k : Nat) :
    ((unpack_j_loop st ft i).1.filter (fun op => op.ip = k)).flatMap (fun op => op.positions) =
      if k < 3 then List.range (unpack_base st ft i k st.num_chunks) else [] := by
  rw [unpack_j_loop_eq]
  simp only [List.filter_flatMap, List.flatMap_assoc, unpack_pair_ops_positions]
  by_cases hk : k < 3
  · simp only [hk, if_true, unpack_base_eq]
    exact range_flatMap_blocks
      (fun j => unpack_consumed k (st.comm_sizes ft k (j + i * st.num_chunks))) st.num_chunks
  · simp only [hk, if_false]
    induction (List.range st.num_chunks) with
    | nil => rfl
    | cons a l ih => simp [List.flatMap_cons, ih]

/-- Claim C13, counterexample. Destination chunk 0 receives a phase-rotate region of
size 1 from source 0 and one of size 2 from source 1. The call returns. The sizes for the
sources before 1 sum to 1, so the mirror image of the pack rule puts the first value from
source 1 at Incoming position 1; the unpack loop stores it through position 2, and no
statement for that pair touches position 1. The loop steps over the positions 0 to 3,
one more than the three that the sizes count. -/
theorem unpack_position_not_mirrored :
    (lopsided_fields.step_boundaries idle_externals field_type.H_stuff).isSome = true ∧
    UnpackOp.mk 0 1 CONNECT_PHASE 0 2 ∈ unpack_ops lopsided_fields field_type.H_stuff ∧
    mirrored_position lopsided_fields field_type.H_stuff 0 CONNECT_PHASE 1 0 = 1 ∧
    (∀ op, op ∈ unpack_ops lopsided_fields field_type.H_stuff →
      op.i = 0 → op.pair = 1 → op.ip = CONNECT_PHASE →
      ¬ mirrored_position lopsided_fields field_type.H_stuff 0 CONNECT_PHASE 1 0 ∈
        op.positions) ∧
    ((unpack_j_loop lopsided_fields field_type.H_stuff 0).1.filter
      (fun op => op.ip = CONNECT_PHASE)).flatMap (fun op => op.positions) = [0, 1, 2, 3] ∧
    sum_below (fun j => lopsided_fields.comm_sizes field_type.H_stuff CONNECT_PHASE
      (j + 0 * lopsided_fields.num_chunks)) lopsided_fields.num_chunks = 3 := by
  decide

/-- Claim C13, amended. For source chunk `j` the pack loop runs over the destinations in
increasing order; for kind `k` it reads the Outgoing positions
`pack_base + n`, `n` below the size of the pair, where `pack_base` is the sum of the sizes
for the destinations before `i`, and over all destinations the positions read are
0, 1, 2, ... without gap or repetition. For destination chunk `i` the unpack loop runs over
the sources in increasing order; for kind `k` it stores through the Incoming positions
`unpack_base + n`, `n` below the number consumed for the pair, where `unpack_base` is the
sum of the numbers consumed for the sources before `j`; the number consumed is the size
for negate and copy, and the size rounded up to the next even number for phase-rotate;
over all sources the positions are again 0, 1, 2, ... without gap or repetition. -/
theorem connections_consumed_in_order (st : fields) (ft : field_type) (j i k : Nat) :
    (pack_i_loop st ft j).1 =
      (List.range st.num_chunks).flatMap (fun i2 => pack_pair_ops st ft j i2) ∧
    pack_base st ft j k i = sum_below (fun i2 => st.comm_sizes ft k (j + i2 * st.num_chunks)) i ∧
    (((pack_pair_ops st ft j i).filter (fun op => op.ip = k)).map (fun op => op.wh) =
      if k < 3 then (List.range (st.comm_sizes ft k (j + i * st.num_chunks))).map
        (fun n => pack_base st ft j k i + n)
      else []) ∧
    (((pack_i_loop st ft j).1.filter (fun op => op.ip = k)).map (fun op => op.wh) =
      if k < 3 then List.range (pack_base st ft j k st.num_chunks) else []) ∧
    (unpack_j_loop st ft i).1 =
      (List.range st.num_chunks).flatMap (fun j2 => unpack_pair_ops st ft i j2) ∧
    unpack_base st ft i k j =
      sum_below (fun j2 =>
        unpack_consumed k (st.comm_sizes ft k (j2 + i * st.num_chunks))) j ∧
    unpack_consumed k (st.comm_sizes ft k (j + i * st.num_chunks)) =
      (if k = CONNECT_PHASE then
        st.comm_sizes ft k (j + i * st.num_chunks) +
          st.comm_sizes ft k (j + i * st.num_chunks) % 2
      else st.comm_sizes ft k (j + i * st.num_chunks)) ∧
    (((unpack_pair_ops st ft i j).filter (fun op => op.ip = k)).flatMap
        (fun op => op.positions) =
      if k < 3 then
        (List.range (unpack_consumed k (st.comm_sizes ft k (j + i * st.num_chunks)))).map
          (fun n => unpack_base st ft i k j + n)
      else []) ∧
    (((unpack_j_loop st ft i).1.filter (fun op => op.ip = k)).flatMap
        (fun op => op.positions) =
      if k < 3 then List.range (unpack_base st ft i k st.num_chunks) else []) := by
  refine ⟨?_, rfl, pack_pair_ops_wh st ft j i k, pack_chunk_wh st ft j k, ?_, rfl, ?_,
    unpack_pair_ops_positions st ft i j k, unpack_chunk_positions st ft i k⟩
  · rw [pack_i_loop_eq]
  · rw [unpack_j_loop_eq]
  · unfold unpack_consumed phase_consumed
    split
    · omega
    · rfl

theorem phase_reads_range (m : Nat) :
    (List.range m).flatMap (fun x => [2 * x, 2 * x + 1]) = List.range (2 * m) := by
  induction m with
  | zero => rfl
  | succ m ih =>
    rw [List.range_succ, List.flatMap_append, ih]
    have : 2 * (m + 1) = 2 * m + 1 + 1 := by ring
    rw [this, List.range_succ, List.range_succ]
    simp

theorem unpack_pair_reads_eq (st : fields) (ft : field_type) (i j : Nat) :
    unpack_pair_reads st ft i j =
      List.range (phase_consumed (st.comm_sizes ft CONNECT_PHASE (j + i * st.num_chunks))) ++
      (List.range (st.comm_sizes ft CONNECT_NEGATE (j + i * st.num_chunks))).map
        (fun n => st.comm_sizes ft CONNECT_PHASE (j + i * st.num_chunks) + n) ++
      (List.range (st.comm_sizes ft CONNECT_COPY (j + i * st.num_chunks))).map
        (fun n => st.comm_sizes ft CONNECT_PHASE (j + i * st.num_chunks) +
          st.comm_sizes ft CONNECT_NEGATE (j + i * st.num_chunks) + n) := by
  unfold unpack_pair_reads unpack_pair_ops
  simp only [List.flatMap_append, List.flatMap_map, UnpackOp.reads, (region_offset_values st ft _).2.1,
    (region_offset_values st ft _).2.2.1]
  have e0 : ¬ CONNECT_NEGATE = CONNECT_PHASE := by decide
  have e1 : ¬ CONNECT_COPY = CONNECT_PHASE := by decide
  simp only [if_true, e0, e1, if_false, flatMap_singleton_map, phase_reads_range]
  rfl

theorem unpack_pair_phase_reads (st : fields) (ft : field_type) (i j : Nat) :
    ((unpack_pair_ops st ft i j).filter (fun op => op.ip = CONNECT_PHASE)).flatMap
        (fun op => op.reads) =
      List.range (phase_consumed (st.comm_sizes ft CONNECT_PHASE (j + i * st.num_chunks))) := by
  unfold unpack_pair_ops
  simp only [List.filter_append, List.filter_map, Function.comp_def, List.flatMap_append,
    List.flatMap_map, UnpackOp.reads]
  have e0 : ¬ CONNECT_NEGATE = CONNECT_PHASE := by decide
  have e1 : ¬ CONNECT_COPY = CONNECT_PHASE := by decide
  simp only [decide_True, List.filter_true, e0, e1, decide_False, List.filter_false,
    List.flatMap_nil, List.append_nil, if_true, phase_reads_range]
  rfl

theorem unpack_pair_reads_even (st : fields) (ft : field_type) (i j : Nat)
    (h : st.comm_sizes ft CONNECT_PHASE (j + i * st.num_chunks) % 2 = 0) :
    unpack_pair_reads st ft i j = List.range (st.comm_size_tot ft (j + i * st.num_chunks)) := by
  rw [unpack_pair_reads_eq]
  unfold fields.comm_size_tot
  have hp : phase_consumed (st.comm_sizes ft CONNECT_PHASE (j + i * st.num_chunks)) =
      st.comm_sizes ft CONNECT_PHASE (j + i * st.num_chunks) := by
    unfold phase_consumed; omega
  rw [hp, List.range_add, List.range_add]

theorem unpack_pair_reads_length (st : fields) (ft : field_type) (i j : Nat) :
    (unpack_pair_reads st ft i j).length =
      st.comm_size_tot ft (j + i * st.num_chunks) +
        st.comm_sizes ft CONNECT_PHASE (j + i * st.num_chunks) % 2 := by
  rw [unpack_pair_reads_eq]
  unfold fields.comm_size_tot phase_consumed
  simp only [List.length_append, List.length_range, List.length_map]
  omega

/-- Claim C19, counterexample. The pair (source 0, destination 0) has a phase-rotate
region of the odd size 1 and a negate region of size 1, so its buffer holds 2 values. The
unpack pass returns; its loops read the indices 0 and 1 (phase) and 1 (negate) of that
buffer: all of them lie inside the buffer although the phase size is odd. -/
theorem odd_phase_region_stays_inside :
    (lopsided_fields.unpack field_type.H_stuff).isSome = true ∧
    lopsided_fields.comm_sizes field_type.H_stuff CONNECT_PHASE
      (0 + 0 * lopsided_fields.num_chunks) % 2 = 1 ∧
    lopsided_fields.comm_size_tot field_type.H_stuff (0 + 0 * lopsided_fields.num_chunks) = 2 ∧
    unpack_pair_reads lopsided_fields field_type.H_stuff 0 0 = [0, 1, 1] ∧
    (∀ o, o ∈ unpack_pair_reads lopsided_fields field_type.H_stuff 0 0 →
      o < lopsided_fields.comm_size_tot field_type.H_stuff
        (0 + 0 * lopsided_fields.num_chunks)) := by
  decide

/-- Claim C19, amended. For a pair whose phase-rotate size is even, the three unpack loops
read the buffer indices 0, 1, ..., `comm_size_tot - 1`, each once and in this order. For a
pair whose phase-rotate size is odd, the phase loop reads the index equal to that size, one
past the phase region. All indices read lie below `comm_size_tot` exactly when the
phase-rotate size is even or the negate and copy regions are not both empty; the indices
read are those below `comm_size_tot`, each once, exactly when the phase-rotate size is
even. -/
theorem unpack_reads_within_buffer (st : fields) (ft : field_type) (i j : Nat) :
    (st.comm_sizes ft CONNECT_PHASE (j + i * st.num_chunks) % 2 = 0 →
      unpack_pair_reads st ft i j =
        List.range (st.comm_size_tot ft (j + i * st.num_chunks))) ∧
    (st.comm_sizes ft CONNECT_PHASE (j + i * st.num_chunks) % 2 = 1 →
      st.comm_sizes ft CONNECT_PHASE (j + i * st.num_chunks) ∈
        ((unpack_pair_ops st ft i j).filter (fun op => op.ip = CONNECT_PHASE)).flatMap
          (fun op => op.reads)) ∧
    ((∀ o, o ∈ unpack_pair_reads st ft i j → o < st.comm_size_tot ft (j + i * st.num_chunks)) ↔
      (st.comm_sizes ft CONNECT_PHASE (j + i * st.num_chunks) % 2 = 0 ∨
        0 < st.comm_sizes ft CONNECT_NEGATE (j + i * st.num_chunks) +
          st.comm_sizes ft CONNECT_COPY (j + i * st.num_chunks))) ∧
    ((unpack_pair_reads st ft i j).Perm
        (List.range (st.comm_size_tot ft (j + i * st.num_chunks))) ↔
      st.comm_sizes ft CONNECT_PHASE (j + i * st.num_chunks) % 2 = 0) := by
  refine ⟨unpack_pair_reads_even st ft i j, ?_, ?_, ?_⟩
  · intro h
    rw [unpack_pair_phase_reads, List.mem_range]
    unfold phase_consumed
    omega
  · rw [unpack_pair_reads_eq]
    unfold fields.comm_size_tot phase_consumed
    generalize st.comm_sizes ft CONNECT_PHASE (j + i * st.num_chunks) = a
    generalize st.comm_sizes ft CONNECT_NEGATE (j + i * st.num_chunks) = b
    generalize st.comm_sizes ft CONNECT_COPY (j + i * st.num_chunks) = c
    constructor
    · intro h
      by_contra hc
      have := h a (by
        simp only [List.mem_append, List.mem_range, List.mem_map]
        exact Or.inl (Or.inl (by omega)))
      omega
    · intro h o ho
      simp only [List.mem_append, List.mem_range, List.mem_map] at ho
      rcases ho with (ho | ⟨n, hn, rfl⟩) | ⟨n, hn, rfl⟩ <;> omega
  · constructor
    · intro h
      have hl := h.length_eq
      rw [unpack_pair_reads_length, List.length_range] at hl
      omega
    · intro h
      rw [unpack_pair_reads_even st ft i j h]

theorem at_pack_time_chunk (E : Externals) (ft : field_type) (st : fields) (j : Nat) :
    (st.at_pack_time E ft).num_chunks = (E.connect_chunks st).num_chunks ∧
    (st.at_pack_time E ft).comm_sizes = (E.connect_chunks st).comm_sizes ∧
    (st.at_pack_time E ft).comm_blocks = (E.connect_chunks st).comm_blocks ∧
    (st.at_pack_time E ft).chunks j =
      (if j < (E.connect_chunks st).num_chunks ∧ ((E.connect_chunks st).chunks j).is_mine = true
        then { (E.connect_chunks st).chunks j with
          f := E.zero_metal ft ((E.connect_chunks st).chunks j) }
        else (E.connect_chunks st).chunks j) ∧
    ((st.at_pack_time E ft).chunks j).is_mine = ((E.connect_chunks st).chunks j).is_mine ∧
    ((st.at_pack_time E ft).chunks j).connections =
      ((E.connect_chunks st).chunks j).connections := by
  unfold fields.at_pack_time
  rw [zero_metal_pass_eq]
  refine ⟨rfl, rfl, rfl, rfl, ?_, ?_⟩
  · simp only
    split <;> rfl
  · simp only
    split <;> rfl

theorem pack_ops_local (st : fields) (ft : field_type) (op : PackOp)
    (h : op ∈ pack_ops st ft) :
    op.j < st.num_chunks ∧ (st.chunks op.j).is_mine = true ∧
      ∃ i, i < st.num_chunks ∧ op.pair = op.j + i * st.num_chunks := by
  obtain ⟨j, i, ip, n, hj, hm, hi, _, _, rfl⟩ := (mem_pack_ops st ft op).1 h
  exact ⟨hj, hm, i, hi, rfl⟩

theorem unpack_ops_local (st : fields) (ft : field_type) (op : UnpackOp)
    (h : op ∈ unpack_ops st ft) :
    op.i < st.num_chunks ∧ (st.chunks op.i).is_mine = true := by
  obtain ⟨i, j, hi, hm, _, hmem⟩ := (mem_unpack_ops st ft op).1 h
  rcases (mem_unpack_pair_ops st ft i j op).1 hmem with ⟨m, _, rfl⟩ | ⟨n, _, rfl⟩ | ⟨n, _, rfl⟩
  · exact ⟨hi, hm⟩
  · exact ⟨hi, hm⟩
  · exact ⟨hi, hm⟩

theorem exchange_chunks (E : Externals) (ft : field_type) (st st2 : fields)
    (h : st.exchange E ft = some st2) :
    st2.chunks = st.chunks ∧ st2.num_chunks = st.num_chunks ∧ st2.comm_sizes = st.comm_sizes := by
  unfold fields.exchange at h
  simp only at h
  split at h
  · simp at h
  · simp only [Option.some.injEq] at h
    rw [← h]
    have hk : ∀ (b : fields) (a : Request),
        (complete_request E ft b a).chunks = b.chunks ∧
        (complete_request E ft b a).num_chunks = b.num_chunks ∧
        (complete_request E ft b a).comm_sizes = b.comm_sizes := by
      intro b a
      unfold complete_request
      split
      · exact ⟨rfl, rfl, rfl⟩
      · exact ⟨rfl, rfl, rfl⟩
    exact ⟨foldl_keeps (complete_request E ft) (fun s => s.chunks) (fun b a => (hk b a).1) _ st,
      foldl_keeps (complete_request E ft) (fun s => s.num_chunks) (fun b a => (hk b a).2.1) _ st,
      foldl_keeps (complete_request E ft) (fun s => s.comm_sizes) (fun b a => (hk b a).2.2) _ st⟩

/-- Claim C15. One call `step_boundaries(ft)` is the sequence validate (`connect_chunks`),
zero metal, pack, exchange, unpack. The state the pack pass starts from is the validated
state with `zero_metal(ft)` applied to every local chunk; no statement of the pack pass
changes field storage, so every pack statement sees that storage; and each pack statement
copies into the buffer the value that `zero_metal` left in its source chunk, read through
the connection table that `connect_chunks` left. -/
theorem step_boundaries_phase_order (E : Externals) (ft : field_type) (st : fields) :
    st.step_boundaries E ft =
      ((st.at_pack_time E ft).pack ft).bind
        (fun st3 => (st3.exchange E ft).bind (fields.unpack ft)) ∧
    st.at_pack_time E ft = (E.connect_chunks st).zero_metal_pass E ft ∧
    (∀ j, (st.at_pack_time E ft).chunks j =
      (if j < (E.connect_chunks st).num_chunks ∧ ((E.connect_chunks st).chunks j).is_mine = true
        then { (E.connect_chunks st).chunks j with
          f := E.zero_metal ft ((E.connect_chunks st).chunks j) }
        else (E.connect_chunks st).chunks j)) ∧
    (∀ (ops : List PackOp) (st3 : fields),
      ops.foldlM (pack_apply ft) (st.at_pack_time E ft) = some st3 →
        st3.chunks = (st.at_pack_time E ft).chunks) ∧
    (∀ (op : PackOp) (st3 : fields), op ∈ pack_ops (st.at_pack_time E ft) ft →
      st3.chunks = (st.at_pack_time E ft).chunks →
      pack_apply ft st3 op =
        ((((E.connect_chunks st).chunks op.j).connections ft op.ip in_or_out.Outgoing)[op.wh]?).map
          (fun p => st3.set_block ft op.pair op.off
            (E.zero_metal ft ((E.connect_chunks st).chunks op.j) p))) := by
  refine ⟨rfl, rfl, fun j => (at_pack_time_chunk E ft st j).2.2.2.1,
    fun ops st3 h => (pack_fold_chunks ft ops _ st3 h).1, ?_⟩
  intro op st3 hop hc
  obtain ⟨hj, hm, _⟩ := pack_ops_local _ ft op hop
  obtain ⟨hN, _, _, hch, hmine, _⟩ := at_pack_time_chunk E ft st op.j
  rw [hN] at hj
  rw [hmine] at hm
  rw [if_pos ⟨hj, hm⟩] at hch
  rw [pack_apply_eq]
  unfold pack_source
  rw [hc, hch]

/-- Claim C16. Let `step_boundaries(ft)` return and let chunk `i` be not local. The
zero-metal pass leaves chunk `i` as validation left it; every pack statement reads from a
local chunk and the pack pass changes no chunk; when `i` is a chunk index, the pack pass
leaves the buffers of all pairs with source `i` as they were; every unpack statement
stores into a local chunk; and the field storage of chunk `i` after the call is the one
validation left, hence the one before the call when `connect_chunks` does not write it. -/
theorem step_boundaries_writes_local_only (E : Externals) (ft : field_type) (st st2 : fields)
    (i : Nat) (h : st.step_boundaries E ft = some st2)
    (hi : ((E.connect_chunks st).chunks i).is_mine = false) :
    (st.at_pack_time E ft).chunks i = (E.connect_chunks st).chunks i ∧
    (∀ op, op ∈ pack_ops (st.at_pack_time E ft) ft →
      ((st.at_pack_time E ft).chunks op.j).is_mine = true) ∧
    (∀ st3, (st.at_pack_time E ft).pack ft = some st3 →
      st3.chunks = (st.at_pack_time E ft).chunks ∧
      (i < (st.at_pack_time E ft).num_chunks → ∀ i2 off,
        st3.comm_blocks ft (i + i2 * (st.at_pack_time E ft).num_chunks) off =
          (st.at_pack_time E ft).comm_blocks ft
            (i + i2 * (st.at_pack_time E ft).num_chunks) off)) ∧
    (∀ st4 op, op ∈ unpack_ops st4 ft → (st4.chunks op.i).is_mine = true) ∧
    (st2.chunks i).f = ((E.connect_chunks st).chunks i).f ∧
    (((E.connect_chunks st).chunks i).f = (st.chunks i).f →
      (st2.chunks i).f = (st.chunks i).f) := by
  obtain ⟨_, _, _, hch, hmine, _⟩ := at_pack_time_chunk E ft st i
  have hsame : (st.at_pack_time E ft).chunks i = (E.connect_chunks st).chunks i := by
    rw [hch, if_neg]
    rintro ⟨_, hm⟩
    rw [hi] at hm
    exact Bool.noConfusion hm
  have hfin : (st2.chunks i).f = ((E.connect_chunks st).chunks i).f := by
    unfold fields.step_boundaries at h
    change ((st.at_pack_time E ft).pack ft).bind _ = some st2 at h
    obtain ⟨st3, h3, h⟩ := Option.bind_eq_some.1 h
    obtain ⟨st4, h4, h⟩ := Option.bind_eq_some.1 h
    have c3 := (pack_fold_chunks ft _ _ st3 h3).1
    have c4 := (exchange_chunks E ft st3 st4 h4).1
    have hc : st4.chunks i = (E.connect_chunks st).chunks i := by
      rw [c4, c3, hsame]
    funext q
    have := unpack_fold_stable ft i q ((st4.chunks i).f q) (unpack_ops st4 ft) st4 st2 h rfl
      (by
        intro op hop hoi
        have hl := (unpack_ops_local st4 ft op hop).2
        rw [hoi, hc, hi] at hl
        exact Bool.noConfusion hl)
    rw [this, hc]
  refine ⟨hsame, fun op hop => (pack_ops_local _ ft op hop).2.1, ?_,
    fun st4 op hop => (unpack_ops_local st4 ft op hop).2, hfin, fun he => hfin.trans he⟩
  intro st3 h3
  refine ⟨(pack_fold_chunks ft _ _ st3 h3).1, ?_⟩
  intro hiN i2 off
  refine pack_fold_stable ft _ _ _ (pack_ops (st.at_pack_time E ft) ft) _ st3 h3 rfl ?_
  intro op hop hpair _
  obtain ⟨hj, hm, i3, _, hp⟩ := pack_ops_local _ ft op hop
  rw [hp] at hpair
  have hd := (pair_decode _ _ _ _ _ hj hiN hpair).1
  rw [hd, hsame, hi] at hm
  exact Bool.noConfusion hm

/-- Claim C16 at the two-chunk sample split over two processes, seen from process 0:
chunk 1 is not local and keeps its storage. -/
theorem step_boundaries_writes_local_only_witness :
    ((idle_externals.connect_chunks (split_fields 0)).chunks 1).is_mine = false ∧
    ∃ st2, (split_fields 0).step_boundaries idle_externals field_type.H_stuff = some st2 ∧
      (st2.chunks 1).f = ((split_fields 0).chunks 1).f := by
  have hs : ((split_fields 0).step_boundaries idle_externals field_type.H_stuff).isSome
      = true := by decide
  obtain ⟨st2, h2⟩ := Option.isSome_iff_exists.1 hs
  exact ⟨rfl, st2, h2,
    (step_boundaries_writes_local_only idle_externals field_type.H_stuff (split_fields 0) st2 1
      h2 rfl).2.2.2.2.1⟩

theorem step_calls_increment_count : step_calls.count Call.increment_t = 1 := by decide

/-- Claim C10, counterexample. With collaborators that do nothing and `t = INT_MAX`, the
call `step()` returns, and `t` is then `INT_MIN = -2147483648`, not the previous value
plus one: the `int` increment `t += 1` overflows. -/
theorem step_overflows_t :
    idle_externals.keeps_t ∧ last_step_fields.t = 2147483647 ∧
    ∃ st2, last_step_fields.step idle_externals = some st2 ∧ st2.t = -2147483648 ∧
      st2.t ≠ last_step_fields.t + 1 := by
  have hk : idle_externals.keeps_t := fun st => ⟨rfl, rfl, rfl, rfl, rfl, rfl, rfl, rfl⟩
  have hs : (last_step_fields.step idle_externals).isSome = true := by decide
  obtain ⟨st2, h2⟩ := Option.isSome_iff_exists.1 hs
  have ht : st2.t = -2147483648 := by
    rw [run_calls_t idle_externals hk step_calls last_step_fields st2 h2,
      step_calls_increment_count]
    decide
  refine ⟨hk, rfl, st2, h2, ht, ?_⟩
  rw [ht]
  decide

/-- Claim C10, amended. When the collaborators do not write `t`, `step()` returns and `t`
is not `INT_MAX` before the call, `t` is afterwards its previous value plus one; after
any prefix of the statements of `step()` that stops before the increment `t` is unchanged,
after any longer prefix it is the previous value plus one; the increment occurs once,
right after `step_boundaries(P_stuff)` and the flux full-step hook. Whatever `t` was, it
is afterwards the result of the `int` increment, which at `INT_MAX` is `INT_MIN`. -/
theorem step_increments_t (E : Externals) (hE : E.keeps_t) (st st2 : fields)
    (h : st.step E = some st2) (ht : st.t ≠ INT_MAX) :
    st2.t = st.t + 1 ∧
    (∀ k s, k ≤ 18 → run_calls E (step_calls.take k) st = some s → s.t = st.t) ∧
    (∀ k s, 19 ≤ k → run_calls E (step_calls.take k) st = some s → s.t = st.t + 1) ∧
    step_calls.count Call.increment_t = 1 ∧
    (step_calls.take 19).drop 16 =
      [Call.step_boundaries field_type.P_stuff, Call.update, Call.increment_t] ∧
    (∀ (st0 st3 : fields), st0.step E = some st3 →
      st3.t = if st0.t = INT_MAX then INT_MIN else st0.t + 1) := by
  refine ⟨?_, ?_, ?_, by decide, by decide, ?_⟩
  · have := run_calls_t E hE step_calls st st2 h
    rw [this, step_calls_increment_count]
    exact int_increment_eq _ ht
  · intro k s hk hs
    have := run_calls_t E hE _ st s hs
    rw [this]
    have : (step_calls.take k).count Call.increment_t = 0 := by
      interval_cases k <;> decide
    rw [this]; rfl
  · intro k s hk hs
    have := run_calls_t E hE _ st s hs
    rw [this]
    have : (step_calls.take k).count Call.increment_t = 1 := by
      by_cases h21 : k ≤ 21
      · interval_cases k <;> decide
      · have hl : step_calls.length = 21 := by decide
        rw [List.take_of_length_le (by omega)]; decide
    rw [this]
    exact int_increment_eq _ ht
  · intro st0 st3 h0
    have := run_calls_t E hE step_calls st0 st3 h0
    rw [this, step_calls_increment_count]
    rfl

/-- Claim C10 (amended) at the two-chunk sample with collaborators that do nothing. -/
theorem step_increments_t_witness :
    idle_externals.keeps_t ∧ ring_fields.t ≠ INT_MAX ∧
    ∃ st2, ring_fields.step idle_externals = some st2 ∧ st2.t = ring_fields.t + 1 := by
  have hk : idle_externals.keeps_t := fun st => ⟨rfl, rfl, rfl, rfl, rfl, rfl, rfl, rfl⟩
  have hs : (ring_fields.step idle_externals).isSome = true := by decide
  obtain ⟨st2, h2⟩ := Option.isSome_iff_exists.1 hs
  exact ⟨hk, by decide, st2, h2,
    (step_increments_t idle_externals hk ring_fields st2 h2 (by decide)).1⟩

theorem unpack_writes_phase (ft : field_type) (st : fields) (op : UnpackOp) (ph : ℚ × ℚ)
    (q0 q1 : Slot) (hk : op.ip = CONNECT_PHASE)
    (hph : ((st.chunks op.i).connection_phases ft)[op.wh / 2]? = some ph)
    (h0 : ((st.chunks op.i).connections ft CONNECT_PHASE in_or_out.Incoming)[op.wh]? = some q0)
    (h1 : ((st.chunks op.i).connections ft CONNECT_PHASE in_or_out.Incoming)[op.wh + 1]?
      = some q1) :
    unpack_writes ft st op =
      if op.off + 1 < st.comm_size_tot ft op.pair then
        some [(q0, double_sub (double_mul ph.1 (st.comm_blocks ft op.pair op.off))
                (double_mul ph.2 (st.comm_blocks ft op.pair (op.off + 1)))),
              (q1, double_add (double_mul ph.1 (st.comm_blocks ft op.pair (op.off + 1)))
                (double_mul ph.2 (st.comm_blocks ft op.pair op.off)))]
      else none := by
  unfold unpack_writes
  simp only [hk, if_true, hph, h0, h1]

/-- Claim C3, counterexample. For the pair (source 0, destination 0) the phase-rotate
region has the odd size 1 and the negate region the size 1. The call returns. The pack
pass writes the one phase-rotate value at offset 0 and the negate value at offset 1; the
phase-rotate loop of the unpack pass reads the offsets 0 and 1: its second read lies
outside the phase-rotate region of length 1, at the offset of the first negate value. -/
theorem odd_phase_region_read_past :
    (lopsided_fields.step_boundaries idle_externals field_type.H_stuff).isSome = true ∧
    lopsided_fields.comm_sizes field_type.H_stuff CONNECT_PHASE
      (0 + 0 * lopsided_fields.num_chunks) = 1 ∧
    ((pack_pair_ops lopsided_fields field_type.H_stuff 0 0).filter
      (fun op => op.ip = CONNECT_PHASE)).map (fun op => op.off) = [0] ∧
    ((pack_pair_ops lopsided_fields field_type.H_stuff 0 0).filter
      (fun op => op.ip = CONNECT_NEGATE)).map (fun op => op.off) = [1] ∧
    ((unpack_pair_ops lopsided_fields field_type.H_stuff 0 0).filter
      (fun op => op.ip = CONNECT_PHASE)).flatMap (fun op => op.reads) = [0, 1] ∧
    ((unpack_pair_ops lopsided_fields field_type.H_stuff 0 0).filter
        (fun op => op.ip = CONNECT_PHASE)).flatMap (fun op => op.reads) ≠
      ((pack_pair_ops lopsided_fields field_type.H_stuff 0 0).filter
        (fun op => op.ip = CONNECT_PHASE)).map (fun op => op.off) := by
  decide

/-- Claim C3, amended (buffer layout and offset agreement). The pack pass is, for every
local source chunk and every destination, the statements `pack_pair_ops`, and the unpack
pass, for every local destination and every source, the statements `unpack_pair_ops`. For
every pair and every kind `k` among phase-rotate = 0, negate = 1, copy = 2, the pack
statements of kind `k` write the buffer offsets `off(k) + n` for `n` below the size of
`k`, in order, with `off` of phase-rotate 0, of negate the phase-rotate size and of copy
the sum of the phase-rotate and negate sizes, the three sizes adding up to
`comm_size_tot`; after the pack pass the buffer holds at offset `off(k) + n` the value of
the source chunk's `n`-th Outgoing connection of kind `k` for that pair. The unpack
statements of kind negate and copy read exactly these offsets in the same order, and so
do those of kind phase-rotate when the phase-rotate size is even; in general the
phase-rotate statements read the offsets below the size rounded up to an even number. The
value an unpack statement stores is computed from the buffer at the offsets it reads, and
a phase-rotate statement that reads past `comm_size_tot` has no result. -/
theorem buffer_regions_agree (st : fields) (ft : field_type) (j i k : Nat) :
    (pack_ops st ft = (List.range st.num_chunks).flatMap (fun j =>
      if (st.chunks j).is_mine then
        (List.range st.num_chunks).flatMap (fun i => pack_pair_ops st ft j i) else [])) ∧
    (unpack_ops st ft = (List.range st.num_chunks).flatMap (fun i =>
      if (st.chunks i).is_mine then
        (List.range st.num_chunks).flatMap (fun j => unpack_pair_ops st ft i j) else [])) ∧
    (region_offset st ft (j + i * st.num_chunks) CONNECT_PHASE = 0 ∧
      region_offset st ft (j + i * st.num_chunks) CONNECT_NEGATE =
        st.comm_sizes ft CONNECT_PHASE (j + i * st.num_chunks) ∧
      region_offset st ft (j + i * st.num_chunks) CONNECT_COPY =
        st.comm_sizes ft CONNECT_PHASE (j + i * st.num_chunks) +
          st.comm_sizes ft CONNECT_NEGATE (j + i * st.num_chunks) ∧
      region_offset st ft (j + i * st.num_chunks) 3 =
        st.comm_size_tot ft (j + i * st.num_chunks)) ∧
    (((pack_pair_ops st ft j i).filter (fun op => op.ip = k)).map (fun op => (op.pair, op.off)) =
      if k < 3 then (List.range (st.comm_sizes ft k (j + i * st.num_chunks))).map
        (fun n => (j + i * st.num_chunks, region_offset st ft (j + i * st.num_chunks) k + n))
      else []) ∧
    (∀ st3, st.pack ft = some st3 → j < st.num_chunks → i < st.num_chunks →
      (st.chunks j).is_mine = true → k < 3 →
      ∀ n, n < st.comm_sizes ft k (j + i * st.num_chunks) →
      ∀ p, ((st.chunks j).connections ft k in_or_out.Outgoing)[pack_base st ft j k i + n]?
          = some p →
        st3.comm_blocks ft (j + i * st.num_chunks)
          (region_offset st ft (j + i * st.num_chunks) k + n) = (st.chunks j).f p) ∧
    (((unpack_pair_ops st ft i j).filter (fun op => op.ip = k)).flatMap
        (fun op => op.reads.map (fun o => (op.pair, o))) =
      if k = CONNECT_PHASE then
        (List.range (phase_consumed (st.comm_sizes ft k (j + i * st.num_chunks)))).map
          (fun n => (j + i * st.num_chunks, region_offset st ft (j + i * st.num_chunks) k + n))
      else ((pack_pair_ops st ft j i).filter (fun op => op.ip = k)).map
        (fun op => (op.pair, op.off))) ∧
    (st.comm_sizes ft CONNECT_PHASE (j + i * st.num_chunks) % 2 = 0 →
      ((unpack_pair_ops st ft i j).filter (fun op => op.ip = k)).flatMap
          (fun op => op.reads.map (fun o => (op.pair, o))) =
        ((pack_pair_ops st ft j i).filter (fun op => op.ip = k)).map
          (fun op => (op.pair, op.off))) ∧
    (∀ (op : UnpackOp) (q : Slot), op.ip ≠ CONNECT_PHASE →
      ((st.chunks op.i).connections ft op.ip in_or_out.Incoming)[op.wh]? = some q →
      unpack_writes ft st op =
        some [(q, if op.ip = CONNECT_NEGATE then -st.comm_blocks ft op.pair op.off
          else st.comm_blocks ft op.pair op.off)]) ∧
    (∀ (op : UnpackOp) (ph : ℚ × ℚ) (q0 q1 : Slot), op.ip = CONNECT_PHASE →
      ((st.chunks op.i).connection_phases ft)[op.wh / 2]? = some ph →
      ((st.chunks op.i).connections ft CONNECT_PHASE in_or_out.Incoming)[op.wh]? = some q0 →
      ((st.chunks op.i).connections ft CONNECT_PHASE in_or_out.Incoming)[op.wh + 1]?
        = some q1 →
      unpack_writes ft st op =
        if op.off + 1 < st.comm_size_tot ft op.pair then
          some [(q0, double_sub (double_mul ph.1 (st.comm_blocks ft op.pair op.off))
                  (double_mul ph.2 (st.comm_blocks ft op.pair (op.off + 1)))),
                (q1, double_add (double_mul ph.1 (st.comm_blocks ft op.pair (op.off + 1)))
                  (double_mul ph.2 (st.comm_blocks ft op.pair op.off)))]
        else none) := by
  refine ⟨pack_ops_eq st ft, unpack_ops_eq st ft, region_offset_values st ft _,
    pack_pair_ops_kind st ft j i k, ?_, ?_, ?_, ?_, ?_⟩
  · intro st3 h3 hj hi hm hk n hn p hp
    exact pack_value st st3 ft h3 j i k n hj hi hk hm hn p hp
  · rw [unpack_pair_ops_kind, pack_pair_ops_kind]
  · intro hev
    rw [unpack_pair_ops_kind, pack_pair_ops_kind]
    by_cases h0 : k = CONNECT_PHASE
    · have hk : k < 3 := by rw [h0]; decide
      rw [if_pos h0, if_pos hk]
      have : phase_consumed (st.comm_sizes ft k (j + i * st.num_chunks)) =
          st.comm_sizes ft k (j + i * st.num_chunks) := by
        rw [h0]; unfold phase_consumed; omega
      rw [this]
    · rw [if_neg h0]
  · intro op q hk hq
    exact unpack_writes_plain ft st op q hk hq
  · intro op ph q0 q1 hk hph h0 h1
    exact unpack_writes_phase ft st op ph q0 q1 hk hph h0 h1

/-- Claim C3 (amended) at the two-chunk sample: the pack pass returns and leaves the
negate value 2 of chunk 0 at offset 2 of the buffer for destination 1, after the two
phase-rotate values. -/
theorem buffer_regions_agree_witness :
    region_offset ring_fields field_type.H_stuff (0 + 1 * ring_fields.num_chunks)
      CONNECT_NEGATE = 2 ∧
    ∃ st3, ring_fields.pack field_type.H_stuff = some st3 ∧
      st3.comm_blocks field_type.H_stuff (0 + 1 * ring_fields.num_chunks) (2 + 0) = 2 := by
  have hs : (ring_fields.pack field_type.H_stuff).isSome = true := by decide
  obtain ⟨st3, h3⟩ := Option.isSome_iff_exists.1 hs
  refine ⟨by decide, st3, h3, ?_⟩
  have h := (buffer_regions_agree ring_fields field_type.H_stuff 0 1 CONNECT_NEGATE).2.2.2.2.1
    st3 h3 (by decide) (by decide) rfl (by decide) 0 (by decide) ⟨0, 0, 2⟩ (by decide)
  have e : region_offset ring_fields field_type.H_stuff (0 + 1 * ring_fields.num_chunks)
      CONNECT_NEGATE = 2 := by decide
  rw [e] at h
  rw [h]
  norm_num [ring_fields, ring_chunk]

end meep
